import Mathlib

/-!
# Out-of-order pipeline simulator (`proj_tomasulo.cpp`): embedding and properties

The C++ program keeps every `Instruction` on the heap and shares `Instruction*`
pointers between the ROB and the three pipeline lists.  The embedding keeps that
sharing explicit: `Processor.mem` is the heap (pointer `p` is the `p`-th record
allocated by `read_trace`), and the ROB and the lists hold pointers.

Conventions of the embedding
* `int` members are `Int` (no wrap-around: cycle counts, tags and register numbers
  stay far below `2^31` on every trace that fits in memory);
* the width `N` and the queue size `S` are `Nat` parameters of the handlers (the
  program is run with `N ≥ 1`, `S ≥ 1`, where the `int`/`size_t` comparisons of the
  source are comparisons of natural numbers);
* `new_instructions` (the vector owned by `main`) is listed from `back()` to
  `front()`, so `back()`/`pop_back()` are head and tail of the list;
* `output` is the sequence of records printed by `retire` (one line per record,
  `toString` prints the tag, the operands and the five timings of the record).
-/

namespace Tomasulo

/-- Instruction states in the pipeline (`enum class State`). -/
inductive State where
  | IF
  | ID
  | IS
  | EX
  | WB
  deriving DecidableEq, Inhabited

/-- Timing information of one stage (`struct Timing`). -/
structure Timing where
  start : Int
  duration : Int
  deriving DecidableEq, Inhabited

/-- One instruction record (`class Instruction`). -/
structure Instruction where
  pc : Nat
  op_type : Int
  dest_reg : Int
  src1_reg : Int
  src2_reg : Int
  tag : Int
  current_state : State
  fetch_timing : Timing
  dispatch_timing : Timing
  issue_timing : Timing
  execute_timing : Timing
  writeback_timing : Timing
  src1_ready : Bool
  src2_ready : Bool
  src1_tag : Int
  src2_tag : Int
  execute_cycles_left : Int
  deriving DecidableEq, Inhabited

/-- The constructor `Instruction::Instruction`: all timings are `Timing()`, the source
tags are `-1`, and the execution latency is set from the operation type by the
`switch` (no case matches another `op_type`, which leaves the initial `0`). -/
def Instruction.create (pc : Nat) (op dst src1 src2 tag : Int) : Instruction :=
  { pc := pc, op_type := op, dest_reg := dst, src1_reg := src1, src2_reg := src2, tag := tag,
    current_state := State.IF,
    fetch_timing := ⟨0, 0⟩, dispatch_timing := ⟨0, 0⟩, issue_timing := ⟨0, 0⟩,
    execute_timing := ⟨0, 0⟩, writeback_timing := ⟨0, 0⟩,
    src1_ready := false, src2_ready := false, src1_tag := -1, src2_tag := -1,
    execute_cycles_left := if op = 0 then 1 else if op = 1 then 2 else if op = 2 then 10 else 0 }

/-- One parsed line of the trace file: `<pc> <op_type> <dest> <src1> <src2>`. -/
structure TraceLine where
  pc : Nat
  op_type : Int
  dest_reg : Int
  src1_reg : Int
  src2_reg : Int
  deriving DecidableEq, Inhabited

/-- The heap: pointer `p` is the `p`-th record allocated with `new`. -/
abbrev Mem := Nat → Instruction

/-- In-place assignment to the record behind pointer `p`. -/
def setInstr (mem : Mem) (p : Nat) (i : Instruction) : Mem :=
  fun q => if q = p then i else mem q

/-- The loop shape `for (auto x : l) { g(*x); }`: the records behind the pointers of `l`
are updated in place, in list order. -/
def forEach (mem : Mem) (l : List Nat) (g : Instruction → Instruction) : Mem :=
  l.foldl (fun m p => setInstr m p (g (m p))) mem

/-- The heap `read_trace` builds: the `p`-th line becomes the record with tag `p`
(`tag++` starts at `0`). -/
def trace_mem (lines : List TraceLine) : Mem :=
  fun p =>
    match lines[p]? with
    | some l => Instruction.create l.pc l.op_type l.dest_reg l.src1_reg l.src2_reg (p : Int)
    | none => default

/-- The vector `read_trace` returns.  After `std::reverse` its `back()` is the first
line of the file; listed from `back()` to `front()` it is the pointers in file order. -/
def read_trace (lines : List TraceLine) : List Nat :=
  List.range lines.length

/-- The members of `class Processor` (but `N`, `S`, which the handlers take as
parameters, and `pending_reads`, which no code reads or writes), with the heap, the
vector `new_instructions` of `main` and the lines written to standard output. -/
structure Processor where
  ROB : List Nat
  dispatch_list : List Nat
  issue_list : List Nat
  execute_list : List Nat
  register_file : Int → Option Int
  completed_tags : List Int
  current_cycle : Int
  total_instructions : Int
  mem : Mem
  new_instructions : List Nat
  output : List Instruction

/-- The state after `Processor processor(N, S)` in `main`, the trace already read. -/
def Processor.init (lines : List TraceLine) : Processor :=
  { ROB := [], dispatch_list := [], issue_list := [], execute_list := [],
    register_file := fun _ => none, completed_tags := [],
    current_cycle := 0, total_instructions := 0,
    mem := trace_mem lines, new_instructions := read_trace lines, output := [] }

/-! ## Fetch -/

/-- What `fetch` does to the record of an instruction it takes from the trace: state
`IF` and `IF` timing `Timing(current_cycle, 1)`. -/
def fetch_instr (cycle : Int) (i : Instruction) : Instruction :=
  { i with current_state := State.IF, fetch_timing := ⟨cycle, 1⟩ }

/-- The `while` loop of `fetch`; `fetched` is the local counter. -/
def fetch_loop (N : Nat) : Nat → List Nat → Processor → Processor
  | _, [], s => { s with new_instructions := [] }
  | fetched, instr :: rest, s =>
    if fetched < N ∧ s.dispatch_list.length < 2 * N then
      fetch_loop N (fetched + 1) rest
        { s with
          mem := setInstr s.mem instr (fetch_instr s.current_cycle (s.mem instr))
          ROB := s.ROB ++ [instr]
          dispatch_list := s.dispatch_list ++ [instr]
          total_instructions := s.total_instructions + 1 }
    else { s with new_instructions := instr :: rest }

/-- Body of the second loop of `fetch`: an `IF` record fetched in an earlier cycle
moves to `ID`. -/
def promote (cycle : Int) (i : Instruction) : Instruction :=
  if i.current_state = State.IF ∧ cycle > i.fetch_timing.start then
    { i with current_state := State.ID }
  else i

/-- The handler `Processor::fetch`. -/
def fetch (N : Nat) (s : Processor) : Processor :=
  let s1 := fetch_loop N 0 s.new_instructions s
  { s1 with mem := forEach s1.mem s1.dispatch_list (promote s1.current_cycle) }

/-! ## Dispatch -/

/-- One more cycle spent in `ID`: `dispatch_timing.duration++`. -/
def dispatch_wait (i : Instruction) : Instruction :=
  { i with dispatch_timing := ⟨i.dispatch_timing.start, i.dispatch_timing.duration + 1⟩ }

/-- Body of the first loop of `dispatch`: every `ID` record of the dispatch queue is
collected into `temp_list`, and its `ID` duration grows when it is already stamped. -/
def dispatch_collect_step (acc : Mem × List Nat) (instr : Nat) : Mem × List Nat :=
  if (acc.1 instr).current_state = State.ID then
    (if (acc.1 instr).dispatch_timing.start > 0 then
        setInstr acc.1 instr (dispatch_wait (acc.1 instr))
      else acc.1,
     acc.2 ++ [instr])
  else acc

/-- Insertion of one pointer into a list ordered by tag. -/
def insert_by_tag (mem : Mem) (x : Nat) : List Nat → List Nat
  | [] => [x]
  | y :: ys => if (mem y).tag < (mem x).tag then y :: insert_by_tag mem x ys else x :: y :: ys

/-- The call `std::sort(..., a->tag < b->tag)`.  The tags of a trace are pairwise
distinct, so the sorted order is unique and any sorting algorithm returns it. -/
def sort_by_tag (mem : Mem) : List Nat → List Nat
  | [] => []
  | x :: xs => insert_by_tag mem x (sort_by_tag mem xs)

/-- First stamp of the `ID` timing: `Timing(IF.start + IF.duration, 1)` when
`dispatch_timing.start == 0`. -/
def stamp_dispatch (i : Instruction) : Instruction :=
  if i.dispatch_timing.start = 0 then
    { i with dispatch_timing := ⟨i.fetch_timing.start + i.fetch_timing.duration, 1⟩ }
  else i

/-- Renaming of one source: the tag the register file maps the register to, `-1` when
there is no register or no mapping. -/
def rename_src (rf : Int → Option Int) (reg : Int) : Int :=
  if reg ≠ -1 then
    match rf reg with
    | some t => t
    | none => -1
  else -1

/-- The assignment `register_file[reg] = tag`. -/
def setReg (rf : Int → Option Int) (reg tag : Int) : Int → Option Int :=
  fun r => if r = reg then some tag else rf r

/-- What `dispatch` does to the record of an instruction it admits to the scheduling
queue: stamp, rename both sources, state `IS`, `IS` timing. -/
def dispatch_instr (rf : Int → Option Int) (i : Instruction) : Instruction :=
  let i1 := stamp_dispatch i
  let i2 := { i1 with src1_tag := rename_src rf i1.src1_reg }
  let i3 := { i2 with src2_tag := rename_src rf i2.src2_reg }
  let i4 := { i3 with current_state := State.IS }
  { i4 with
    issue_timing := ⟨i4.dispatch_timing.start + i4.dispatch_timing.duration, 1⟩ }

/-- The body of the second loop of `dispatch` for an instruction that does not stall:
rename, update the register file, move it from the dispatch queue to the scheduling
queue. -/
def dispatch_one (s : Processor) (instr : Nat) : Processor :=
  { s with
    mem := setInstr s.mem instr (dispatch_instr s.register_file (s.mem instr))
    register_file :=
      if (s.mem instr).dest_reg ≠ -1 then
        setReg s.register_file (s.mem instr).dest_reg (s.mem instr).tag
      else s.register_file
    dispatch_list := s.dispatch_list.erase instr
    issue_list := s.issue_list ++ [instr] }

/-- The second loop of `dispatch`, over the sorted `temp_list`; `dispatched` is the
local counter. -/
def dispatch_loop (N S : Nat) : Nat → List Nat → Processor → Processor
  | _, [], s => s
  | dispatched, instr :: rest, s =>
    if dispatched ≥ N ∨ s.issue_list.length ≥ S then
      dispatch_loop N S dispatched rest
        { s with mem := setInstr s.mem instr (stamp_dispatch (s.mem instr)) }
    else
      dispatch_loop N S (dispatched + 1) rest (dispatch_one s instr)

/-- The handler `Processor::dispatch`. -/
def dispatch (N S : Nat) (s : Processor) : Processor :=
  let collected := s.dispatch_list.foldl dispatch_collect_step (s.mem, [])
  let temp_list := sort_by_tag collected.1 collected.2
  dispatch_loop N S 0 temp_list { s with mem := collected.1 }

/-! ## Issue -/

/-- Readiness of one source as `issue` computes it:
`tag == -1 || completed_tags.count(tag) || register_file.find(reg) == end()`. -/
def src_ready (s : Processor) (tag reg : Int) : Bool :=
  decide (tag = -1) || decide (tag ∈ s.completed_tags) || (s.register_file reg).isNone

/-- The test of the first loop of `issue` that puts an entry into `ready_instructions`
(`waw_clear` is overwritten with `true` before it is read). -/
def issue_ready (s : Processor) (i : Instruction) : Bool :=
  let src1_ready := src_ready s i.src1_tag i.src1_reg
  let src2_ready := src_ready s i.src2_tag i.src2_reg
  let waw_clear := true
  src1_ready && src2_ready && waw_clear

/-- One more cycle spent in `IS`: `issue_timing.duration++`. -/
def issue_stall (i : Instruction) : Instruction :=
  { i with issue_timing := ⟨i.issue_timing.start, i.issue_timing.duration + 1⟩ }

/-- Body of the first loop of `issue`. -/
def issue_scan_step (s : Processor) (acc : Mem × List Nat) (instr : Nat) : Mem × List Nat :=
  if (acc.1 instr).current_state = State.IS ∧
      s.current_cycle ≥ (acc.1 instr).issue_timing.start then
    if issue_ready s (acc.1 instr) then (acc.1, acc.2 ++ [instr])
    else (setInstr acc.1 instr (issue_stall (acc.1 instr)), acc.2)
  else acc

/-- What `issue` does to the record of an instruction it selects. -/
def issue_instr (i : Instruction) : Instruction :=
  let i1 :=
    { i with
      execute_timing := ⟨i.issue_timing.start + i.issue_timing.duration, i.execute_cycles_left⟩ }
  { i1 with current_state := State.EX }

/-- The body of the second loop of `issue` for an instruction within the width `N`:
erase it from the scheduling queue, stamp `EX`, append it to the execute list. -/
def select (s : Processor) (instr : Nat) : Processor :=
  { s with
    issue_list := s.issue_list.erase instr
    mem := setInstr s.mem instr (issue_instr (s.mem instr))
    execute_list := s.execute_list ++ [instr] }

/-- The loop of `issue` over the sorted ready instructions; `issued` is the local
counter and the second component is `could_not_issue`. -/
def issue_loop (N : Nat) : Nat → List Nat → Processor → List Nat → Processor × List Nat
  | _, [], s, could_not_issue => (s, could_not_issue)
  | issued, instr :: rest, s, could_not_issue =>
    if issued ≥ N then issue_loop N issued rest s (could_not_issue ++ [instr])
    else issue_loop N (issued + 1) rest (select s instr) could_not_issue

/-- The handler `Processor::issue`. -/
def issue (N : Nat) (s : Processor) : Processor :=
  let scanned := s.issue_list.foldl (issue_scan_step s) (s.mem, [])
  let ready_instructions := sort_by_tag scanned.1 scanned.2
  let r := issue_loop N 0 ready_instructions { s with mem := scanned.1 } []
  { r.1 with mem := forEach r.1.mem r.2 issue_stall }

/-! ## Execute -/

/-- Body of the wake-up loop of `execute` for the completed tag `t`. -/
def wake (t : Int) (dep : Instruction) : Instruction :=
  let d1 := if dep.src1_tag = t then { dep with src1_ready := true } else dep
  if d1.src2_tag = t then { d1 with src2_ready := true } else d1

/-- The decrement `execute_cycles_left--`. -/
def tick (i : Instruction) : Instruction :=
  { i with execute_cycles_left := i.execute_cycles_left - 1 }

/-- What `execute` does to the record of an instruction that completes, after the
decrement: state `WB` and the `WB` timing `Timing(EX.start + EX.duration, 1)`. -/
def complete_instr (i : Instruction) : Instruction :=
  { i with
    current_state := State.WB
    writeback_timing := ⟨i.execute_timing.start + i.execute_timing.duration, 1⟩ }

/-- The branch of `execute` for an entry whose countdown reaches zero: the tag joins
`completed_tags`, the record moves to `WB`, and the entries of the scheduling queue
that wait for the tag are woken up. -/
def finish (s : Processor) (instr : Nat) : Processor :=
  { s with
    completed_tags := List.insert (s.mem instr).tag s.completed_tags
    mem := forEach (setInstr s.mem instr (complete_instr (tick (s.mem instr)))) s.issue_list
      (wake (s.mem instr).tag) }

/-- An entry that is not erased stays in the execute list, in front of the entries
that follow it. -/
def keep (instr : Nat) (r : Processor) : Processor :=
  { r with execute_list := instr :: r.execute_list }

/-- The loop of `execute` over the execute list.  An entry that completes is erased at
the iterator (`it = execute_list.erase(it)`); the others stay, in order. -/
def execute_loop : List Nat → Processor → Processor
  | [], s => { s with execute_list := [] }
  | instr :: rest, s =>
    if s.current_cycle ≥ (s.mem instr).execute_timing.start then
      if (s.mem instr).execute_cycles_left - 1 = 0 then
        execute_loop rest (finish s instr)
      else keep instr (execute_loop rest { s with mem := setInstr s.mem instr (tick (s.mem instr)) })
    else keep instr (execute_loop rest s)

/-- The handler `Processor::execute`. -/
def execute (s : Processor) : Processor :=
  execute_loop s.execute_list s

/-! ## Retire -/

/-- The loop condition of `retire` on the head `p` of the ROB. -/
def retirable (s : Processor) (p : Nat) : Bool :=
  decide ((s.mem p).current_state = State.WB) &&
    decide (s.current_cycle ≥
      (s.mem p).writeback_timing.start + (s.mem p).writeback_timing.duration)

/-- The `while` loop of `retire`: print the head, free it, pop it. -/
def retire_loop : List Nat → Processor → Processor
  | [], s => { s with ROB := [] }
  | p :: rest, s =>
    if retirable s p then retire_loop rest { s with output := s.output ++ [s.mem p] }
    else { s with ROB := p :: rest }

/-- The handler `Processor::retire`. -/
def retire (s : Processor) : Processor :=
  retire_loop s.ROB s

/-! ## Driver -/

/-- The method `Processor::advance_cycle`: the counter advances, and the result says
whether the ROB still holds an instruction. -/
def advance_cycle (s : Processor) : Processor × Bool :=
  ({ s with current_cycle := s.current_cycle + 1 }, !s.ROB.isEmpty)

/-- The five handlers of one iteration of the loop of `main`, in its order. -/
def handlers (N S : Nat) (s : Processor) : Processor :=
  fetch N (dispatch N S (issue N (execute (retire s))))

/-- One iteration of the loop of `main` with the counter advanced. -/
def cycle (N S : Nat) (s : Processor) : Processor :=
  (advance_cycle (handlers N S s)).1

/-- The state after `k` iterations of the loop of `main`. -/
def cycles (N S : Nat) : Nat → Processor → Processor
  | 0, s => s
  | k + 1, s => cycle N S (cycles N S k s)

/-- The `do ... while (processor.advance_cycle())` loop of `main`, with a bound on the
number of iterations: `none` when the bound is reached before the loop exits. -/
def main_loop (N S : Nat) : Nat → Processor → Option Processor
  | 0, _ => none
  | fuel + 1, s =>
    let r := advance_cycle (handlers N S s)
    if r.2 then main_loop N S fuel r.1 else some r.1

/-- The three values `print_results` writes; `ipc` is the quotient before it is
rounded to two decimals. -/
structure Results where
  number_of_instructions : Int
  number_of_cycles : Int
  ipc : ℚ

/-- The method `Processor::print_results`. -/
def print_results (s : Processor) : Results :=
  { number_of_instructions := s.total_instructions
    number_of_cycles := s.current_cycle - 1
    ipc := (s.total_instructions : ℚ) / (s.current_cycle : ℚ) }

/-- The program: read the trace, run the loop, report. -/
def simulate (N S : Nat) (lines : List TraceLine) (fuel : Nat) :
    Option (List Instruction × Results) :=
  (main_loop N S fuel (Processor.init lines)).map (fun s => (s.output, print_results s))


/-! ## Observations on a run -/

/-- The state after the first `j` handlers of an iteration of the loop of `main`
(`j = 0, ..., 5`). -/
def after_handlers (N S : Nat) : Nat → Processor → Processor
  | 0, s => s
  | 1, s => retire s
  | 2, s => execute (retire s)
  | 3, s => issue N (execute (retire s))
  | 4, s => dispatch N S (issue N (execute (retire s)))
  | _, s => handlers N S s

/-- The vector `ready_instructions` of `issue` at the end of its first loop. -/
def ready_instructions (s : Processor) : List Nat :=
  (s.issue_list.foldl (issue_scan_step s) (s.mem, [])).2

/-- The number of records of a trace of `n` instructions that are in state `x` before a
handler runs and in state `y` after it. -/
def transitions (n : Nat) (x y : State) (before after : Processor) : Nat :=
  ((List.range n).filter (fun p =>
    decide ((before.mem p).current_state = x ∧ (after.mem p).current_state = y))).length

/-! ## Auxiliary definitions for the proofs -/

/-- The test of the first loop of `issue` on the record `i`. -/
def scan_test (s : Processor) (i : Instruction) : Bool :=
  decide (i.current_state = State.IS ∧ s.current_cycle ≥ i.issue_timing.start)

/-- The entries of the scheduling queue that `issue` finds ready. -/
def ready_list (s : Processor) : List Nat :=
  s.issue_list.filter (fun p => issue_ready s (s.mem p))

/-- The record without the two wake-up flags (which `execute` writes and no handler
reads: `isReady` is never called). -/
def core (i : Instruction) : Instruction :=
  { i with src1_ready := false, src2_ready := false }

/-- The test of `execute` that the record `i` completes in cycle `cycle`. -/
def completes (cycle : Int) (i : Instruction) : Bool :=
  decide (cycle ≥ i.execute_timing.start ∧ i.execute_cycles_left - 1 = 0)

/-- What one pass of `execute` in cycle `cycle` does to the record of an entry of the
execute list, the wake-up flags apart. -/
def execute_instr (cycle : Int) (i : Instruction) : Instruction :=
  if cycle ≥ i.execute_timing.start then
    if i.execute_cycles_left - 1 = 0 then complete_instr (tick i) else tick i
  else i

/-! ## The invariant of the pipeline -/

/-- The execution latency the constructor derives from the operation type. -/
def latency (op : Int) : Int :=
  if op = 0 then 1 else if op = 1 then 2 else if op = 2 then 10 else 0

/-- The pointers `a, a+1, ..., b-1`, in order. -/
def seg (a b : Nat) : List Nat :=
  List.range' a (b - a)

/-- The register-file entry for `r` after the instructions with tags below `d` have
been renamed in program order: the tag of the last of them that writes `r`. -/
def last_writer (lines : List TraceLine) : Nat → Int → Option Int
  | 0, _ => none
  | d + 1, r =>
    if (trace_mem lines d).dest_reg ≠ -1 ∧ r = (trace_mem lines d).dest_reg then some (d : Int)
    else last_writer lines d r

/-- The fields of a record that no handler writes. -/
def sameStatic (i j : Instruction) : Prop :=
  i.pc = j.pc ∧ i.op_type = j.op_type ∧ i.dest_reg = j.dest_reg ∧ i.src1_reg = j.src1_reg ∧
    i.src2_reg = j.src2_reg ∧ i.tag = j.tag

/-- The source tags of the record are those renaming gives the instruction with tag `p`. -/
def renamed (lines : List TraceLine) (p : Nat) (i : Instruction) : Prop :=
  i.src1_tag = rename_src (last_writer lines p) i.src1_reg ∧
    i.src2_tag = rename_src (last_writer lines p) i.src2_reg

/-- The `IF` timing of a fetched record. -/
def okFetch (i : Instruction) : Prop :=
  i.fetch_timing.duration = 1 ∧ 0 ≤ i.fetch_timing.start

/-- A record fetched in cycle `c - 1`, seen in cycle `c` before `fetch` runs. -/
def okIF (c : Int) (i : Instruction) : Prop :=
  i.current_state = State.IF ∧ i.fetch_timing = ⟨c - 1, 1⟩ ∧ 0 ≤ c - 1 ∧
    i.dispatch_timing = ⟨0, 0⟩ ∧ i.execute_cycles_left = latency i.op_type

/-- A record waiting in `ID`: not stamped yet (first seen by `dispatch` in cycle `cu`),
or stamped, the stamp ending with cycle `cs - 1`. -/
def okID (cu cs : Int) (i : Instruction) : Prop :=
  i.current_state = State.ID ∧ okFetch i ∧ i.execute_cycles_left = latency i.op_type ∧
    ((i.dispatch_timing = ⟨0, 0⟩ ∧ i.fetch_timing.start + 2 = cu) ∨
      (i.dispatch_timing.start = i.fetch_timing.start + 1 ∧ 1 ≤ i.dispatch_timing.duration ∧
        i.dispatch_timing.start + i.dispatch_timing.duration + 1 = cs))

/-- The stamps of a record that has been dispatched chain from `IF` to `IS`. -/
def okChainIS (i : Instruction) : Prop :=
  okFetch i ∧ i.dispatch_timing.start = i.fetch_timing.start + i.fetch_timing.duration ∧
    1 ≤ i.dispatch_timing.duration ∧
    i.issue_timing.start = i.dispatch_timing.start + i.dispatch_timing.duration ∧
    1 ≤ i.issue_timing.duration

/-- A record waiting in the scheduling queue, seen in cycle `c` before `issue` runs. -/
def okIS (c : Int) (i : Instruction) : Prop :=
  i.current_state = State.IS ∧ okChainIS i ∧ i.execute_cycles_left = latency i.op_type ∧
    i.issue_timing.start + i.issue_timing.duration = c

/-- The stamps of a record that has been issued chain from `IF` to `EX`. -/
def okChainEX (i : Instruction) : Prop :=
  okChainIS i ∧ i.execute_timing.start = i.issue_timing.start + i.issue_timing.duration ∧
    i.execute_timing.duration = latency i.op_type

/-- A record in the execute list, seen in cycle `c` before `execute` runs. -/
def okEX (c : Int) (i : Instruction) : Prop :=
  i.current_state = State.EX ∧ okChainEX i ∧ i.execute_timing.start ≤ c - 1 ∧
    i.execute_cycles_left = latency i.op_type - (c - 1 - i.execute_timing.start) ∧
    (1 ≤ latency i.op_type → 1 ≤ i.execute_cycles_left)

/-- The stamps of a completed record chain from `IF` to `WB`. -/
def okChainWB (i : Instruction) : Prop :=
  okChainEX i ∧
    i.writeback_timing.start = i.execute_timing.start + i.execute_timing.duration ∧
    i.writeback_timing.duration = 1

/-- A record that completed before cycle `c`. -/
def okWB (c : Int) (i : Instruction) : Prop :=
  i.current_state = State.WB ∧ okChainWB i ∧ i.writeback_timing.start ≤ c - 1

/-- The invariant of the pipeline.  `D` instructions have been dispatched, `f` fetched;
the dispatch queue holds the pointers `D..f-1`, of which `D..a-1` are in `ID` and
`a..f-1` in `IF`.  The five cycle numbers say which handlers have already run in the
current cycle: a list whose handler has run satisfies its condition for the next
cycle. -/
structure Inv (lines : List TraceLine) (N S : Nat) (cE cI cu cs cF : Int) (D a f : Nat)
    (s : Processor) : Prop where
  le_D : s.output.length ≤ D
  D_le : D ≤ a
  a_le : a ≤ f
  f_le : f ≤ lines.length
  static : ∀ p, sameStatic (s.mem p) (trace_mem lines p)
  out : s.output.map core = (List.range s.output.length).map (fun p => core (s.mem p))
  rob : s.ROB = seg s.output.length f
  dl : s.dispatch_list = seg D f
  pend : s.new_instructions = seg f lines.length
  il_sorted : s.issue_list.Pairwise (fun x y => x < y)
  il_range : ∀ p ∈ s.issue_list, s.output.length ≤ p ∧ p < D
  el_nodup : s.execute_list.Nodup
  el_range : ∀ p ∈ s.execute_list, s.output.length ≤ p ∧ p < D
  hB : ∀ p, a ≤ p → p < f → okIF cF (s.mem p)
  hBlen : f - a ≤ N
  hA : ∀ p, D ≤ p → p < a → okID cu cs (s.mem p)
  hIL : ∀ p ∈ s.issue_list, okIS cI (s.mem p)
  hEL : ∀ p ∈ s.execute_list, okEX cE (s.mem p)
  hWB : ∀ p, p < D → p ∉ s.issue_list → p ∉ s.execute_list →
    okWB cE (s.mem p) ∧ (s.mem p).tag ∈ s.completed_tags
  hpend : ∀ p, f ≤ p → core (s.mem p) = core (trace_mem lines p)
  hsrc : ∀ p, p < D → renamed lines p (s.mem p)
  hrf : ∀ r, s.register_file r = last_writer lines D r
  hcomp : ∀ t ∈ s.completed_tags,
    ∃ p, p < D ∧ (p : Int) = t ∧ p ∉ s.issue_list ∧ p ∉ s.execute_list
  htotal : s.total_instructions = (f : Int)
  hdl_len : f - D ≤ 2 * N
  hil_len : s.issue_list.length ≤ S

/-- The invariant at the start of an iteration of the loop of `main`. -/
def Boundary (lines : List TraceLine) (N S : Nat) (s : Processor) : Prop :=
  0 ≤ s.current_cycle ∧
    ∃ D a f, Inv lines N S s.current_cycle s.current_cycle s.current_cycle s.current_cycle
      s.current_cycle D a f s

/-- A bound on the number of iterations a record in the ROB still needs before it is
retired, from its state and its countdown. -/
def rank (i : Instruction) : Nat :=
  match i.current_state with
  | State.IF => 14
  | State.ID => 13
  | State.IS => 12
  | State.EX => 1 + i.execute_cycles_left.toNat
  | State.WB => 1

/-- The rank of the head of the ROB, 15 when the ROB is empty. -/
def head_rank (s : Processor) : Nat :=
  match s.ROB with
  | [] => 15
  | p :: _ => rank (s.mem p)

/-- The termination measure of the loop of `main` on a trace of `n` instructions. -/
def work_left (n : Nat) (s : Processor) : Nat :=
  16 * (n - s.output.length) + head_rank s

/-- The invariant at the six points of an iteration of the loop of `main` that starts
in cycle `c`, with what `dispatch` and `fetch` do to the lists: `dispatch` admits the
pointers `D..D2-1`, `fetch` takes the pointers `f..f2-1` from the trace. -/
structure Phases (lines : List TraceLine) (N S : Nat) (c : Int) (D a f D2 f2 : Nat)
    (s : Processor) : Prop where
  h0 : Inv lines N S c c c c c D a f s
  c0 : s.current_cycle = c
  nonneg : 0 ≤ c
  h1 : Inv lines N S c c c c c D a f (retire s)
  c1 : (retire s).current_cycle = c
  h2 : Inv lines N S (c + 1) c c c c D a f (execute (retire s))
  c2 : (execute (retire s)).current_cycle = c
  out2 : (execute (retire s)).output = (retire s).output
  h3 : Inv lines N S (c + 1) (c + 1) c c c D a f (issue N (execute (retire s)))
  c3 : (issue N (execute (retire s))).current_cycle = c
  out3 : (issue N (execute (retire s))).output = (retire s).output
  hD2 : D2 = min (D + min N (S - (issue N (execute (retire s))).issue_list.length)) a
  h4 : Inv lines N S (c + 1) (c + 1) (c + 1) (c + 1) c D2 a f
    (dispatch N S (issue N (execute (retire s))))
  il4 : (dispatch N S (issue N (execute (retire s)))).issue_list =
    (issue N (execute (retire s))).issue_list ++ seg D D2
  el4 : (dispatch N S (issue N (execute (retire s)))).execute_list =
    (issue N (execute (retire s))).execute_list
  out4 : (dispatch N S (issue N (execute (retire s)))).output = (retire s).output
  c4 : (dispatch N S (issue N (execute (retire s)))).current_cycle = c
  hf2 : f2 = min (f + min N (2 * N - (f - D2))) lines.length
  h5 : Inv lines N S (c + 1) (c + 1) (c + 1) (c + 1) (c + 1) D2 f f2 (handlers N S s)
  il5 : (handlers N S s).issue_list =
    (dispatch N S (issue N (execute (retire s)))).issue_list
  el5 : (handlers N S s).execute_list =
    (dispatch N S (issue N (execute (retire s)))).execute_list
  out5 : (handlers N S s).output = (retire s).output
  c5 : (handlers N S s).current_cycle = c

/-! ## Traces used in the concrete runs -/

/-- The single-instruction trace `1000 0 1 2 3`. -/
def scenario_A : List TraceLine := [⟨4096, 0, 1, 2, 3⟩]

/-- The record `retire` prints for `scenario_A`. -/
def record_A : Instruction :=
  { pc := 4096, op_type := 0, dest_reg := 1, src1_reg := 2, src2_reg := 3, tag := 0,
    current_state := State.WB, fetch_timing := ⟨0, 1⟩, dispatch_timing := ⟨1, 1⟩,
    issue_timing := ⟨2, 1⟩, execute_timing := ⟨3, 1⟩, writeback_timing := ⟨4, 1⟩,
    src1_ready := false, src2_ready := false, src1_tag := -1, src2_tag := -1,
    execute_cycles_left := 0 }

/-- Two independent instructions of operation type 2 (latency 10), no registers. -/
def two_long : List TraceLine := [⟨0, 2, -1, -1, -1⟩, ⟨4, 2, -1, -1, -1⟩]

/-- An instruction of operation type 1 (latency 2) followed by an independent one of
operation type 0 (latency 1), no registers. -/
def long_short : List TraceLine := [⟨0, 1, -1, -1, -1⟩, ⟨4, 0, -1, -1, -1⟩]

/-- The chain of three instructions, each reading the register its predecessor writes. -/
def raw_chain : List TraceLine := [⟨4096, 0, 1, -1, -1⟩, ⟨4100, 0, 2, 1, -1⟩, ⟨4104, 0, 3, 2, -1⟩]

/-- Four independent instructions of operation type 2 (latency 10), each writing a
register of its own and reading none. -/
def scenario_C : List TraceLine :=
  [⟨4096, 2, 1, -1, -1⟩, ⟨4100, 2, 2, -1, -1⟩, ⟨4104, 2, 3, -1, -1⟩, ⟨4108, 2, 4, -1, -1⟩]

/-- A trace of two instructions without source registers that write the same
destination register `d`. -/
def same_dest (pc0 pc1 : Nat) (op0 op1 d : Int) : List TraceLine :=
  [⟨pc0, op0, d, -1, -1⟩, ⟨pc1, op1, d, -1, -1⟩]

/-- A producer of register 1, two instructions without registers, and a reader of
register 1. -/
def scenario_E : List TraceLine :=
  [⟨4096, 0, 1, -1, -1⟩, ⟨4100, 0, -1, -1, -1⟩, ⟨4104, 0, -1, -1, -1⟩, ⟨4108, 0, 2, 1, -1⟩]

/-- A producer of register 1 of operation type 2 and two readers of register 1. -/
def two_readers : List TraceLine :=
  [⟨4096, 2, 1, -1, -1⟩, ⟨4100, 0, 2, 1, -1⟩, ⟨4104, 0, 3, 1, -1⟩]

/-- The producer named by a captured source tag `t` of the record `p` (`-1`: no
producer) has completed, and its `WB` starts no later than the `EX` of `p`. -/
def okSrc (n : Nat) (s : Processor) (p : Nat) (t : Int) : Prop :=
  t = -1 ∨ ∃ q : Nat, q < n ∧ (q : Int) = t ∧ (s.mem q).current_state = State.WB ∧
    (s.mem q).writeback_timing.start ≤ (s.mem p).execute_timing.start

/-- Every record that has been issued started to execute after the producers of its two
sources completed. -/
def Producers (n : Nat) (s : Processor) : Prop :=
  ∀ p, p < n → ((s.mem p).current_state = State.EX ∨ (s.mem p).current_state = State.WB) →
    okSrc n s p (s.mem p).src1_tag ∧ okSrc n s p (s.mem p).src2_tag

/-- The record `retire` prints for the second instruction of `raw_chain` with `N = 1`,
`S = 4`. -/
def record_B1 : Instruction :=
  { pc := 4100, op_type := 0, dest_reg := 2, src1_reg := 1, src2_reg := -1, tag := 1,
    current_state := State.WB, fetch_timing := ⟨1, 1⟩, dispatch_timing := ⟨2, 1⟩,
    issue_timing := ⟨3, 1⟩, execute_timing := ⟨4, 1⟩, writeback_timing := ⟨5, 1⟩,
    src1_ready := true, src2_ready := false, src1_tag := 0, src2_tag := -1,
    execute_cycles_left := 0 }

/-! # Properties -/

/-! ## Heap updates -/

theorem setInstr_same (m : Mem) (p : Nat) (i : Instruction) : setInstr m p i p = i := by
  simp [setInstr]

theorem setInstr_other (m : Mem) {p q : Nat} (i : Instruction) (h : q ≠ p) :
    setInstr m p i q = m q := by
  simp [setInstr, h]

theorem forEach_nil (m : Mem) (g : Instruction → Instruction) : forEach m [] g = m := rfl

theorem forEach_cons (m : Mem) (p : Nat) (l : List Nat) (g : Instruction → Instruction) :
    forEach m (p :: l) g = forEach (setInstr m p (g (m p))) l g := rfl

theorem forEach_append (m : Mem) (l1 l2 : List Nat) (g : Instruction → Instruction) :
    forEach m (l1 ++ l2) g = forEach (forEach m l1 g) l2 g := by
  simp [forEach, List.foldl_append]

theorem forEach_not_mem (g : Instruction → Instruction) {q : Nat} :
    ∀ (l : List Nat) (m : Mem), q ∉ l → forEach m l g q = m q
  | [], _, _ => rfl
  | p :: l, m, h => by
    have h1 : q ≠ p := fun e => h (e ▸ List.mem_cons_self _ _)
    have h2 : q ∉ l := fun e => h (List.mem_cons_of_mem _ e)
    rw [forEach_cons, forEach_not_mem g l _ h2, setInstr_other _ _ h1]

theorem forEach_mem (g : Instruction → Instruction) {q : Nat} :
    ∀ (l : List Nat) (m : Mem), l.Nodup → q ∈ l → forEach m l g q = g (m q)
  | [], _, _, h => by simp at h
  | p :: l, m, hn, h => by
    have hn1 := List.nodup_cons.mp hn
    rw [forEach_cons]
    rcases List.mem_cons.mp h with e | e
    · subst e
      rw [forEach_not_mem g l _ hn1.1, setInstr_same]
    · have h1 : q ≠ p := fun e1 => hn1.1 (e1 ▸ e)
      rw [forEach_mem g l _ hn1.2 e, setInstr_other _ _ h1]

/-- A field that the update `g` leaves alone is left alone by the loop. -/
theorem forEach_proj {α : Type} (φ : Instruction → α) (g : Instruction → Instruction)
    (hg : ∀ i, φ (g i) = φ i) (q : Nat) :
    ∀ (l : List Nat) (m : Mem), φ (forEach m l g q) = φ (m q)
  | [], _ => rfl
  | p :: l, m => by
    rw [forEach_cons, forEach_proj φ g hg q l]
    by_cases h : q = p
    · subst h; rw [setInstr_same, hg]
    · rw [setInstr_other _ _ h]

/-- A property of records that `g` preserves is preserved by the loop. -/
theorem forEach_pred (P : Instruction → Prop) (g : Instruction → Instruction)
    (hg : ∀ i, P i → P (g i)) (q : Nat) :
    ∀ (l : List Nat) (m : Mem), P (m q) → P (forEach m l g q)
  | [], _, h => h
  | p :: l, m, h => by
    rw [forEach_cons]
    apply forEach_pred P g hg q l
    by_cases e : q = p
    · subst e; rw [setInstr_same]; exact hg _ h
    · rw [setInstr_other _ _ e]; exact h

/-! ## Sorting by tag -/

theorem insert_by_tag_le (mem : Mem) (x : Nat) (l : List Nat)
    (h : ∀ y ∈ l, (mem x).tag ≤ (mem y).tag) : insert_by_tag mem x l = x :: l := by
  cases l with
  | nil => rfl
  | cons y ys =>
    have := h y (List.mem_cons_self _ _)
    simp [insert_by_tag, not_lt.mpr this]

theorem sort_by_tag_of_sorted (mem : Mem) :
    ∀ l : List Nat, l.Pairwise (fun a b => (mem a).tag ≤ (mem b).tag) → sort_by_tag mem l = l
  | [], _ => rfl
  | x :: xs, h => by
    have h1 := List.pairwise_cons.mp h
    rw [sort_by_tag, sort_by_tag_of_sorted mem xs h1.2, insert_by_tag_le mem x xs h1.1]

theorem mem_insert_by_tag (mem : Mem) (x q : Nat) :
    ∀ l : List Nat, q ∈ insert_by_tag mem x l ↔ q = x ∨ q ∈ l
  | [] => by simp [insert_by_tag]
  | y :: ys => by
    unfold insert_by_tag
    split
    · simp [mem_insert_by_tag mem x q ys]; tauto
    · simp

theorem mem_sort_by_tag (mem : Mem) (q : Nat) :
    ∀ l : List Nat, q ∈ sort_by_tag mem l ↔ q ∈ l
  | [] => by simp [sort_by_tag]
  | x :: xs => by
    simp [sort_by_tag, mem_insert_by_tag, mem_sort_by_tag mem q xs]

theorem length_insert_by_tag (mem : Mem) (x : Nat) :
    ∀ l : List Nat, (insert_by_tag mem x l).length = l.length + 1
  | [] => rfl
  | y :: ys => by
    unfold insert_by_tag
    split
    · simp [length_insert_by_tag mem x ys]
    · simp

theorem length_sort_by_tag (mem : Mem) :
    ∀ l : List Nat, (sort_by_tag mem l).length = l.length
  | [] => rfl
  | x :: xs => by
    simp [sort_by_tag, length_insert_by_tag, length_sort_by_tag mem xs]

/-! ## Closed forms of the loops -/

theorem fetch_loop_eq (N : Nat) : ∀ (pending : List Nat) (fetched : Nat) (s : Processor),
    fetch_loop N fetched pending s =
      { s with
        mem := forEach s.mem
          (pending.take (min (N - fetched) (2 * N - s.dispatch_list.length)))
          (fetch_instr s.current_cycle)
        ROB := s.ROB ++ pending.take (min (N - fetched) (2 * N - s.dispatch_list.length))
        dispatch_list :=
          s.dispatch_list ++ pending.take (min (N - fetched) (2 * N - s.dispatch_list.length))
        total_instructions := s.total_instructions +
          ((pending.take (min (N - fetched) (2 * N - s.dispatch_list.length))).length : Int)
        new_instructions :=
          pending.drop (min (N - fetched) (2 * N - s.dispatch_list.length)) }
  | [], fetched, s => by simp [fetch_loop, forEach]
  | instr :: rest, fetched, s => by
    unfold fetch_loop
    split
    · rename_i h
      have hk : min (N - fetched) (2 * N - s.dispatch_list.length) =
          min (N - (fetched + 1)) (2 * N - (s.dispatch_list.length + 1)) + 1 := by omega
      rw [fetch_loop_eq N rest, hk]
      simp only [List.length_append, List.length_singleton, List.take_succ_cons,
        List.drop_succ_cons, forEach_cons, List.append_assoc, List.singleton_append,
        List.length_cons, List.length_nil, Nat.cast_add, Nat.cast_one, zero_add, add_assoc]
      congr 1
      omega
    · rename_i h
      have hk : min (N - fetched) (2 * N - s.dispatch_list.length) = 0 := by omega
      rw [hk]
      simp [forEach]

theorem retire_loop_eq : ∀ (l : List Nat) (s : Processor),
    retire_loop l s =
      { s with
        output := s.output ++ (l.takeWhile (retirable s)).map s.mem
        ROB := l.dropWhile (retirable s) }
  | [], s => by simp [retire_loop]
  | p :: rest, s => by
    unfold retire_loop
    split
    · rename_i h
      rw [retire_loop_eq rest]
      have hr : retirable { s with output := s.output ++ [s.mem p] } = retirable s := rfl
      simp [hr, List.takeWhile_cons, List.dropWhile_cons, h]
    · rename_i h
      simp [List.takeWhile_cons, List.dropWhile_cons, h]

theorem dispatch_loop_eq (N S : Nat) : ∀ (l : List Nat) (dispatched : Nat) (s : Processor),
    dispatch_loop N S dispatched l s =
      { (l.take (min (N - dispatched) (S - s.issue_list.length))).foldl dispatch_one s with
        mem := forEach
          ((l.take (min (N - dispatched) (S - s.issue_list.length))).foldl dispatch_one s).mem
          (l.drop (min (N - dispatched) (S - s.issue_list.length))) stamp_dispatch }
  | [], dispatched, s => by simp [dispatch_loop, forEach]
  | instr :: rest, dispatched, s => by
    unfold dispatch_loop
    split
    · rename_i h
      have hk : min (N - dispatched) (S - s.issue_list.length) = 0 := by omega
      rw [dispatch_loop_eq N S rest]
      simp only [hk, List.take_zero, List.foldl_nil, List.drop_zero, forEach_cons]
    · rename_i h
      have hk : min (N - dispatched) (S - s.issue_list.length) =
          min (N - (dispatched + 1)) (S - (dispatch_one s instr).issue_list.length) + 1 := by
        simp only [dispatch_one, List.length_append, List.length_singleton]
        omega
      rw [dispatch_loop_eq N S rest, hk]
      simp only [List.take_succ_cons, List.foldl_cons, List.drop_succ_cons]

theorem issue_loop_eq (N : Nat) :
    ∀ (l : List Nat) (issued : Nat) (s : Processor) (could_not_issue : List Nat),
    issue_loop N issued l s could_not_issue =
      ((l.take (N - issued)).foldl select s, could_not_issue ++ l.drop (N - issued))
  | [], issued, s, c => by simp [issue_loop]
  | instr :: rest, issued, s, c => by
    unfold issue_loop
    split
    · rename_i h
      have hk : N - issued = 0 := by omega
      rw [issue_loop_eq N rest, hk]
      simp
    · rename_i h
      have hk : N - issued = (N - (issued + 1)) + 1 := by omega
      rw [issue_loop_eq N rest, hk]
      simp

/-- The first loop of `dispatch` in closed form: the tests read only the state and the
`ID` start, which the loop does not change. -/
theorem dispatch_collect_eq : ∀ (l : List Nat) (m : Mem) (acc : List Nat),
    l.foldl dispatch_collect_step (m, acc) =
      (forEach m (l.filter (fun p => decide ((m p).current_state = State.ID ∧
          (m p).dispatch_timing.start > 0))) dispatch_wait,
       acc ++ l.filter (fun p => decide ((m p).current_state = State.ID)))
  | [], m, acc => by simp [forEach]
  | p :: rest, m, acc => by
    rw [List.foldl_cons, dispatch_collect_step]
    by_cases h1 : (m p).current_state = State.ID
    · by_cases h2 : (m p).dispatch_timing.start > 0
      · have hc : ∀ q, ((setInstr m p (dispatch_wait (m p)) q).current_state = (m q).current_state) ∧
            ((setInstr m p (dispatch_wait (m p)) q).dispatch_timing.start =
              (m q).dispatch_timing.start) := by
          intro q
          by_cases e : q = p
          · subst e; simp [setInstr_same, dispatch_wait]
          · simp [setInstr_other _ _ e]
        simp only [h1, h2, if_true, and_self]
        rw [dispatch_collect_eq rest]
        simp only [hc, List.filter_cons, h1, h2, and_self, decide_True, if_true, forEach_cons,
          List.append_assoc, List.singleton_append]
      · simp only [h1, h2, if_true, if_false]
        rw [dispatch_collect_eq rest]
        simp only [List.filter_cons, h1, h2, and_false, decide_False, decide_True, if_true,
          List.append_assoc, List.singleton_append]
        simp
    · simp only [h1, if_false]
      rw [dispatch_collect_eq rest]
      simp [List.filter_cons, h1]

theorem issue_scan_eq (s : Processor) : ∀ (l : List Nat) (m : Mem) (acc : List Nat),
    l.foldl (issue_scan_step s) (m, acc) =
      (forEach m (l.filter (fun p => scan_test s (m p) && !issue_ready s (m p))) issue_stall,
       acc ++ l.filter (fun p => scan_test s (m p) && issue_ready s (m p)))
  | [], m, acc => by simp [forEach]
  | p :: rest, m, acc => by
    rw [List.foldl_cons, issue_scan_step]
    by_cases h1 : (m p).current_state = State.IS ∧ s.current_cycle ≥ (m p).issue_timing.start
    · have h1t : scan_test s (m p) = true := by simp [scan_test, h1]
      by_cases h2 : issue_ready s (m p) = true
      · simp only [h1, h2, and_self, if_true]
        rw [issue_scan_eq s rest]
        simp [List.filter_cons, h1t, h2]
      · have hc1 : ∀ q, scan_test s (setInstr m p (issue_stall (m p)) q) = scan_test s (m q) := by
          intro q
          by_cases e : q = p
          · subst e; simp [setInstr_same, issue_stall, scan_test]
          · simp [setInstr_other _ _ e]
        have hc2 : ∀ q, issue_ready s (setInstr m p (issue_stall (m p)) q) =
            issue_ready s (m q) := by
          intro q
          by_cases e : q = p
          · subst e; simp [setInstr_same, issue_stall, issue_ready]
          · simp [setInstr_other _ _ e]
        have h2f : issue_ready s (m p) = false := by simpa using h2
        simp only [h1, h2f, and_self, if_true, Bool.false_eq_true, if_false]
        rw [issue_scan_eq s rest]
        have hf1 : (fun q => scan_test s (setInstr m p (issue_stall (m p)) q) &&
            !issue_ready s (setInstr m p (issue_stall (m p)) q)) =
            (fun q => scan_test s (m q) && !issue_ready s (m q)) := by
          funext q; rw [hc1, hc2]
        have hf2 : (fun q => scan_test s (setInstr m p (issue_stall (m p)) q) &&
            issue_ready s (setInstr m p (issue_stall (m p)) q)) =
            (fun q => scan_test s (m q) && issue_ready s (m q)) := by
          funext q; rw [hc1, hc2]
        rw [hf1, hf2]
        simp [List.filter_cons, h1t, h2f, forEach_cons]
    · have h1t : scan_test s (m p) = false := by simp [scan_test, h1]
      simp only [h1, if_false]
      rw [issue_scan_eq s rest]
      simp [List.filter_cons, h1t]

/-! ## The loop of `execute` -/

theorem core_wake (t : Int) (i : Instruction) : core (wake t i) = core i := by
  by_cases h1 : i.src1_tag = t <;> by_cases h2 : i.src2_tag = t <;> simp [wake, core, h1, h2]

theorem core_execute_instr (c : Int) (i : Instruction) :
    core (execute_instr c i) = execute_instr c (core i) := by
  by_cases h1 : c ≥ i.execute_timing.start <;>
    by_cases h2 : i.execute_cycles_left - 1 = 0 <;>
    simp [execute_instr, core, tick, complete_instr, h1, h2]

theorem core_congr_execute_instr (c : Int) {i j : Instruction} (h : core i = core j) :
    core (execute_instr c i) = core (execute_instr c j) := by
  rw [core_execute_instr, core_execute_instr, h]

theorem completes_core (c : Int) (i : Instruction) : completes c (core i) = completes c i := rfl

theorem completes_congr (c : Int) {i j : Instruction} (h : core i = core j) :
    completes c i = completes c j := by
  rw [← completes_core c i, ← completes_core c j, h]

theorem core_forEach_wake (t : Int) (q : Nat) (l : List Nat) (m : Mem) :
    core (forEach m l (wake t) q) = core (m q) :=
  forEach_proj core (wake t) (core_wake t) q l m

theorem execute_loop_frame : ∀ (l : List Nat) (s : Processor),
    (execute_loop l s).ROB = s.ROB ∧
    (execute_loop l s).dispatch_list = s.dispatch_list ∧
    (execute_loop l s).issue_list = s.issue_list ∧
    (execute_loop l s).register_file = s.register_file ∧
    (execute_loop l s).current_cycle = s.current_cycle ∧
    (execute_loop l s).total_instructions = s.total_instructions ∧
    (execute_loop l s).new_instructions = s.new_instructions ∧
    (execute_loop l s).output = s.output
  | [], s => by simp [execute_loop]
  | p :: rest, s => by
    rw [execute_loop]
    split
    · split
      · simpa [finish] using execute_loop_frame rest (finish s p)
      · simpa [keep] using execute_loop_frame rest
          { s with mem := setInstr s.mem p (tick (s.mem p)) }
    · simpa [keep] using execute_loop_frame rest s

theorem finish_core (s : Processor) {p q : Nat} (h : q ≠ p) :
    core ((finish s p).mem q) = core (s.mem q) := by
  simp only [finish]
  rw [core_forEach_wake, setInstr_other _ _ h]

theorem finish_core_same (s : Processor) (p : Nat) :
    core ((finish s p).mem p) = core (complete_instr (tick (s.mem p))) := by
  simp only [finish]
  rw [core_forEach_wake, setInstr_same]

theorem execute_loop_list : ∀ (l : List Nat) (s : Processor), l.Nodup →
    (execute_loop l s).execute_list =
      l.filter (fun p => !completes s.current_cycle (s.mem p))
  | [], s, _ => by simp [execute_loop]
  | p :: rest, s, hn => by
    have hn1 := List.nodup_cons.mp hn
    rw [execute_loop]
    by_cases h1 : s.current_cycle ≥ (s.mem p).execute_timing.start
    · by_cases h2 : (s.mem p).execute_cycles_left - 1 = 0
      · have hc : completes s.current_cycle (s.mem p) = true := by simp [completes, h1, h2]
        simp only [h1, h2, if_true]
        rw [execute_loop_list rest _ hn1.2, List.filter_cons]
        simp only [hc, Bool.not_true, Bool.false_eq_true, if_false]
        apply List.filter_congr
        intro q hq
        have hqp : q ≠ p := fun e => hn1.1 (e ▸ hq)
        congr 1
        exact completes_congr _ (finish_core s hqp)
      · have hc : completes s.current_cycle (s.mem p) = false := by simp [completes, h1, h2]
        simp only [h1, h2, if_true, if_false, keep]
        rw [execute_loop_list rest _ hn1.2, List.filter_cons]
        simp only [hc, Bool.not_false, if_true]
        congr 1
        apply List.filter_congr
        intro q hq
        have hqp : q ≠ p := fun e => hn1.1 (e ▸ hq)
        simp only [setInstr_other _ _ hqp]
    · have hc : completes s.current_cycle (s.mem p) = false := by simp [completes, h1]
      simp only [h1, if_false, keep]
      rw [execute_loop_list rest _ hn1.2, List.filter_cons]
      simp only [hc, Bool.not_false, if_true]

theorem execute_loop_mem : ∀ (l : List Nat) (s : Processor), l.Nodup → ∀ q,
    core ((execute_loop l s).mem q) =
      core (if q ∈ l then execute_instr s.current_cycle (s.mem q) else s.mem q)
  | [], s, _, q => by simp [execute_loop]
  | p :: rest, s, hn, q => by
    have hn1 := List.nodup_cons.mp hn
    rw [execute_loop]
    by_cases h1 : s.current_cycle ≥ (s.mem p).execute_timing.start
    · by_cases h2 : (s.mem p).execute_cycles_left - 1 = 0
      · simp only [h1, h2, if_true]
        rw [execute_loop_mem rest _ hn1.2 q]
        by_cases hq : q ∈ rest
        · have hqp : q ≠ p := fun e => hn1.1 (e ▸ hq)
          simp only [hq, List.mem_cons, or_true, if_true]
          exact core_congr_execute_instr _ (finish_core s hqp)
        · simp only [hq, if_false, List.mem_cons, or_false]
          by_cases hqp : q = p
          · subst hqp
            rw [finish_core_same]
            simp [execute_instr, h1, h2]
          · rw [finish_core s hqp]
            simp [hqp]
      · simp only [h1, h2, if_true, if_false, keep]
        rw [execute_loop_mem rest _ hn1.2 q]
        by_cases hq : q ∈ rest
        · have hqp : q ≠ p := fun e => hn1.1 (e ▸ hq)
          simp only [hq, List.mem_cons, or_true, if_true, setInstr_other _ _ hqp]
        · simp only [hq, if_false, List.mem_cons, or_false]
          by_cases hqp : q = p
          · subst hqp
            simp [setInstr_same, execute_instr, h1, h2]
          · simp [setInstr_other _ _ hqp, hqp]
    · simp only [h1, if_false, keep]
      rw [execute_loop_mem rest _ hn1.2 q]
      by_cases hq : q ∈ rest
      · simp only [hq, List.mem_cons, or_true, if_true]
      · simp only [hq, if_false, List.mem_cons, or_false]
        by_cases hqp : q = p
        · subst hqp
          simp [execute_instr, h1]
        · simp [hqp]

theorem execute_loop_completed : ∀ (l : List Nat) (s : Processor), l.Nodup → ∀ t,
    t ∈ (execute_loop l s).completed_tags ↔
      t ∈ s.completed_tags ∨
        ∃ p ∈ l, completes s.current_cycle (s.mem p) = true ∧ (s.mem p).tag = t
  | [], s, _, t => by simp [execute_loop]
  | p :: rest, s, hn, t => by
    have hn1 := List.nodup_cons.mp hn
    rw [execute_loop]
    by_cases h1 : s.current_cycle ≥ (s.mem p).execute_timing.start
    · by_cases h2 : (s.mem p).execute_cycles_left - 1 = 0
      · have hc : completes s.current_cycle (s.mem p) = true := by simp [completes, h1, h2]
        simp only [h1, h2, if_true]
        rw [execute_loop_completed rest _ hn1.2 t]
        have hrest : ∀ q ∈ rest,
            completes s.current_cycle ((finish s p).mem q) =
              completes s.current_cycle (s.mem q) ∧
            ((finish s p).mem q).tag = (s.mem q).tag := by
          intro q hq
          have hqp : q ≠ p := fun e => hn1.1 (e ▸ hq)
          have ht : (core ((finish s p).mem q)).tag = (core (s.mem q)).tag :=
            congrArg Instruction.tag (finish_core s hqp)
          exact ⟨completes_congr _ (finish_core s hqp), ht⟩
        have e1 : (finish s p).completed_tags = List.insert (s.mem p).tag s.completed_tags := rfl
        have e2 : (finish s p).current_cycle = s.current_cycle := rfl
        rw [e1, e2]
        simp only [List.mem_insert_iff, List.mem_cons, exists_eq_or_imp, hc, true_and]
        constructor
        · rintro ((h | h) | ⟨q, hq, hcq, htq⟩)
          · right; left; exact h.symm
          · left; exact h
          · right; right
            exact ⟨q, hq, (hrest q hq).1 ▸ hcq, (hrest q hq).2 ▸ htq⟩
        · rintro (h | h | ⟨q, hq, hcq, htq⟩)
          · left; right; exact h
          · left; left; exact h.symm
          · right
            exact ⟨q, hq, (hrest q hq).1.symm ▸ hcq, (hrest q hq).2.symm ▸ htq⟩
      · have hc : completes s.current_cycle (s.mem p) = false := by simp [completes, h1, h2]
        simp only [h1, h2, if_true, if_false, keep]
        rw [execute_loop_completed rest _ hn1.2 t]
        simp only [List.mem_cons, exists_eq_or_imp, hc, Bool.false_eq_true, false_and, false_or]
        constructor
        · rintro (h | ⟨q, hq, hcq, htq⟩)
          · left; exact h
          · have hqp : q ≠ p := fun e => hn1.1 (e ▸ hq)
            rw [setInstr_other _ _ hqp] at hcq htq
            exact Or.inr ⟨q, hq, hcq, htq⟩
        · rintro (h | ⟨q, hq, hcq, htq⟩)
          · left; exact h
          · have hqp : q ≠ p := fun e => hn1.1 (e ▸ hq)
            right
            refine ⟨q, hq, ?_, ?_⟩
            · rw [setInstr_other _ _ hqp]; exact hcq
            · rw [setInstr_other _ _ hqp]; exact htq
    · have hc : completes s.current_cycle (s.mem p) = false := by simp [completes, h1]
      simp only [h1, if_false, keep]
      rw [execute_loop_completed rest _ hn1.2 t]
      simp only [List.mem_cons, exists_eq_or_imp, hc, Bool.false_eq_true, false_and, false_or]

/-! ## Segments of pointers -/

theorem mem_seg {a b p : Nat} : p ∈ seg a b ↔ a ≤ p ∧ p < b := by
  unfold seg
  rw [List.mem_range'_1]
  omega

theorem seg_eq_nil {a b : Nat} (h : b ≤ a) : seg a b = [] := by
  unfold seg
  rw [Nat.sub_eq_zero_of_le h]
  rfl

theorem seg_cons {a b : Nat} (h : a < b) : seg a b = a :: seg (a + 1) b := by
  unfold seg
  have e : b - a = (b - (a + 1)) + 1 := by omega
  rw [e, List.range'_succ]

theorem seg_append {a b c : Nat} (h1 : a ≤ b) (h2 : b ≤ c) : seg a b ++ seg b c = seg a c := by
  unfold seg
  have e : b = a + (b - a) := by omega
  have e2 : c - a = (c - b) + (b - a) := by omega
  conv_lhs => rw [show List.range' b (c - b) = List.range' (a + (b - a)) (c - b) by rw [← e]]
  rw [List.range'_append_1, e2]

theorem seg_snoc {a b : Nat} (h : a ≤ b) : seg a (b + 1) = seg a b ++ [b] := by
  rw [← seg_append h (Nat.le_succ b), seg_cons (Nat.lt_succ_self b), seg_eq_nil (le_refl _)]

theorem length_seg (a b : Nat) : (seg a b).length = b - a := by
  unfold seg
  rw [List.length_range']

theorem nodup_seg (a b : Nat) : (seg a b).Nodup := List.nodup_range' _ _

theorem pairwise_seg (a b : Nat) : (seg a b).Pairwise (fun x y => x < y) :=
  List.pairwise_lt_range' _ _

theorem seg_zero (n : Nat) : seg 0 n = List.range n := by
  unfold seg
  rw [List.range_eq_range']
  rfl

theorem take_seg : ∀ (k a b : Nat), (seg a b).take k = seg a (min (a + k) b)
  | 0, a, b => by
    rw [List.take_zero, seg_eq_nil]
    omega
  | k + 1, a, b => by
    by_cases h : a < b
    · rw [seg_cons h, List.take_succ_cons, take_seg k (a + 1) b]
      have h2 : a < min (a + (k + 1)) b := by omega
      rw [seg_cons h2]
      congr 2
      omega
    · rw [seg_eq_nil (by omega), seg_eq_nil (by omega)]
      rfl

theorem drop_seg : ∀ (k a b : Nat), (seg a b).drop k = seg (a + k) b
  | 0, a, b => by simp
  | k + 1, a, b => by
    by_cases h : a < b
    · rw [seg_cons h, List.drop_succ_cons, drop_seg k (a + 1) b]
      congr 1
      omega
    · rw [seg_eq_nil (by omega), seg_eq_nil (by omega)]
      rfl

/-- A `while` loop that pops the head of a segment as long as a test holds stops at
some pointer `r`. -/
theorem span_seg (P : Nat → Bool) : ∀ (n a b : Nat), b - a = n → a ≤ b →
    ∃ r, a ≤ r ∧ r ≤ b ∧ (seg a b).takeWhile P = seg a r ∧ (seg a b).dropWhile P = seg r b ∧
      (∀ p, a ≤ p → p < r → P p = true) ∧ (r < b → P r = false)
  | 0, a, b, hn, hab => by
    have e : b = a := by omega
    subst e
    refine ⟨b, le_refl _, le_refl _, ?_, ?_, ?_, ?_⟩
    · simp [seg_eq_nil]
    · simp [seg_eq_nil]
    · intro p h1 h2; omega
    · intro h; omega
  | n + 1, a, b, hn, hab => by
    have hlt : a < b := by omega
    by_cases hP : P a = true
    · obtain ⟨r, h1, h2, h3, h4, h5, h6⟩ := span_seg P n (a + 1) b (by omega) (by omega)
      refine ⟨r, by omega, h2, ?_, ?_, ?_, h6⟩
      · rw [seg_cons hlt, List.takeWhile_cons, if_pos hP, h3, ← seg_cons (by omega)]
      · rw [seg_cons hlt, List.dropWhile_cons, if_pos hP, h4]
      · intro p hp1 hp2
        by_cases e : p = a
        · subst e; exact hP
        · exact h5 p (by omega) hp2
    · refine ⟨a, le_refl _, hab, ?_, ?_, ?_, ?_⟩
      · rw [seg_cons hlt, List.takeWhile_cons, if_neg hP, seg_eq_nil (le_refl _)]
      · rw [seg_cons hlt, List.dropWhile_cons, if_neg hP]
      · intro p h1 h2; omega
      · intro _; simpa using hP

theorem filter_seg (P : Nat → Bool) {a m b : Nat} (h1 : a ≤ m) (h2 : m ≤ b)
    (ht : ∀ p, a ≤ p → p < m → P p = true) (hf : ∀ p, m ≤ p → p < b → P p = false) :
    (seg a b).filter P = seg a m := by
  rw [← seg_append h1 h2, List.filter_append]
  have e1 : (seg a m).filter P = seg a m :=
    List.filter_eq_self.mpr (fun p hp => ht p (mem_seg.mp hp).1 (mem_seg.mp hp).2)
  have e2 : (seg m b).filter P = [] :=
    List.filter_eq_nil_iff.mpr (fun p hp => by
      rw [hf p (mem_seg.mp hp).1 (mem_seg.mp hp).2]; simp)
  rw [e1, e2, List.append_nil]

theorem erase_seg_head {a b : Nat} (h : a < b) : (seg a b).erase a = seg (a + 1) b := by
  rw [seg_cons h, List.erase_cons_head]

/-! ## Erasing a list of entries -/

theorem foldl_erase_sublist : ∀ (d l : List Nat),
    (d.foldl (fun (acc : List Nat) p => acc.erase p) l).Sublist l
  | [], l => List.Sublist.refl l
  | p :: d, l => by
    rw [List.foldl_cons]
    exact (foldl_erase_sublist d (l.erase p)).trans (List.erase_sublist p l)

theorem mem_foldl_erase : ∀ (d l : List Nat), l.Nodup → ∀ q,
    (q ∈ d.foldl (fun (acc : List Nat) p => acc.erase p) l ↔ q ∈ l ∧ q ∉ d)
  | [], l, _, q => by simp
  | p :: d, l, hn, q => by
    rw [List.foldl_cons, mem_foldl_erase d (l.erase p) (hn.erase p) q,
      hn.mem_erase_iff, List.mem_cons]
    tauto

theorem length_foldl_erase : ∀ (d l : List Nat),
    (d.foldl (fun (acc : List Nat) p => acc.erase p) l).length ≤ l.length
  | d, l => (foldl_erase_sublist d l).length_le

/-! ## Records -/

theorem trace_mem_lt (lines : List TraceLine) {p : Nat} (h : p < lines.length) :
    trace_mem lines p =
      Instruction.create (lines[p]).pc (lines[p]).op_type (lines[p]).dest_reg
        (lines[p]).src1_reg (lines[p]).src2_reg (p : Int) := by
  unfold trace_mem
  rw [List.getElem?_eq_getElem h]

theorem trace_mem_tag (lines : List TraceLine) {p : Nat} (h : p < lines.length) :
    (trace_mem lines p).tag = (p : Int) := by
  rw [trace_mem_lt lines h]; rfl

theorem trace_mem_left (lines : List TraceLine) {p : Nat} (h : p < lines.length) :
    (trace_mem lines p).execute_cycles_left = latency (trace_mem lines p).op_type := by
  rw [trace_mem_lt lines h]; rfl

theorem trace_mem_dispatch_timing (lines : List TraceLine) {p : Nat} (h : p < lines.length) :
    (trace_mem lines p).dispatch_timing = ⟨0, 0⟩ := by
  rw [trace_mem_lt lines h]; rfl

theorem sameStatic_refl (i : Instruction) : sameStatic i i :=
  ⟨rfl, rfl, rfl, rfl, rfl, rfl⟩

theorem sameStatic_trans {i j k : Instruction} (h1 : sameStatic i j) (h2 : sameStatic j k) :
    sameStatic i k :=
  ⟨h1.1.trans h2.1, h1.2.1.trans h2.2.1, h1.2.2.1.trans h2.2.2.1,
    h1.2.2.2.1.trans h2.2.2.2.1, h1.2.2.2.2.1.trans h2.2.2.2.2.1,
    h1.2.2.2.2.2.trans h2.2.2.2.2.2⟩

/-- A property that does not read the wake-up flags holds of two records that differ
in the flags only. -/
theorem of_core {P : Instruction → Prop} (hP : ∀ i, P (core i) ↔ P i) {i j : Instruction}
    (h : core i = core j) (hi : P i) : P j :=
  (hP j).mp (h ▸ (hP i).mpr hi)

theorem okIF_core (c : Int) (i : Instruction) : okIF c (core i) ↔ okIF c i := Iff.rfl
theorem okID_core (cu cs : Int) (i : Instruction) : okID cu cs (core i) ↔ okID cu cs i := Iff.rfl
theorem okIS_core (c : Int) (i : Instruction) : okIS c (core i) ↔ okIS c i := Iff.rfl
theorem okEX_core (c : Int) (i : Instruction) : okEX c (core i) ↔ okEX c i := Iff.rfl
theorem okWB_core (c : Int) (i : Instruction) : okWB c (core i) ↔ okWB c i := Iff.rfl
theorem renamed_core (lines : List TraceLine) (p : Nat) (i : Instruction) :
    renamed lines p (core i) ↔ renamed lines p i := Iff.rfl
theorem sameStatic_core (j i : Instruction) : sameStatic (core i) j ↔ sameStatic i j := Iff.rfl

theorem okWB_mono {c d : Int} (h : c ≤ d) {i : Instruction} (hi : okWB c i) : okWB d i :=
  ⟨hi.1, hi.2.1, by have := hi.2.2; omega⟩

/-! ## Retire -/

theorem retire_eq (s : Processor) :
    retire s =
      { s with
        output := s.output ++ (s.ROB.takeWhile (retirable s)).map s.mem
        ROB := s.ROB.dropWhile (retirable s) } :=
  retire_loop_eq s.ROB s

theorem retirable_state {s : Processor} {p : Nat} (h : retirable s p = true) :
    (s.mem p).current_state = State.WB := by
  simp [retirable] at h
  exact h.1

/-- The effect of `retire` on a state that satisfies the invariant: the instructions
`r .. r'-1` at the head of the ROB are printed and popped. -/
theorem retire_spec {lines : List TraceLine} {N S : Nat} {cE cI cu cs cF : Int} {D a f : Nat}
    {s : Processor} (h : Inv lines N S cE cI cu cs cF D a f s) :
    ∃ r, s.output.length ≤ r ∧ r ≤ D ∧
      retire s =
        { s with output := s.output ++ (seg s.output.length r).map s.mem, ROB := seg r f } ∧
      (∀ p, s.output.length ≤ p → p < r → retirable s p = true) ∧
      (r < f → retirable s r = false) := by
  have hrf : s.output.length ≤ f := le_trans h.le_D (le_trans h.D_le h.a_le)
  obtain ⟨r, h1, h2, h3, h4, h5, h6⟩ :=
    span_seg (retirable s) (f - s.output.length) s.output.length f rfl hrf
  have hrD : r ≤ D := by
    by_contra hc
    have hD : retirable s D = true := h5 D h.le_D (by omega)
    have hst := retirable_state hD
    by_cases ha : D < a
    · have := (h.hA D (le_refl _) ha).1
      rw [hst] at this; cases this
    · have := (h.hB D (by omega) (by omega)).1
      rw [hst] at this; cases this
  refine ⟨r, h1, hrD, ?_, h5, h6⟩
  rw [retire_eq, h.rob, h3, h4]

theorem retire_inv {lines : List TraceLine} {N S : Nat} {cE cI cu cs cF : Int} {D a f : Nat}
    {s : Processor} (h : Inv lines N S cE cI cu cs cF D a f s) :
    Inv lines N S cE cI cu cs cF D a f (retire s) := by
  obtain ⟨r, h1, h2, h3, h4, _⟩ := retire_spec h
  have hlen : (s.output ++ (seg s.output.length r).map s.mem).length = r := by
    rw [List.length_append, List.length_map, length_seg]; omega
  have hnot : ∀ p, s.output.length ≤ p → (s.mem p).current_state ≠ State.WB → r ≤ p := by
    intro p hp hst
    by_contra hc
    exact hst (retirable_state (h4 p hp (by omega)))
  rw [h3]
  exact
    { le_D := by rw [hlen]; exact h2
      D_le := h.D_le
      a_le := h.a_le
      f_le := h.f_le
      static := h.static
      out := by
        show List.map core (s.output ++ (seg s.output.length r).map s.mem) =
          (List.range (s.output ++ (seg s.output.length r).map s.mem).length).map
            (fun p => core (s.mem p))
        rw [hlen, List.map_append, h.out, List.map_map, ← seg_zero, ← seg_zero,
          ← seg_append (Nat.zero_le _) h1, List.map_append]
        rfl
      rob := by
        show seg r f = seg (s.output ++ (seg s.output.length r).map s.mem).length f
        rw [hlen]
      dl := h.dl
      pend := h.pend
      il_sorted := h.il_sorted
      il_range := by
        intro p hp
        show (s.output ++ (seg s.output.length r).map s.mem).length ≤ p ∧ p < D
        rw [hlen]
        refine ⟨hnot p (h.il_range p hp).1 ?_, (h.il_range p hp).2⟩
        rw [(h.hIL p hp).1]; decide
      el_nodup := h.el_nodup
      el_range := by
        intro p hp
        show (s.output ++ (seg s.output.length r).map s.mem).length ≤ p ∧ p < D
        rw [hlen]
        refine ⟨hnot p (h.el_range p hp).1 ?_, (h.el_range p hp).2⟩
        rw [(h.hEL p hp).1]; decide
      hB := h.hB
      hBlen := h.hBlen
      hA := h.hA
      hIL := h.hIL
      hEL := h.hEL
      hWB := h.hWB
      hpend := h.hpend
      hsrc := h.hsrc
      hrf := h.hrf
      hcomp := h.hcomp
      htotal := h.htotal
      hdl_len := h.hdl_len
      hil_len := h.hil_len }

/-! ## Execute -/

theorem sameStatic_execute_instr (c : Int) (i : Instruction) :
    sameStatic (execute_instr c i) i := by
  by_cases h1 : c ≥ i.execute_timing.start <;>
    by_cases h2 : i.execute_cycles_left - 1 = 0 <;>
    simp [execute_instr, tick, complete_instr, h1, h2, sameStatic]

theorem renamed_execute_instr (lines : List TraceLine) (p : Nat) (c : Int) (i : Instruction)
    (h : renamed lines p i) : renamed lines p (execute_instr c i) := by
  by_cases h1 : c ≥ i.execute_timing.start <;>
    by_cases h2 : i.execute_cycles_left - 1 = 0 <;>
    simpa [execute_instr, tick, complete_instr, h1, h2, renamed] using h

theorem okEX_completes {c : Int} {i : Instruction} (h : okEX c i)
    (hc : completes c i = true) : okWB (c + 1) (execute_instr c i) := by
  obtain ⟨h1, h2, h3, h4, h5⟩ := h
  simp only [completes, decide_eq_true_eq] at hc
  simp only [execute_instr, hc.1, hc.2, if_true]
  refine ⟨rfl, ⟨h2, rfl, rfl⟩, ?_⟩
  show i.execute_timing.start + i.execute_timing.duration ≤ c + 1 - 1
  have := h2.2.2
  have := hc.2
  omega

theorem okEX_stays {c : Int} {i : Instruction} (h : okEX c i)
    (hc : completes c i = false) : okEX (c + 1) (execute_instr c i) := by
  obtain ⟨h1, h2, h3, h4, h5⟩ := h
  have hg : c ≥ i.execute_timing.start := by omega
  have hn : ¬ (i.execute_cycles_left - 1 = 0) := by
    intro e
    simp [completes, hg, e] at hc
  simp only [execute_instr, hg, hn, if_true, if_false]
  refine ⟨h1, h2, ?_, ?_, ?_⟩
  · show i.execute_timing.start ≤ c + 1 - 1
    omega
  · show i.execute_cycles_left - 1 = latency i.op_type - (c + 1 - 1 - i.execute_timing.start)
    omega
  · show 1 ≤ latency i.op_type → 1 ≤ i.execute_cycles_left - 1
    intro hl
    have := h5 hl
    omega

theorem execute_inv {lines : List TraceLine} {N S : Nat} {c cI cu cs cF : Int} {D a f : Nat}
    {s : Processor} (h : Inv lines N S c cI cu cs cF D a f s) (hcyc : s.current_cycle = c) :
    Inv lines N S (c + 1) cI cu cs cF D a f (execute s) := by
  obtain ⟨f1, f2, f3, f4, f5, f6, f7, f8⟩ := execute_loop_frame s.execute_list s
  have hl := execute_loop_list s.execute_list s h.el_nodup
  have hm := execute_loop_mem s.execute_list s h.el_nodup
  have hcm := execute_loop_completed s.execute_list s h.el_nodup
  rw [hcyc] at hl hm hcm
  have hout : ∀ {q}, q ∉ s.execute_list → core ((execute s).mem q) = core (s.mem q) := by
    intro q hq
    have := hm q
    rwa [if_neg hq] at this
  have hin : ∀ {q}, q ∈ s.execute_list →
      core ((execute s).mem q) = core (execute_instr c (s.mem q)) := by
    intro q hq
    have := hm q
    rwa [if_pos hq] at this
  have hsub : ∀ {q}, q ∈ (execute s).execute_list → q ∈ s.execute_list ∧
      completes c (s.mem q) = false := by
    intro q hq
    have hq2 : q ∈ (execute_loop s.execute_list s).execute_list := hq
    rw [hl, List.mem_filter] at hq2
    exact ⟨hq2.1, by simpa using hq2.2⟩
  have hdisj : ∀ {q}, q ∈ s.issue_list → q ∉ s.execute_list := by
    intro q h1 h2
    have e1 := (h.hIL q h1).1
    have e2 := (h.hEL q h2).1
    rw [e1] at e2; cases e2
  have hany : ∀ (P : Instruction → Prop), (∀ i, P (core i) ↔ P i) →
      (∀ i, P i → P (execute_instr c i)) → ∀ q, P (s.mem q) → P ((execute s).mem q) := by
    intro P hP hstep q hq
    by_cases hqe : q ∈ s.execute_list
    · exact of_core hP (hin hqe).symm (hstep _ hq)
    · exact of_core hP (hout hqe).symm hq
  exact
    { le_D := by show (execute_loop s.execute_list s).output.length ≤ D; rw [f8]; exact h.le_D
      D_le := h.D_le
      a_le := h.a_le
      f_le := h.f_le
      static := fun p =>
        hany (fun i => sameStatic i (trace_mem lines p)) (fun _ => Iff.rfl)
          (fun i hi => sameStatic_trans (sameStatic_execute_instr c i) hi) p (h.static p)
      out := by
        show List.map core (execute_loop s.execute_list s).output =
          (List.range (execute_loop s.execute_list s).output.length).map
            (fun p => core ((execute s).mem p))
        rw [f8, h.out]
        apply List.map_congr_left
        intro p hp
        have hp2 : p < s.output.length := List.mem_range.mp hp
        have : p ∉ s.execute_list := fun e => by have := (h.el_range p e).1; omega
        exact (hout this).symm
      rob := by show (execute_loop s.execute_list s).ROB = seg (execute_loop s.execute_list s).output.length f; rw [f1, f8]; exact h.rob
      dl := by show (execute_loop s.execute_list s).dispatch_list = _; rw [f2]; exact h.dl
      pend := by show (execute_loop s.execute_list s).new_instructions = _; rw [f7]; exact h.pend
      il_sorted := by show (execute_loop s.execute_list s).issue_list.Pairwise _; rw [f3]; exact h.il_sorted
      il_range := by
        intro p hp
        have hp2 : p ∈ (execute_loop s.execute_list s).issue_list := hp
        rw [f3] at hp2
        show (execute_loop s.execute_list s).output.length ≤ p ∧ p < D
        rw [f8]; exact h.il_range p hp2
      el_nodup := by
        show (execute_loop s.execute_list s).execute_list.Nodup
        rw [hl]; exact h.el_nodup.sublist (List.filter_sublist _)
      el_range := by
        intro p hp
        show (execute_loop s.execute_list s).output.length ≤ p ∧ p < D
        rw [f8]; exact h.el_range p (hsub hp).1
      hB := fun p h1 h2 => by
        have : p ∉ s.execute_list := fun e => by
          have := (h.el_range p e).2; have := h.D_le; omega
        exact of_core (okIF_core cF) (hout this).symm (h.hB p h1 h2)
      hBlen := h.hBlen
      hA := fun p h1 h2 => by
        have : p ∉ s.execute_list := fun e => by have := (h.el_range p e).2; omega
        exact of_core (okID_core cu cs) (hout this).symm (h.hA p h1 h2)
      hIL := fun p hp => by
        have hp2 : p ∈ (execute_loop s.execute_list s).issue_list := hp
        rw [f3] at hp2
        exact of_core (okIS_core cI) (hout (hdisj hp2)).symm (h.hIL p hp2)
      hEL := fun p hp => by
        have := hsub hp
        exact of_core (okEX_core (c + 1)) (hin this.1).symm (okEX_stays (h.hEL p this.1) this.2)
      hWB := fun p hpD hpi hpe => by
        have hpi2 : p ∉ s.issue_list := by
          intro e; apply hpi
          show p ∈ (execute_loop s.execute_list s).issue_list
          rw [f3]; exact e
        by_cases hqe : p ∈ s.execute_list
        · have hcp : completes c (s.mem p) = true := by
            by_contra hc
            apply hpe
            show p ∈ (execute_loop s.execute_list s).execute_list
            rw [hl, List.mem_filter]
            exact ⟨hqe, by simpa using hc⟩
          refine ⟨of_core (okWB_core (c + 1)) (hin hqe).symm
            (okEX_completes (h.hEL p hqe) hcp), ?_⟩
          have ht : ((execute s).mem p).tag = (s.mem p).tag := by
            have := congrArg Instruction.tag (hin hqe)
            exact this.trans (sameStatic_execute_instr c (s.mem p)).2.2.2.2.2
          rw [ht]
          exact (hcm _).mpr (Or.inr ⟨p, hqe, hcp, rfl⟩)
        · have := h.hWB p hpD hpi2 hqe
          refine ⟨of_core (okWB_core (c + 1)) (hout hqe).symm
            (okWB_mono (by omega) this.1), ?_⟩
          have ht0 := congrArg Instruction.tag (hout hqe)
          have ht : ((execute s).mem p).tag = (s.mem p).tag := ht0
          rw [ht]
          exact (hcm _).mpr (Or.inl this.2)
      hpend := fun p hp => by
        have : p ∉ s.execute_list := fun e => by
          have := (h.el_range p e).2; have := h.D_le; have := h.a_le; omega
        exact (hout this).trans (h.hpend p hp)
      hsrc := fun p hp =>
        hany (renamed lines p) (fun _ => Iff.rfl) (renamed_execute_instr lines p c) p
          (h.hsrc p hp)
      hrf := by
        intro r
        show (execute_loop s.execute_list s).register_file r = _
        rw [f4]; exact h.hrf r
      hcomp := by
        intro t ht
        have hni : ∀ p, p ∉ s.issue_list → p ∉ (execute s).issue_list := by
          intro p hp e; apply hp
          have e2 : p ∈ (execute_loop s.execute_list s).issue_list := e
          rwa [f3] at e2
        rcases (hcm t).mp ht with h1 | ⟨p, hp, hcp, htp⟩
        · obtain ⟨p, hp1, hp2, hp3, hp4⟩ := h.hcomp t h1
          exact ⟨p, hp1, hp2, hni p hp3, fun e => hp4 (hsub e).1⟩
        · have hpD := (h.el_range p hp).2
          have hpn : p < lines.length := by
            have := h.D_le; have := h.a_le; have := h.f_le; omega
          refine ⟨p, hpD, ?_, hni p (fun e => hdisj e hp), ?_⟩
          · rw [← htp, (h.static p).2.2.2.2.2, trace_mem_tag lines hpn]
          · intro e
            have := (hsub e).2
            rw [hcp] at this; cases this
      htotal := by
        show (execute_loop s.execute_list s).total_instructions = _
        rw [f6]; exact h.htotal
      hdl_len := h.hdl_len
      hil_len := by
        show (execute_loop s.execute_list s).issue_list.length ≤ S
        rw [f3]; exact h.hil_len }

/-! ## Issue -/

theorem foldl_select_eq : ∀ (l : List Nat) (s : Processor),
    l.foldl select s =
      { s with
        issue_list := l.foldl (fun (acc : List Nat) p => acc.erase p) s.issue_list
        mem := forEach s.mem l issue_instr
        execute_list := s.execute_list ++ l }
  | [], s => by simp [forEach]
  | p :: rest, s => by
    rw [List.foldl_cons, foldl_select_eq rest]
    simp [select, forEach_cons]

/-- The handler `issue` in closed form. -/
theorem issue_eq (N : Nat) (s : Processor) :
    issue N s =
      { s with
        issue_list :=
          ((sort_by_tag
              (forEach s.mem
                (s.issue_list.filter (fun p => scan_test s (s.mem p) && !issue_ready s (s.mem p)))
                issue_stall)
              (s.issue_list.filter
                (fun p => scan_test s (s.mem p) && issue_ready s (s.mem p)))).take N).foldl
            (fun (acc : List Nat) p => acc.erase p) s.issue_list
        mem :=
          forEach
            (forEach
              (forEach s.mem
                (s.issue_list.filter (fun p => scan_test s (s.mem p) && !issue_ready s (s.mem p)))
                issue_stall)
              ((sort_by_tag
                (forEach s.mem
                  (s.issue_list.filter
                    (fun p => scan_test s (s.mem p) && !issue_ready s (s.mem p)))
                  issue_stall)
                (s.issue_list.filter
                  (fun p => scan_test s (s.mem p) && issue_ready s (s.mem p)))).take N)
              issue_instr)
            ((sort_by_tag
              (forEach s.mem
                (s.issue_list.filter (fun p => scan_test s (s.mem p) && !issue_ready s (s.mem p)))
                issue_stall)
              (s.issue_list.filter
                (fun p => scan_test s (s.mem p) && issue_ready s (s.mem p)))).drop N)
            issue_stall
        execute_list :=
          s.execute_list ++
            (sort_by_tag
              (forEach s.mem
                (s.issue_list.filter (fun p => scan_test s (s.mem p) && !issue_ready s (s.mem p)))
                issue_stall)
              (s.issue_list.filter
                (fun p => scan_test s (s.mem p) && issue_ready s (s.mem p)))).take N } := by
  unfold issue
  simp only [issue_scan_eq, issue_loop_eq, foldl_select_eq, List.nil_append, Nat.sub_zero]

/-- The effect of `issue` when the scheduling queue is duplicate-free and ordered by
tag and each of its entries passes the state and cycle test of the first loop. -/
theorem issue_spec (N : Nat) (s : Processor)
    (hscan : ∀ p ∈ s.issue_list, scan_test s (s.mem p) = true)
    (hsorted : s.issue_list.Pairwise (fun x y => x < y))
    (htag : ∀ p ∈ s.issue_list, (s.mem p).tag = (p : Int)) :
    issue N s =
      { s with
        issue_list :=
          ((ready_list s).take N).foldl (fun (acc : List Nat) p => acc.erase p) s.issue_list
        mem := fun q =>
          if q ∈ (ready_list s).take N then issue_instr (s.mem q)
          else if q ∈ s.issue_list then issue_stall (s.mem q) else s.mem q
        execute_list := s.execute_list ++ (ready_list s).take N } := by
  have hnd : s.issue_list.Nodup := hsorted.imp (fun h => Nat.ne_of_lt h)
  have e1 : s.issue_list.filter (fun p => scan_test s (s.mem p) && issue_ready s (s.mem p)) =
      ready_list s := by
    apply List.filter_congr
    intro p hp
    rw [hscan p hp, Bool.true_and]
  have e2 : s.issue_list.filter (fun p => scan_test s (s.mem p) && !issue_ready s (s.mem p)) =
      s.issue_list.filter (fun p => !issue_ready s (s.mem p)) := by
    apply List.filter_congr
    intro p hp
    rw [hscan p hp, Bool.true_and]
  have hrsub : (ready_list s).Sublist s.issue_list := List.filter_sublist _
  have e3 : sort_by_tag
      (forEach s.mem (s.issue_list.filter (fun p => !issue_ready s (s.mem p))) issue_stall)
      (ready_list s) = ready_list s := by
    apply sort_by_tag_of_sorted
    have hp := hsorted.sublist hrsub
    refine (List.Pairwise.and_mem.mp hp).imp ?_
    intro x y hxy
    obtain ⟨hx, hy, hlt⟩ := hxy
    rw [forEach_proj Instruction.tag issue_stall (fun _ => rfl),
      forEach_proj Instruction.tag issue_stall (fun _ => rfl),
      htag x (hrsub.subset hx), htag y (hrsub.subset hy)]
    exact_mod_cast Nat.le_of_lt hlt
  rw [issue_eq, e1, e2, e3]
  have hrnd : (ready_list s).Nodup := hnd.sublist hrsub
  have htd : ((ready_list s).take N ++ (ready_list s).drop N).Nodup := by
    rw [List.take_append_drop]; exact hrnd
  have hdis := (List.nodup_append.mp htd).2.2
  have hmem : (fun q => forEach
      (forEach
        (forEach s.mem (s.issue_list.filter (fun p => !issue_ready s (s.mem p))) issue_stall)
        ((ready_list s).take N) issue_instr)
      ((ready_list s).drop N) issue_stall q) = (fun q =>
        if q ∈ (ready_list s).take N then issue_instr (s.mem q)
        else if q ∈ s.issue_list then issue_stall (s.mem q) else s.mem q) := by
    funext q
    by_cases hq1 : q ∈ (ready_list s).take N
    · have hq2 : q ∉ (ready_list s).drop N := fun e => hdis hq1 e
      have hq3 : q ∈ ready_list s := List.mem_of_mem_take hq1
      have hq4 : q ∉ s.issue_list.filter (fun p => !issue_ready s (s.mem p)) := by
        intro e
        have e1 := (List.mem_filter.mp e).2
        have e2 := (List.mem_filter.mp hq3).2
        simp [e2] at e1
      rw [if_pos hq1, forEach_not_mem _ _ _ hq2,
        forEach_mem _ _ _ (List.take_sublist _ _ |>.nodup hrnd) hq1,
        forEach_not_mem _ _ _ hq4]
    · rw [if_neg hq1]
      by_cases hq2 : q ∈ (ready_list s).drop N
      · have hq3 : q ∈ ready_list s := List.mem_of_mem_drop hq2
        have hq4 : q ∉ s.issue_list.filter (fun p => !issue_ready s (s.mem p)) := by
          intro e
          have e1 := (List.mem_filter.mp e).2
          have e2 := (List.mem_filter.mp hq3).2
          simp [e2] at e1
        rw [if_pos (hrsub.subset hq3),
          forEach_mem _ _ _ (List.drop_sublist _ _ |>.nodup hrnd) hq2,
          forEach_not_mem _ _ _ hq1, forEach_not_mem _ _ _ hq4]
      · rw [forEach_not_mem _ _ _ hq2, forEach_not_mem _ _ _ hq1]
        by_cases hq3 : q ∈ s.issue_list
        · have hq4 : q ∈ s.issue_list.filter (fun p => !issue_ready s (s.mem p)) := by
            rw [List.mem_filter]
            refine ⟨hq3, ?_⟩
            by_contra hc
            have : q ∈ ready_list s := List.mem_filter.mpr ⟨hq3, by simpa using hc⟩
            rw [← List.take_append_drop N (ready_list s), List.mem_append] at this
            rcases this with h | h
            · exact hq1 h
            · exact hq2 h
          rw [if_pos hq3, forEach_mem _ _ _ (List.filter_sublist _ |>.nodup hnd) hq4]
        · have hq4 : q ∉ s.issue_list.filter (fun p => !issue_ready s (s.mem p)) :=
            fun e => hq3 (List.mem_filter.mp e).1
          rw [if_neg hq3, forEach_not_mem _ _ _ hq4]
  exact congrArg (fun m => { s with
    issue_list :=
      ((ready_list s).take N).foldl (fun (acc : List Nat) p => acc.erase p) s.issue_list
    mem := m
    execute_list := s.execute_list ++ (ready_list s).take N }) hmem

theorem okIS_scan {s : Processor} {i : Instruction} (h : okIS s.current_cycle i) :
    scan_test s i = true := by
  obtain ⟨h1, h2, _, h4⟩ := h
  have := h2.2.2.2.2
  simp only [scan_test, decide_eq_true_eq]
  exact ⟨h1, by omega⟩

theorem okIS_stall {c : Int} {i : Instruction} (h : okIS c i) : okIS (c + 1) (issue_stall i) := by
  obtain ⟨h1, ⟨h2, h3, h4, h5, h6⟩, h7, h8⟩ := h
  refine ⟨h1, ⟨h2, h3, h4, h5, ?_⟩, h7, ?_⟩
  · show 1 ≤ i.issue_timing.duration + 1
    omega
  · show i.issue_timing.start + (i.issue_timing.duration + 1) = c + 1
    omega

theorem okIS_issue {c : Int} {i : Instruction} (h : okIS c i) : okEX (c + 1) (issue_instr i) := by
  obtain ⟨h1, h2, h7, h8⟩ := h
  refine ⟨rfl, ⟨h2, rfl, h7⟩, ?_, ?_, ?_⟩
  · show i.issue_timing.start + i.issue_timing.duration ≤ c + 1 - 1
    omega
  · show i.execute_cycles_left =
      latency i.op_type - (c + 1 - 1 - (i.issue_timing.start + i.issue_timing.duration))
    omega
  · show 1 ≤ latency i.op_type → 1 ≤ i.execute_cycles_left
    intro hl; omega

theorem issue_inv {lines : List TraceLine} {N S : Nat} {c cu cs cF : Int} {D a f : Nat}
    {s : Processor} (h : Inv lines N S (c + 1) c cu cs cF D a f s) (hcyc : s.current_cycle = c) :
    Inv lines N S (c + 1) (c + 1) cu cs cF D a f (issue N s) := by
  have hn : ∀ p, p < D → p < lines.length := fun p hp => by
    have := h.D_le; have := h.a_le; have := h.f_le; omega
  have hscan : ∀ p ∈ s.issue_list, scan_test s (s.mem p) = true := fun p hp =>
    okIS_scan (hcyc ▸ h.hIL p hp)
  have htag : ∀ p ∈ s.issue_list, (s.mem p).tag = (p : Int) := fun p hp => by
    rw [(h.static p).2.2.2.2.2, trace_mem_tag lines (hn p (h.il_range p hp).2)]
  have hnd : s.issue_list.Nodup := h.il_sorted.imp (fun h => Nat.ne_of_lt h)
  have hsel : ∀ {q}, q ∈ (ready_list s).take N → q ∈ s.issue_list := fun hq =>
    (List.filter_sublist _).subset (List.mem_of_mem_take hq)
  have hdisj : ∀ {q}, q ∈ s.issue_list → q ∉ s.execute_list := by
    intro q h1 h2
    have e1 := (h.hIL q h1).1
    have e2 := (h.hEL q h2).1
    rw [e1] at e2; cases e2
  have hmem := mem_foldl_erase ((ready_list s).take N) s.issue_list hnd
  obtain ⟨M, hM⟩ : ∃ M : Mem, M = (fun q =>
      if q ∈ (ready_list s).take N then issue_instr (s.mem q)
      else if q ∈ s.issue_list then issue_stall (s.mem q) else s.mem q) := ⟨_, rfl⟩
  rw [issue_spec N s hscan h.il_sorted htag, ← hM]
  have hMq : ∀ q, M q = (if q ∈ (ready_list s).take N then issue_instr (s.mem q)
      else if q ∈ s.issue_list then issue_stall (s.mem q) else s.mem q) := by
    intro q; rw [hM]
  have hother : ∀ {q}, q ∉ s.issue_list → M q = s.mem q := by
    intro q hq
    rw [hMq, if_neg (fun e => hq (hsel e)), if_neg hq]
  have hany : ∀ (P : Instruction → Prop), (∀ i, P i → P (issue_instr i)) →
      (∀ i, P i → P (issue_stall i)) → ∀ q, P (s.mem q) → P (M q) := by
    intro P h1 h2 q hq
    rw [hMq]
    split
    · exact h1 _ hq
    · split
      · exact h2 _ hq
      · exact hq
  exact
    { le_D := h.le_D
      D_le := h.D_le
      a_le := h.a_le
      f_le := h.f_le
      static := fun p =>
        hany (fun i => sameStatic i (trace_mem lines p)) (fun _ hi => hi) (fun _ hi => hi) p
          (h.static p)
      out := by
        show List.map core s.output = (List.range s.output.length).map _
        rw [h.out]
        apply List.map_congr_left
        intro p hp
        have hp2 : p < s.output.length := List.mem_range.mp hp
        have : p ∉ s.issue_list := fun e => by have := (h.il_range p e).1; omega
        show core (s.mem p) = core (M p)
        rw [hother this]
      rob := h.rob
      dl := h.dl
      pend := h.pend
      il_sorted := h.il_sorted.sublist (foldl_erase_sublist _ _)
      il_range := fun p hp => h.il_range p ((hmem p).mp hp).1
      el_nodup := by
        show (s.execute_list ++ (ready_list s).take N).Nodup
        rw [List.nodup_append]
        refine ⟨h.el_nodup, ((List.take_sublist _ _).trans (List.filter_sublist _)).nodup hnd, ?_⟩
        intro q h1 h2
        exact hdisj (hsel h2) h1
      el_range := by
        intro p hp
        have hp2 : p ∈ s.execute_list ++ (ready_list s).take N := hp
        rcases List.mem_append.mp hp2 with e | e
        · exact h.el_range p e
        · exact h.il_range p (hsel e)
      hB := fun p h1 h2 => by
        have : p ∉ s.issue_list := fun e => by
          have := (h.il_range p e).2; have := h.D_le; omega
        show okIF cF (M p)
        rw [hother this]; exact h.hB p h1 h2
      hBlen := h.hBlen
      hA := fun p h1 h2 => by
        have : p ∉ s.issue_list := fun e => by
          have := (h.il_range p e).2; omega
        show okID cu cs (M p)
        rw [hother this]; exact h.hA p h1 h2
      hIL := fun p hp => by
        have hp2 := (hmem p).mp hp
        show okIS (c + 1) (M p)
        rw [hMq, if_neg hp2.2, if_pos hp2.1]
        exact okIS_stall (h.hIL p hp2.1)
      hEL := fun p hp => by
        have hp2 : p ∈ s.execute_list ++ (ready_list s).take N := hp
        show okEX (c + 1) (M p)
        rcases List.mem_append.mp hp2 with e | e
        · rw [hother (fun e2 => hdisj e2 e)]
          exact h.hEL p e
        · rw [hMq, if_pos e]
          exact okIS_issue (h.hIL p (hsel e))
      hWB := fun p hpD hpi hpe => by
        have hpe2 : p ∉ s.execute_list ++ (ready_list s).take N := hpe
        rw [List.mem_append, not_or] at hpe2
        have hpi2 : p ∉ s.issue_list := fun e => hpi ((hmem p).mpr ⟨e, hpe2.2⟩)
        show okWB (c + 1) (M p) ∧ (M p).tag ∈ s.completed_tags
        rw [hother hpi2]
        exact h.hWB p hpD hpi2 hpe2.1
      hpend := fun p hp => by
        have : p ∉ s.issue_list := fun e => by
          have := (h.il_range p e).2; have := h.D_le; have := h.a_le; omega
        show core (M p) = _
        rw [hother this]; exact h.hpend p hp
      hsrc := fun p hp =>
        hany (renamed lines p) (fun _ hi => hi) (fun _ hi => hi) p (h.hsrc p hp)
      hrf := h.hrf
      hcomp := by
        intro t ht
        obtain ⟨p, hp1, hp2, hp3, hp4⟩ := h.hcomp t ht
        refine ⟨p, hp1, hp2, fun e => hp3 ((hmem p).mp e).1, ?_⟩
        intro e
        have e2 : p ∈ s.execute_list ++ (ready_list s).take N := e
        rcases List.mem_append.mp e2 with e3 | e3
        · exact hp4 e3
        · exact hp3 (hsel e3)
      htotal := h.htotal
      hdl_len := h.hdl_len
      hil_len := le_trans (length_foldl_erase _ _) h.hil_len }

/-! ## Dispatch -/

/-- The records of the `ID` part of the dispatch queue can be updated without touching
the rest of the invariant. -/
theorem inv_update_ID {lines : List TraceLine} {N S : Nat} {cE cI cu cs cF cu2 cs2 : Int}
    {D a f : Nat} {s : Processor} (h : Inv lines N S cE cI cu cs cF D a f s) (M : Mem)
    (hM : ∀ q, ¬ (D ≤ q ∧ q < a) → M q = s.mem q)
    (hA : ∀ q, D ≤ q → q < a → okID cu2 cs2 (M q) ∧ sameStatic (M q) (s.mem q)) :
    Inv lines N S cE cI cu2 cs2 cF D a f { s with mem := M } := by
  have hlow : ∀ {q}, q < D → M q = s.mem q := fun hq => hM _ (by omega)
  have hhigh : ∀ {q}, a ≤ q → M q = s.mem q := fun hq => hM _ (by omega)
  have hDa := h.D_le
  have haf := h.a_le
  exact
    { le_D := h.le_D
      D_le := h.D_le
      a_le := h.a_le
      f_le := h.f_le
      static := fun p => by
        show sameStatic (M p) _
        by_cases hp : D ≤ p ∧ p < a
        · exact sameStatic_trans (hA p hp.1 hp.2).2 (h.static p)
        · rw [hM p hp]; exact h.static p
      out := by
        show List.map core s.output = (List.range s.output.length).map (fun p => core (M p))
        rw [h.out]
        apply List.map_congr_left
        intro p hp
        have hp2 : p < s.output.length := List.mem_range.mp hp
        have := h.le_D
        show core (s.mem p) = core (M p)
        rw [hlow (by omega)]
      rob := h.rob
      dl := h.dl
      pend := h.pend
      il_sorted := h.il_sorted
      il_range := h.il_range
      el_nodup := h.el_nodup
      el_range := h.el_range
      hB := fun p h1 h2 => by
        show okIF cF (M p)
        rw [hhigh h1]; exact h.hB p h1 h2
      hBlen := h.hBlen
      hA := fun p h1 h2 => (hA p h1 h2).1
      hIL := fun p hp => by
        show okIS cI (M p)
        rw [hlow (h.il_range p hp).2]; exact h.hIL p hp
      hEL := fun p hp => by
        show okEX cE (M p)
        rw [hlow (h.el_range p hp).2]; exact h.hEL p hp
      hWB := fun p hpD hpi hpe => by
        show okWB cE (M p) ∧ (M p).tag ∈ s.completed_tags
        rw [hlow hpD]; exact h.hWB p hpD hpi hpe
      hpend := fun p hp => by
        show core (M p) = _
        rw [hhigh (by omega)]; exact h.hpend p hp
      hsrc := fun p hp => by
        show renamed lines p (M p)
        rw [hlow hp]; exact h.hsrc p hp
      hrf := h.hrf
      hcomp := h.hcomp
      htotal := h.htotal
      hdl_len := h.hdl_len
      hil_len := h.hil_len }

theorem okID_wait {c : Int} {i : Instruction} (h : okID c c i) :
    okID c (c + 1)
      (if i.current_state = State.ID ∧ i.dispatch_timing.start > 0 then dispatch_wait i
        else i) := by
  obtain ⟨h1, h2, h3, h4⟩ := h
  rcases h4 with ⟨e1, e2⟩ | ⟨e1, e2, e3⟩
  · have : ¬ (i.current_state = State.ID ∧ i.dispatch_timing.start > 0) := by
      rw [e1]; simp
    rw [if_neg this]
    exact ⟨h1, h2, h3, Or.inl ⟨e1, e2⟩⟩
  · have hpos : i.dispatch_timing.start > 0 := by have := h2.2; omega
    rw [if_pos ⟨h1, hpos⟩]
    refine ⟨h1, h2, h3, Or.inr ⟨e1, ?_, ?_⟩⟩
    · show 1 ≤ i.dispatch_timing.duration + 1
      omega
    · show i.dispatch_timing.start + (i.dispatch_timing.duration + 1) + 1 = c + 1
      omega

theorem okID_stamp {c : Int} {i : Instruction} (h : okID c (c + 1) i) :
    okID (c + 1) (c + 1) (stamp_dispatch i) := by
  obtain ⟨h1, h2, h3, h4⟩ := h
  rcases h4 with ⟨e1, e2⟩ | ⟨e1, e2, e3⟩
  · have : i.dispatch_timing.start = 0 := by rw [e1]
    simp only [stamp_dispatch, this, if_true]
    refine ⟨h1, h2, h3, Or.inr ⟨?_, ?_, ?_⟩⟩
    · show i.fetch_timing.start + i.fetch_timing.duration = i.fetch_timing.start + 1
      rw [h2.1]
    · show (1 : Int) ≤ 1
      omega
    · show i.fetch_timing.start + i.fetch_timing.duration + 1 + 1 = c + 1
      rw [h2.1]; omega
  · have : ¬ i.dispatch_timing.start = 0 := by have := h2.2; omega
    simp only [stamp_dispatch, this, if_false]
    exact ⟨h1, h2, h3, Or.inr ⟨e1, e2, e3⟩⟩

theorem sameStatic_stamp (i : Instruction) : sameStatic (stamp_dispatch i) i := by
  unfold stamp_dispatch
  split
  · exact sameStatic_refl _
  · exact sameStatic_refl _

theorem okID_dispatch {c : Int} {i : Instruction} (rf : Int → Option Int)
    (h : okID c (c + 1) i) : okIS (c + 1) (dispatch_instr rf i) := by
  obtain ⟨h1, h2, h3, h4⟩ := h
  rcases h4 with ⟨e1, e2⟩ | ⟨e1, e2, e3⟩
  · have : i.dispatch_timing.start = 0 := by rw [e1]
    simp only [dispatch_instr, stamp_dispatch, this, if_true]
    refine ⟨rfl, ⟨h2, rfl, ?_, rfl, ?_⟩, h3, ?_⟩
    · show (1 : Int) ≤ 1
      omega
    · show (1 : Int) ≤ 1
      omega
    · show i.fetch_timing.start + i.fetch_timing.duration + 1 + 1 = c + 1
      rw [h2.1]; omega
  · have : ¬ i.dispatch_timing.start = 0 := by have := h2.2; omega
    simp only [dispatch_instr, stamp_dispatch, this, if_false]
    refine ⟨rfl, ⟨h2, ?_, e2, rfl, ?_⟩, h3, ?_⟩
    · show i.dispatch_timing.start = i.fetch_timing.start + i.fetch_timing.duration
      rw [h2.1]; exact e1
    · show (1 : Int) ≤ 1
      omega
    · show i.dispatch_timing.start + i.dispatch_timing.duration + 1 = c + 1
      omega

theorem sameStatic_dispatch (rf : Int → Option Int) (i : Instruction) :
    sameStatic (dispatch_instr rf i) i := by
  unfold dispatch_instr stamp_dispatch
  split
  · exact sameStatic_refl _
  · exact sameStatic_refl _

theorem src_tags_dispatch (rf : Int → Option Int) (i : Instruction) :
    (dispatch_instr rf i).src1_tag = rename_src rf i.src1_reg ∧
      (dispatch_instr rf i).src2_tag = rename_src rf i.src2_reg ∧
      (dispatch_instr rf i).src1_reg = i.src1_reg ∧
      (dispatch_instr rf i).src2_reg = i.src2_reg := by
  unfold dispatch_instr stamp_dispatch
  split
  · exact ⟨rfl, rfl, rfl, rfl⟩
  · exact ⟨rfl, rfl, rfl, rfl⟩

theorem rename_src_congr {rf1 rf2 : Int → Option Int} (h : ∀ r, rf1 r = rf2 r) (reg : Int) :
    rename_src rf1 reg = rename_src rf2 reg := by
  unfold rename_src
  rw [h reg]

theorem dispatch_one_inv {lines : List TraceLine} {N S : Nat} {cE c cF : Int} {D a f : Nat}
    {s : Processor} (h : Inv lines N S cE (c + 1) c (c + 1) cF D a f s) (hDa : D < a)
    (hS : s.issue_list.length < S) :
    Inv lines N S cE (c + 1) c (c + 1) cF (D + 1) a f (dispatch_one s D) := by
  have haf := h.a_le
  have hfn := h.f_le
  have hDn : D < lines.length := by omega
  have hne : ∀ {q}, q ≠ D →
      setInstr s.mem D (dispatch_instr s.register_file (s.mem D)) q = s.mem q :=
    fun hq => setInstr_other _ _ hq
  have hrfD : ∀ r, s.register_file r = last_writer lines D r := h.hrf
  exact
    { le_D := by show s.output.length ≤ D + 1; have := h.le_D; omega
      D_le := hDa
      a_le := h.a_le
      f_le := h.f_le
      static := fun p => by
        show sameStatic (setInstr s.mem D _ p) _
        by_cases hp : p = D
        · subst hp
          rw [setInstr_same]
          exact sameStatic_trans (sameStatic_dispatch _ _) (h.static p)
        · rw [hne hp]; exact h.static p
      out := by
        show List.map core s.output = (List.range s.output.length).map
          (fun p => core (setInstr s.mem D _ p))
        rw [h.out]
        apply List.map_congr_left
        intro p hp
        have hp2 : p < s.output.length := List.mem_range.mp hp
        have := h.le_D
        show core (s.mem p) = core (setInstr s.mem D _ p)
        rw [hne (by omega)]
      rob := h.rob
      dl := by
        show s.dispatch_list.erase D = seg (D + 1) f
        rw [h.dl, erase_seg_head (by omega)]
      pend := h.pend
      il_sorted := by
        show (s.issue_list ++ [D]).Pairwise _
        rw [List.pairwise_append]
        refine ⟨h.il_sorted, List.pairwise_singleton _ _, ?_⟩
        intro x hx y hy
        rw [List.mem_singleton] at hy
        subst hy
        exact (h.il_range x hx).2
      il_range := by
        intro p hp
        have hp2 : p ∈ s.issue_list ++ [D] := hp
        show s.output.length ≤ p ∧ p < D + 1
        rcases List.mem_append.mp hp2 with e | e
        · have := h.il_range p e; omega
        · rw [List.mem_singleton] at e
          have := h.le_D; omega
      el_nodup := h.el_nodup
      el_range := fun p hp => by
        have := h.el_range p hp
        show s.output.length ≤ p ∧ p < D + 1
        omega
      hB := fun p h1 h2 => by
        show okIF cF (setInstr s.mem D _ p)
        rw [hne (by omega)]; exact h.hB p h1 h2
      hBlen := h.hBlen
      hA := fun p h1 h2 => by
        show okID c (c + 1) (setInstr s.mem D _ p)
        rw [hne (by omega)]; exact h.hA p (by omega) h2
      hIL := fun p hp => by
        have hp2 : p ∈ s.issue_list ++ [D] := hp
        show okIS (c + 1) (setInstr s.mem D _ p)
        rcases List.mem_append.mp hp2 with e | e
        · have := (h.il_range p e).2
          rw [hne (by omega)]; exact h.hIL p e
        · rw [List.mem_singleton] at e
          subst e
          rw [setInstr_same]
          exact okID_dispatch _ (h.hA p (le_refl _) hDa)
      hEL := fun p hp => by
        have := (h.el_range p hp).2
        show okEX cE (setInstr s.mem D _ p)
        rw [hne (by omega)]; exact h.hEL p hp
      hWB := fun p hpD hpi hpe => by
        have hpi2 : p ∉ s.issue_list ++ [D] := hpi
        rw [List.mem_append, not_or, List.mem_singleton] at hpi2
        have hlt : p < D := by omega
        show okWB cE (setInstr s.mem D _ p) ∧ (setInstr s.mem D _ p).tag ∈ s.completed_tags
        rw [hne hpi2.2]
        exact h.hWB p hlt hpi2.1 hpe
      hpend := fun p hp => by
        show core (setInstr s.mem D _ p) = _
        rw [hne (by omega)]; exact h.hpend p hp
      hsrc := fun p hp => by
        show renamed lines p (setInstr s.mem D _ p)
        by_cases e : p = D
        · subst e
          rw [setInstr_same]
          obtain ⟨t1, t2, t3, t4⟩ := src_tags_dispatch s.register_file (s.mem p)
          exact ⟨by rw [t1, t3]; exact rename_src_congr hrfD _,
            by rw [t2, t4]; exact rename_src_congr hrfD _⟩
        · rw [hne e]; exact h.hsrc p (by omega)
      hrf := by
        intro r
        show (if (s.mem D).dest_reg ≠ -1 then
            setReg s.register_file (s.mem D).dest_reg (s.mem D).tag
          else s.register_file) r = last_writer lines (D + 1) r
        rw [last_writer, (h.static D).2.2.1, (h.static D).2.2.2.2.2, trace_mem_tag lines hDn]
        by_cases h1 : (trace_mem lines D).dest_reg ≠ -1
        · rw [if_pos h1]
          by_cases h2 : r = (trace_mem lines D).dest_reg
          · rw [if_pos ⟨h1, h2⟩]
            simp [setReg, h2]
          · rw [if_neg (fun e => h2 e.2)]
            simp [setReg, h2, hrfD r]
        · rw [if_neg h1, if_neg (fun e => h1 e.1)]
          exact hrfD r
      hcomp := by
        intro t ht
        obtain ⟨p, hp1, hp2, hp3, hp4⟩ := h.hcomp t ht
        refine ⟨p, by omega, hp2, ?_, hp4⟩
        intro e
        have e2 : p ∈ s.issue_list ++ [D] := e
        rcases List.mem_append.mp e2 with e3 | e3
        · exact hp3 e3
        · rw [List.mem_singleton] at e3; omega
      htotal := h.htotal
      hdl_len := by have := h.hdl_len; omega
      hil_len := by
        show (s.issue_list ++ [D]).length ≤ S
        rw [List.length_append, List.length_singleton]; omega }

theorem dispatch_one_issue_list (s : Processor) (p : Nat) :
    (dispatch_one s p).issue_list = s.issue_list ++ [p] := rfl

theorem foldl_dispatch_one_inv {lines : List TraceLine} {N S : Nat} {cE c cF : Int} {a f : Nat} :
    ∀ (n D : Nat) (s : Processor), Inv lines N S cE (c + 1) c (c + 1) cF D a f s →
      D + n ≤ a → s.issue_list.length + n ≤ S →
      Inv lines N S cE (c + 1) c (c + 1) cF (D + n) a f ((seg D (D + n)).foldl dispatch_one s) ∧
        ((seg D (D + n)).foldl dispatch_one s).issue_list = s.issue_list ++ seg D (D + n)
  | 0, D, s, h, _, _ => by
    simp only [Nat.add_zero, seg_eq_nil (le_refl D), List.foldl_nil, List.append_nil]
    exact ⟨h, trivial⟩
  | n + 1, D, s, h, h1, h2 => by
    rw [seg_cons (by omega : D < D + (n + 1)), List.foldl_cons]
    have hstep := dispatch_one_inv h (by omega) (by omega)
    have e : D + (n + 1) = (D + 1) + n := by omega
    rw [e]
    have := foldl_dispatch_one_inv n (D + 1) (dispatch_one s D) hstep (by omega)
      (by rw [dispatch_one_issue_list, List.length_append, List.length_singleton]; omega)
    refine ⟨this.1, ?_⟩
    rw [this.2, dispatch_one_issue_list, List.append_assoc]
    rfl

theorem dispatch_eq (N S : Nat) (s : Processor) :
    dispatch N S s =
      dispatch_loop N S 0
        (sort_by_tag
          (forEach s.mem
            (s.dispatch_list.filter (fun p => decide ((s.mem p).current_state = State.ID ∧
              (s.mem p).dispatch_timing.start > 0))) dispatch_wait)
          (s.dispatch_list.filter (fun p => decide ((s.mem p).current_state = State.ID))))
        { s with
          mem := forEach s.mem
            (s.dispatch_list.filter (fun p => decide ((s.mem p).current_state = State.ID ∧
              (s.mem p).dispatch_timing.start > 0))) dispatch_wait } := by
  unfold dispatch
  simp only [dispatch_collect_eq, List.nil_append]

/-- The first loop of `dispatch` on a state that satisfies the invariant. -/
theorem collect_inv {lines : List TraceLine} {N S : Nat} {cE cI c cF : Int} {D a f : Nat}
    {s : Processor} (h : Inv lines N S cE cI c c cF D a f s) :
    Inv lines N S cE cI c (c + 1) cF D a f
      { s with
        mem := forEach s.mem
          (s.dispatch_list.filter (fun p => decide ((s.mem p).current_state = State.ID ∧
            (s.mem p).dispatch_timing.start > 0))) dispatch_wait } := by
  have hnd : (s.dispatch_list.filter (fun p => decide ((s.mem p).current_state = State.ID ∧
      (s.mem p).dispatch_timing.start > 0))).Nodup := by
    rw [h.dl]; exact (List.filter_sublist _).nodup (nodup_seg _ _)
  have hval : ∀ q, forEach s.mem
      (s.dispatch_list.filter (fun p => decide ((s.mem p).current_state = State.ID ∧
        (s.mem p).dispatch_timing.start > 0))) dispatch_wait q =
      if q ∈ s.dispatch_list ∧ ((s.mem q).current_state = State.ID ∧
        (s.mem q).dispatch_timing.start > 0) then dispatch_wait (s.mem q) else s.mem q := by
    intro q
    by_cases hq : q ∈ s.dispatch_list.filter (fun p =>
        decide ((s.mem p).current_state = State.ID ∧ (s.mem p).dispatch_timing.start > 0))
    · rw [forEach_mem _ _ _ hnd hq]
      rw [List.mem_filter, decide_eq_true_eq] at hq
      rw [if_pos hq]
    · rw [forEach_not_mem _ _ _ hq]
      rw [List.mem_filter, decide_eq_true_eq] at hq
      rw [if_neg hq]
  apply inv_update_ID h
  · intro q hq
    rw [hval]
    split
    · rename_i hc
      exfalso
      rw [h.dl, mem_seg] at hc
      have hqa : a ≤ q := by omega
      have := (h.hB q hqa hc.1.2).1
      rw [hc.2.1] at this; cases this
    · rfl
  · intro q h1 h2
    rw [hval]
    have hq : q ∈ s.dispatch_list := by
      rw [h.dl, mem_seg]; have := h.a_le; omega
    have hw := okID_wait (h.hA q h1 h2)
    by_cases hc : (s.mem q).current_state = State.ID ∧ (s.mem q).dispatch_timing.start > 0
    · rw [if_pos hc] at hw
      rw [if_pos ⟨hq, hc⟩]
      exact ⟨hw, sameStatic_refl _⟩
    · rw [if_neg hc] at hw
      rw [if_neg (fun e => hc e.2)]
      exact ⟨hw, sameStatic_refl _⟩

/-- The effect of `dispatch` on a state that satisfies the invariant: the instructions
`D .. D2-1` are admitted to the scheduling queue, the other `ID` entries are stamped. -/
theorem dispatch_spec {lines : List TraceLine} {N S : Nat} {cE c cF : Int} {D a f : Nat}
    {s : Processor} (h : Inv lines N S cE (c + 1) c c cF D a f s) :
    ∃ D2, D2 = min (D + min N (S - s.issue_list.length)) a ∧
      Inv lines N S cE (c + 1) (c + 1) (c + 1) cF D2 a f (dispatch N S s) ∧
      (dispatch N S s).issue_list = s.issue_list ++ seg D D2 ∧
      (dispatch N S s).execute_list = s.execute_list ∧
      (dispatch N S s).ROB = s.ROB ∧
      (dispatch N S s).output = s.output ∧
      (dispatch N S s).new_instructions = s.new_instructions ∧
      (dispatch N S s).completed_tags = s.completed_tags ∧
      (dispatch N S s).current_cycle = s.current_cycle := by
  have hDa := h.D_le
  have haf := h.a_le
  have hfn := h.f_le
  obtain ⟨m1, hm1⟩ : ∃ m1 : Mem, m1 = forEach s.mem
      (s.dispatch_list.filter (fun p => decide ((s.mem p).current_state = State.ID ∧
        (s.mem p).dispatch_timing.start > 0))) dispatch_wait := ⟨_, rfl⟩
  have h1 : Inv lines N S cE (c + 1) c (c + 1) cF D a f { s with mem := m1 } := by
    rw [hm1]; exact collect_inv h
  have htemp : s.dispatch_list.filter (fun p => decide ((s.mem p).current_state = State.ID)) =
      seg D a := by
    rw [h.dl]
    apply filter_seg _ hDa haf
    · intro p hp1 hp2
      simp [(h.hA p hp1 hp2).1]
    · intro p hp1 hp2
      simp [(h.hB p hp1 hp2).1]
  have hsort : sort_by_tag m1 (seg D a) = seg D a := by
    apply sort_by_tag_of_sorted
    refine (List.Pairwise.and_mem.mp (pairwise_seg D a)).imp ?_
    intro x y hxy
    obtain ⟨hx, hy, hlt⟩ := hxy
    rw [mem_seg] at hx hy
    rw [(h1.static x).2.2.2.2.2, (h1.static y).2.2.2.2.2,
      trace_mem_tag lines (by omega), trace_mem_tag lines (by omega)]
    exact_mod_cast Nat.le_of_lt hlt
  obtain ⟨n, hn⟩ : ∃ n, n = min (min N (S - s.issue_list.length)) (a - D) := ⟨_, rfl⟩
  have htake : (seg D a).take (min (N - 0) (S - s.issue_list.length)) = seg D (D + n) := by
    rw [take_seg]; congr 1; omega
  have hdrop : (seg D a).drop (min (N - 0) (S - s.issue_list.length)) = seg (D + n) a := by
    rw [drop_seg]
    by_cases hc : D + min (N - 0) (S - s.issue_list.length) ≤ a
    · congr 1; omega
    · rw [seg_eq_nil (by omega), seg_eq_nil (by omega)]
  have h2 := foldl_dispatch_one_inv n D { s with mem := m1 } h1 (by omega)
    (by show s.issue_list.length + n ≤ S; have := h.hil_len; omega)
  have hfr : ∀ (l : List Nat) (t : Processor),
      (l.foldl dispatch_one t).execute_list = t.execute_list ∧ (l.foldl dispatch_one t).ROB = t.ROB ∧
      (l.foldl dispatch_one t).output = t.output ∧
      (l.foldl dispatch_one t).new_instructions = t.new_instructions ∧
      (l.foldl dispatch_one t).completed_tags = t.completed_tags ∧
      (l.foldl dispatch_one t).current_cycle = t.current_cycle := by
    intro l
    induction l with
    | nil => intro t; exact ⟨rfl, rfl, rfl, rfl, rfl, rfl⟩
    | cons p l ih => intro t; rw [List.foldl_cons]; exact ih (dispatch_one t p)
  have hfr2 := hfr (seg D (D + n)) { s with mem := m1 }
  refine ⟨D + n, by omega, ?_, ?_, ?_, ?_, ?_, ?_, ?_, ?_⟩
  · rw [dispatch_eq, ← hm1, htemp, hsort, dispatch_loop_eq]
    show Inv lines N S cE (c + 1) (c + 1) (c + 1) cF (D + n) a f
      { (((seg D a).take (min (N - 0) (S - s.issue_list.length))).foldl dispatch_one
          { s with mem := m1 }) with
        mem := forEach (((seg D a).take (min (N - 0) (S - s.issue_list.length))).foldl dispatch_one
          { s with mem := m1 }).mem
          ((seg D a).drop (min (N - 0) (S - s.issue_list.length))) stamp_dispatch }
    rw [htake, hdrop]
    apply inv_update_ID h2.1
    · intro q hq
      exact forEach_not_mem _ _ _ (fun e => hq (mem_seg.mp e))
    · intro q hq1 hq2
      rw [forEach_mem _ _ _ (nodup_seg _ _) (mem_seg.mpr ⟨hq1, hq2⟩)]
      exact ⟨okID_stamp (h2.1.hA q hq1 hq2), sameStatic_stamp _⟩
  all_goals rw [dispatch_eq, ← hm1, htemp, hsort, dispatch_loop_eq]
  · show (((seg D a).take (min (N - 0) (S - s.issue_list.length))).foldl dispatch_one
      { s with mem := m1 }).issue_list = _
    rw [htake]; exact h2.2
  · show (((seg D a).take (min (N - 0) (S - s.issue_list.length))).foldl dispatch_one
      { s with mem := m1 }).execute_list = _
    rw [htake]; exact hfr2.1
  · show (((seg D a).take (min (N - 0) (S - s.issue_list.length))).foldl dispatch_one
      { s with mem := m1 }).ROB = _
    rw [htake]; exact hfr2.2.1
  · show (((seg D a).take (min (N - 0) (S - s.issue_list.length))).foldl dispatch_one
      { s with mem := m1 }).output = _
    rw [htake]; exact hfr2.2.2.1
  · show (((seg D a).take (min (N - 0) (S - s.issue_list.length))).foldl dispatch_one
      { s with mem := m1 }).new_instructions = _
    rw [htake]; exact hfr2.2.2.2.1
  · show (((seg D a).take (min (N - 0) (S - s.issue_list.length))).foldl dispatch_one
      { s with mem := m1 }).completed_tags = _
    rw [htake]; exact hfr2.2.2.2.2.1
  · show (((seg D a).take (min (N - 0) (S - s.issue_list.length))).foldl dispatch_one
      { s with mem := m1 }).current_cycle = _
    rw [htake]; exact hfr2.2.2.2.2.2

/-! ## Fetch -/

theorem fetch_eq (N : Nat) (s : Processor) :
    fetch N s =
      { s with
        mem := forEach
          (forEach s.mem
            (s.new_instructions.take (min (N - 0) (2 * N - s.dispatch_list.length)))
            (fetch_instr s.current_cycle))
          (s.dispatch_list ++
            s.new_instructions.take (min (N - 0) (2 * N - s.dispatch_list.length)))
          (promote s.current_cycle)
        ROB := s.ROB ++ s.new_instructions.take (min (N - 0) (2 * N - s.dispatch_list.length))
        dispatch_list :=
          s.dispatch_list ++
            s.new_instructions.take (min (N - 0) (2 * N - s.dispatch_list.length))
        total_instructions := s.total_instructions +
          ((s.new_instructions.take
            (min (N - 0) (2 * N - s.dispatch_list.length))).length : Int)
        new_instructions :=
          s.new_instructions.drop (min (N - 0) (2 * N - s.dispatch_list.length)) } := by
  unfold fetch
  rw [fetch_loop_eq]

theorem sameStatic_promote (c : Int) (i : Instruction) : sameStatic (promote c i) i := by
  unfold promote
  split
  · exact sameStatic_refl _
  · exact sameStatic_refl _

theorem promote_of_ne {c : Int} {i : Instruction} (h : i.current_state ≠ State.IF) :
    promote c i = i := by
  unfold promote
  rw [if_neg (fun e => h e.1)]

theorem okIF_promote {c : Int} {i : Instruction} (h : okIF c i) :
    okID (c + 1) (c + 1) (promote c i) := by
  obtain ⟨h1, h2, h3, h4, h5⟩ := h
  have hs : i.fetch_timing.start = c - 1 := by rw [h2]
  have hd : i.fetch_timing.duration = 1 := by rw [h2]
  have : i.current_state = State.IF ∧ c > i.fetch_timing.start := ⟨h1, by omega⟩
  simp only [promote, this, and_self, if_true]
  refine ⟨rfl, ⟨hd, ?_⟩, h5, Or.inl ⟨h4, ?_⟩⟩
  · show 0 ≤ i.fetch_timing.start
    omega
  · show i.fetch_timing.start + 2 = c + 1
    omega

theorem okIF_fetch {c : Int} {i : Instruction} (hc : 0 ≤ c)
    (h4 : i.dispatch_timing = ⟨0, 0⟩) (h5 : i.execute_cycles_left = latency i.op_type) :
    okIF (c + 1) (promote c (fetch_instr c i)) := by
  have : ¬ ((fetch_instr c i).current_state = State.IF ∧
      c > (fetch_instr c i).fetch_timing.start) := by
    intro e
    have e2 : c > c := e.2
    omega
  rw [promote, if_neg this]
  refine ⟨rfl, ?_, by omega, h4, h5⟩
  show (⟨c, 1⟩ : Timing) = ⟨c + 1 - 1, 1⟩
  congr 1
  omega

/-- The effect of `fetch` on a state that satisfies the invariant: the instructions
`f .. f2-1` are taken from the trace, and the `IF` entries of the dispatch queue move
to `ID`. -/
theorem fetch_spec {lines : List TraceLine} {N S : Nat} {cE cI c : Int} {D a f : Nat}
    {s : Processor} (h : Inv lines N S cE cI (c + 1) (c + 1) c D a f s)
    (hcyc : s.current_cycle = c) (hc : 0 ≤ c) :
    ∃ f2, f2 = min (f + min N (2 * N - (f - D))) lines.length ∧
      Inv lines N S cE cI (c + 1) (c + 1) (c + 1) D f f2 (fetch N s) ∧
      (fetch N s).issue_list = s.issue_list ∧
      (fetch N s).execute_list = s.execute_list ∧
      (fetch N s).output = s.output ∧
      (fetch N s).completed_tags = s.completed_tags ∧
      (fetch N s).current_cycle = s.current_cycle := by
  have hDa := h.D_le
  have haf := h.a_le
  have hfn := h.f_le
  have hrD := h.le_D
  obtain ⟨n, hn⟩ : ∃ n, n = min (min N (2 * N - (f - D))) (lines.length - f) := ⟨_, rfl⟩
  have hlen : s.dispatch_list.length = f - D := by rw [h.dl, length_seg]
  have htake : s.new_instructions.take (min (N - 0) (2 * N - s.dispatch_list.length)) =
      seg f (f + n) := by
    rw [h.pend, take_seg, hlen]; congr 1; omega
  have hdrop : s.new_instructions.drop (min (N - 0) (2 * N - s.dispatch_list.length)) =
      seg (f + n) lines.length := by
    rw [h.pend, drop_seg, hlen]
    by_cases hc : f + min (N - 0) (2 * N - (f - D)) ≤ lines.length
    · congr 1; omega
    · rw [seg_eq_nil (by omega), seg_eq_nil (by omega)]
  obtain ⟨M, hM⟩ : ∃ M : Mem, M = forEach (forEach s.mem (seg f (f + n)) (fetch_instr c))
      (seg D (f + n)) (promote c) := ⟨_, rfl⟩
  have hdl2 : s.dispatch_list ++ seg f (f + n) = seg D (f + n) := by
    rw [h.dl, seg_append (by omega) (by omega)]
  have hrob2 : s.ROB ++ seg f (f + n) = seg s.output.length (f + n) := by
    rw [h.rob, seg_append (by omega) (by omega)]
  have hMlow : ∀ {q}, q < D → M q = s.mem q := by
    intro q hq
    rw [hM, forEach_not_mem _ _ _ (fun e => by have := mem_seg.mp e; omega),
      forEach_not_mem _ _ _ (fun e => by have := mem_seg.mp e; omega)]
  have hMhigh : ∀ {q}, f + n ≤ q → M q = s.mem q := by
    intro q hq
    rw [hM, forEach_not_mem _ _ _ (fun e => by have := mem_seg.mp e; omega),
      forEach_not_mem _ _ _ (fun e => by have := mem_seg.mp e; omega)]
  have hMold : ∀ {q}, D ≤ q → q < f → M q = promote c (s.mem q) := by
    intro q hq1 hq2
    rw [hM, forEach_mem _ _ _ (nodup_seg _ _) (mem_seg.mpr ⟨hq1, by omega⟩),
      forEach_not_mem _ _ _ (fun e => by have := mem_seg.mp e; omega)]
  have hMnew : ∀ {q}, f ≤ q → q < f + n → M q = promote c (fetch_instr c (s.mem q)) := by
    intro q hq1 hq2
    rw [hM, forEach_mem _ _ _ (nodup_seg _ _) (mem_seg.mpr ⟨by omega, hq2⟩),
      forEach_mem _ _ _ (nodup_seg _ _) (mem_seg.mpr ⟨hq1, hq2⟩)]
  have hfe : fetch N s =
      { s with
        mem := M
        ROB := seg s.output.length (f + n)
        dispatch_list := seg D (f + n)
        total_instructions := s.total_instructions + ((seg f (f + n)).length : Int)
        new_instructions := seg (f + n) lines.length } := by
    rw [fetch_eq, htake, hdrop, hdl2, hrob2, hcyc, ← hM]
  refine ⟨f + n, by omega, ?_, ?_, ?_, ?_, ?_, ?_⟩
  · rw [hfe]
    exact
      { le_D := h.le_D
        D_le := by omega
        a_le := by omega
        f_le := by omega
        static := fun p => by
          show sameStatic (M p) _
          rw [hM]
          apply forEach_pred (fun i => sameStatic i (trace_mem lines p)) (promote c)
            (fun i hi => sameStatic_trans (sameStatic_promote c i) hi)
          apply forEach_pred (fun i => sameStatic i (trace_mem lines p)) (fetch_instr c)
            (fun i hi => sameStatic_trans (sameStatic_refl (fetch_instr c i)) hi)
          exact h.static p
        out := by
          show List.map core s.output = (List.range s.output.length).map (fun p => core (M p))
          rw [h.out]
          apply List.map_congr_left
          intro p hp
          have hp2 : p < s.output.length := List.mem_range.mp hp
          show core (s.mem p) = core (M p)
          rw [hMlow (by omega)]
        rob := rfl
        dl := rfl
        pend := rfl
        il_sorted := h.il_sorted
        il_range := h.il_range
        el_nodup := h.el_nodup
        el_range := h.el_range
        hB := fun p h1 h2 => by
          show okIF (c + 1) (M p)
          rw [hMnew h1 h2]
          have hp := h.hpend p h1
          have hpn : p < lines.length := by omega
          have e1' := congrArg Instruction.dispatch_timing hp
          have e2' := congrArg Instruction.execute_cycles_left hp
          have e3' := congrArg Instruction.op_type hp
          have e1 : (s.mem p).dispatch_timing = (trace_mem lines p).dispatch_timing := e1'
          have e2 : (s.mem p).execute_cycles_left = (trace_mem lines p).execute_cycles_left := e2'
          have e3 : (s.mem p).op_type = (trace_mem lines p).op_type := e3'
          apply okIF_fetch hc
          · show (s.mem p).dispatch_timing = _
            rw [e1, trace_mem_dispatch_timing lines hpn]
          · show (s.mem p).execute_cycles_left = latency (s.mem p).op_type
            rw [e2, e3, trace_mem_left lines hpn]
        hBlen := by omega
        hA := fun p h1 h2 => by
          show okID (c + 1) (c + 1) (M p)
          rw [hMold h1 h2]
          by_cases hpa : p < a
          · have := h.hA p h1 hpa
            rw [promote_of_ne (by rw [this.1]; decide)]
            exact this
          · exact okIF_promote (h.hB p (by omega) h2)
        hIL := fun p hp => by
          show okIS cI (M p)
          rw [hMlow (h.il_range p hp).2]; exact h.hIL p hp
        hEL := fun p hp => by
          show okEX cE (M p)
          rw [hMlow (h.el_range p hp).2]; exact h.hEL p hp
        hWB := fun p hpD hpi hpe => by
          show okWB cE (M p) ∧ (M p).tag ∈ s.completed_tags
          rw [hMlow hpD]; exact h.hWB p hpD hpi hpe
        hpend := fun p hp => by
          show core (M p) = _
          rw [hMhigh hp]; exact h.hpend p (by omega)
        hsrc := fun p hp => by
          show renamed lines p (M p)
          rw [hMlow hp]; exact h.hsrc p hp
        hrf := h.hrf
        hcomp := h.hcomp
        htotal := by
          show s.total_instructions + ((seg f (f + n)).length : Int) = ((f + n : Nat) : Int)
          rw [h.htotal, length_seg]
          push_cast
          omega
        hdl_len := by have := h.hdl_len; omega
        hil_len := h.hil_len }
  all_goals rw [hfe]

/-! ## One iteration of the loop of `main` -/

theorem retire_current_cycle (s : Processor) : (retire s).current_cycle = s.current_cycle := by
  rw [retire_eq]

theorem execute_current_cycle (s : Processor) : (execute s).current_cycle = s.current_cycle :=
  (execute_loop_frame s.execute_list s).2.2.2.2.1

theorem issue_current_cycle (N : Nat) (s : Processor) :
    (issue N s).current_cycle = s.current_cycle := by
  rw [issue_eq]

theorem init_inv (lines : List TraceLine) (N S : Nat) :
    Inv lines N S 0 0 0 0 0 0 0 0 (Processor.init lines) :=
  { le_D := Nat.le_refl _
    D_le := Nat.le_refl _
    a_le := Nat.le_refl _
    f_le := Nat.zero_le _
    static := fun _ => sameStatic_refl _
    out := rfl
    rob := rfl
    dl := rfl
    pend := (seg_zero _).symm
    il_sorted := List.Pairwise.nil
    il_range := fun p hp => by cases hp
    el_nodup := List.nodup_nil
    el_range := fun p hp => by cases hp
    hB := fun p h1 h2 => by omega
    hBlen := Nat.zero_le _
    hA := fun p h1 h2 => by omega
    hIL := fun p hp => by cases hp
    hEL := fun p hp => by cases hp
    hWB := fun p hp => by omega
    hpend := fun _ _ => rfl
    hsrc := fun p hp => by omega
    hrf := fun _ => rfl
    hcomp := fun t ht => by cases ht
    htotal := rfl
    hdl_len := Nat.zero_le _
    hil_len := Nat.zero_le _ }

theorem init_boundary (lines : List TraceLine) (N S : Nat) :
    Boundary lines N S (Processor.init lines) :=
  ⟨le_refl _, 0, 0, 0, init_inv lines N S⟩

/-- The invariant through the five handlers of one iteration that starts in cycle `c`. -/
theorem handlers_inv {lines : List TraceLine} {N S : Nat} {c : Int} {D a f : Nat}
    {s : Processor} (h : Inv lines N S c c c c c D a f s) (hcyc : s.current_cycle = c)
    (hc : 0 ≤ c) :
    Inv lines N S c c c c c D a f (retire s) ∧
    Inv lines N S (c + 1) c c c c D a f (execute (retire s)) ∧
    Inv lines N S (c + 1) (c + 1) c c c D a f (issue N (execute (retire s))) ∧
    ∃ D2 f2,
      D2 = min (D + min N (S - (issue N (execute (retire s))).issue_list.length)) a ∧
      f2 = min (f + min N (2 * N - (f - D2))) lines.length ∧
      Inv lines N S (c + 1) (c + 1) (c + 1) (c + 1) c D2 a f
        (dispatch N S (issue N (execute (retire s)))) ∧
      Inv lines N S (c + 1) (c + 1) (c + 1) (c + 1) (c + 1) D2 f f2 (handlers N S s) ∧
      (handlers N S s).current_cycle = c := by
  have h1 := retire_inv h
  have c1 : (retire s).current_cycle = c := by rw [retire_current_cycle, hcyc]
  have h2 := execute_inv h1 c1
  have c2 : (execute (retire s)).current_cycle = c := by rw [execute_current_cycle, c1]
  have h3 := issue_inv h2 c2
  have c3 : (issue N (execute (retire s))).current_cycle = c := by
    rw [issue_current_cycle, c2]
  obtain ⟨D2, hD2, h4, _, _, _, _, _, _, c4⟩ := dispatch_spec h3
  rw [c3] at c4
  obtain ⟨f2, hf2, h5, _, _, _, _, c5⟩ := fetch_spec h4 c4 hc
  rw [c4] at c5
  exact ⟨h1, h2, h3, D2, f2, hD2, hf2, h4, h5, c5⟩

theorem cycle_current_cycle_of {N S : Nat} {s : Processor} {c : Int}
    (h : (handlers N S s).current_cycle = c) : (cycle N S s).current_cycle = c + 1 := by
  show (handlers N S s).current_cycle + 1 = c + 1
  rw [h]

theorem Inv.advance {lines : List TraceLine} {N S : Nat} {cE cI cu cs cF : Int} {D a f : Nat}
    {s : Processor} (h : Inv lines N S cE cI cu cs cF D a f s) :
    Inv lines N S cE cI cu cs cF D a f (advance_cycle s).1 :=
  { le_D := h.le_D, D_le := h.D_le, a_le := h.a_le, f_le := h.f_le, static := h.static
    out := h.out, rob := h.rob, dl := h.dl, pend := h.pend, il_sorted := h.il_sorted
    il_range := h.il_range, el_nodup := h.el_nodup, el_range := h.el_range, hB := h.hB
    hBlen := h.hBlen, hA := h.hA, hIL := h.hIL, hEL := h.hEL, hWB := h.hWB, hpend := h.hpend
    hsrc := h.hsrc, hrf := h.hrf, hcomp := h.hcomp, htotal := h.htotal, hdl_len := h.hdl_len
    hil_len := h.hil_len }

theorem cycle_boundary {lines : List TraceLine} {N S : Nat} {s : Processor}
    (h : Boundary lines N S s) : Boundary lines N S (cycle N S s) := by
  obtain ⟨hc, D, a, f, hinv⟩ := h
  obtain ⟨_, _, _, D2, f2, _, _, _, h5, c5⟩ := handlers_inv hinv rfl hc
  have e := cycle_current_cycle_of c5
  refine ⟨by rw [e]; omega, D2, f, f2, ?_⟩
  rw [e]
  exact h5.advance

theorem cycles_boundary (lines : List TraceLine) (N S : Nat) :
    ∀ k, Boundary lines N S (cycles N S k (Processor.init lines))
  | 0 => init_boundary lines N S
  | k + 1 => cycle_boundary (cycles_boundary lines N S k)

theorem cycles_current_cycle (lines : List TraceLine) (N S : Nat) :
    ∀ k, (cycles N S k (Processor.init lines)).current_cycle = (k : Int)
  | 0 => rfl
  | k + 1 => by
    show (handlers N S (cycles N S k (Processor.init lines))).current_cycle + 1 = _
    obtain ⟨hc, D, a, f, hinv⟩ := cycles_boundary lines N S k
    obtain ⟨_, _, _, D2, f2, _, _, _, _, c5⟩ := handlers_inv hinv rfl hc
    rw [c5, cycles_current_cycle lines N S k]
    push_cast
    rfl

/-! ## Consequences of the invariant -/

theorem trace_mem_state (lines : List TraceLine) {p : Nat} (h : p < lines.length) :
    (trace_mem lines p).current_state = State.IF := by
  rw [trace_mem_lt lines h]; rfl

theorem trace_mem_op (lines : List TraceLine) {p : Nat} (h : p < lines.length) :
    (trace_mem lines p).op_type = (lines[p]).op_type := by
  rw [trace_mem_lt lines h]; rfl

/-- Where a record is decides its state. -/
theorem Inv.state_cases {lines : List TraceLine} {N S : Nat} {cE cI cu cs cF : Int}
    {D a f : Nat} {s : Processor} (h : Inv lines N S cE cI cu cs cF D a f s) (p : Nat)
    (hp : p < lines.length) :
    (p ∈ s.issue_list ∧ (s.mem p).current_state = State.IS) ∨
    (p ∈ s.execute_list ∧ (s.mem p).current_state = State.EX) ∨
    (p < D ∧ p ∉ s.issue_list ∧ p ∉ s.execute_list ∧ (s.mem p).current_state = State.WB) ∨
    (D ≤ p ∧ p < a ∧ (s.mem p).current_state = State.ID) ∨
    (a ≤ p ∧ (s.mem p).current_state = State.IF) := by
  by_cases h1 : p ∈ s.issue_list
  · exact Or.inl ⟨h1, (h.hIL p h1).1⟩
  by_cases h2 : p ∈ s.execute_list
  · exact Or.inr (Or.inl ⟨h2, (h.hEL p h2).1⟩)
  by_cases h3 : p < D
  · exact Or.inr (Or.inr (Or.inl ⟨h3, h1, h2, (h.hWB p h3 h1 h2).1.1⟩))
  by_cases h4 : p < a
  · exact Or.inr (Or.inr (Or.inr (Or.inl ⟨by omega, h4, (h.hA p (by omega) h4).1⟩)))
  refine Or.inr (Or.inr (Or.inr (Or.inr ⟨by omega, ?_⟩)))
  by_cases h5 : p < f
  · exact (h.hB p (by omega) h5).1
  · have e := congrArg Instruction.current_state (h.hpend p (by omega))
    have e2 : (s.mem p).current_state = (trace_mem lines p).current_state := e
    rw [e2, trace_mem_state lines hp]

theorem Inv.tag_eq {lines : List TraceLine} {N S : Nat} {cE cI cu cs cF : Int}
    {D a f : Nat} {s : Processor} (h : Inv lines N S cE cI cu cs cF D a f s) {p : Nat}
    (hp : p < lines.length) : (s.mem p).tag = (p : Int) := by
  rw [(h.static p).2.2.2.2.2, trace_mem_tag lines hp]

theorem Inv.output_tags {lines : List TraceLine} {N S : Nat} {cE cI cu cs cF : Int}
    {D a f : Nat} {s : Processor} (h : Inv lines N S cE cI cu cs cF D a f s) :
    s.output.map (fun i => i.tag) = (List.range s.output.length).map (fun (p : Nat) => (p : Int)) := by
  have e : s.output.map (fun i => i.tag) = (s.output.map core).map (fun i => i.tag) := by
    rw [List.map_map]; rfl
  rw [e, h.out, List.map_map]
  apply List.map_congr_left
  intro p hp
  have hp2 : p < s.output.length := List.mem_range.mp hp
  have := h.le_D; have := h.D_le; have := h.a_le; have := h.f_le
  exact h.tag_eq (by omega)

theorem Inv.rob_tags {lines : List TraceLine} {N S : Nat} {cE cI cu cs cF : Int}
    {D a f : Nat} {s : Processor} (h : Inv lines N S cE cI cu cs cF D a f s) :
    s.ROB.map (fun p => (s.mem p).tag) = (seg s.output.length f).map (fun (p : Nat) => (p : Int)) := by
  rw [h.rob]
  apply List.map_congr_left
  intro p hp
  have := h.f_le
  exact h.tag_eq (by have := (mem_seg.mp hp).2; omega)

/-- A printed record is the record of a retired pointer, the wake-up flags apart. -/
theorem Inv.output_record {lines : List TraceLine} {N S : Nat} {cE cI cu cs cF : Int}
    {D a f : Nat} {s : Processor} (h : Inv lines N S cE cI cu cs cF D a f s)
    {i : Instruction} (hi : i ∈ s.output) :
    ∃ p, p < s.output.length ∧ core i = core (s.mem p) ∧ okWB cE (s.mem p) := by
  have h1 : core i ∈ s.output.map core := List.mem_map.mpr ⟨i, hi, rfl⟩
  rw [h.out, List.mem_map] at h1
  obtain ⟨p, hp, e⟩ := h1
  have hp2 : p < s.output.length := List.mem_range.mp hp
  have hD := h.le_D
  refine ⟨p, hp2, e.symm, (h.hWB p (by omega) ?_ ?_).1⟩
  · intro e2; have := (h.il_range p e2).1; omega
  · intro e2; have := (h.el_range p e2).1; omega

theorem Inv.queue_lengths {lines : List TraceLine} {N S : Nat} {cE cI cu cs cF : Int}
    {D a f : Nat} {s : Processor} (h : Inv lines N S cE cI cu cs cF D a f s) :
    s.dispatch_list.length ≤ 2 * N ∧ s.issue_list.length ≤ S := by
  refine ⟨?_, h.hil_len⟩
  rw [h.dl, length_seg]
  exact h.hdl_len

/-- Claim C2: after every cycle the tags already printed by `retire` followed by the tags in
the ROB, front to back, are `0, 1, ..., f-1` for some `f`, and the printed tags are
`0, 1, ..., r-1`; so this sequence, the ROB and the output are strictly ascending by tag,
and the tags printed before a tag `T` are exactly the tags below `T`. -/
theorem retired_then_rob_ascending (lines : List TraceLine) (N S k : Nat) :
    ((cycles N S k (Processor.init lines)).output.map (fun i => i.tag) ++
      (cycles N S k (Processor.init lines)).ROB.map
        (fun p => ((cycles N S k (Processor.init lines)).mem p).tag)).Pairwise
        (fun x y => x < y) ∧
    (∃ f, (cycles N S k (Processor.init lines)).output.map (fun i => i.tag) ++
      (cycles N S k (Processor.init lines)).ROB.map
        (fun p => ((cycles N S k (Processor.init lines)).mem p).tag) =
      (List.range f).map (fun (p : Nat) => (p : Int))) ∧
    (cycles N S k (Processor.init lines)).output.map (fun i => i.tag) =
      (List.range (cycles N S k (Processor.init lines)).output.length).map
        (fun (p : Nat) => (p : Int)) := by
  obtain ⟨_, D, a, f, h⟩ := cycles_boundary lines N S k
  have hrf : (cycles N S k (Processor.init lines)).output.length ≤ f :=
    le_trans h.le_D (le_trans h.D_le h.a_le)
  have e : (cycles N S k (Processor.init lines)).output.map (fun i => i.tag) ++
      (cycles N S k (Processor.init lines)).ROB.map
        (fun p => ((cycles N S k (Processor.init lines)).mem p).tag) =
      (List.range f).map (fun (p : Nat) => (p : Int)) := by
    rw [h.output_tags, h.rob_tags, ← List.map_append, ← seg_zero, seg_append (Nat.zero_le _) hrf,
      seg_zero]
  refine ⟨?_, ⟨f, e⟩, h.output_tags⟩
  rw [e]
  exact (List.pairwise_lt_range f).map _ (fun a b hab => by exact_mod_cast hab)

/-- Claim C3: every record printed by `retire`, on a trace with operation types in {0, 1, 2},
has `IF`, `ID` and `IS` durations of at least 1, an `EX` duration equal to the latency of
its operation type (1, 2, 10), a `WB` duration of 1, and stage starts that chain
exactly from `IF` to `WB`. -/
theorem retired_record_timing (lines : List TraceLine) (N S : Nat)
    (hops : ∀ l ∈ lines, l.op_type = 0 ∨ l.op_type = 1 ∨ l.op_type = 2) (k : Nat)
    (i : Instruction) (hi : i ∈ (cycles N S k (Processor.init lines)).output) :
    i.fetch_timing.duration ≥ 1 ∧ i.dispatch_timing.duration ≥ 1 ∧
    i.issue_timing.duration ≥ 1 ∧
    ((i.op_type = 0 ∧ i.execute_timing.duration = 1) ∨
      (i.op_type = 1 ∧ i.execute_timing.duration = 2) ∨
      (i.op_type = 2 ∧ i.execute_timing.duration = 10)) ∧
    i.writeback_timing.duration = 1 ∧
    i.fetch_timing.start + i.fetch_timing.duration = i.dispatch_timing.start ∧
    i.dispatch_timing.start + i.dispatch_timing.duration = i.issue_timing.start ∧
    i.issue_timing.start + i.issue_timing.duration = i.execute_timing.start ∧
    i.execute_timing.start + i.execute_timing.duration = i.writeback_timing.start := by
  obtain ⟨_, D, a, f, h⟩ := cycles_boundary lines N S k
  obtain ⟨p, hp, hcore, hwb⟩ := h.output_record hi
  have hpn : p < lines.length := by
    have := h.le_D; have := h.D_le; have := h.a_le; have := h.f_le; omega
  have hwi : okWB _ i := of_core (okWB_core _) hcore.symm hwb
  obtain ⟨_, ⟨⟨⟨⟨f1, f2⟩, d1, d2, s1, s2⟩, e1, e2⟩, w1, w2⟩, _⟩ := hwi
  have hop0 := congrArg Instruction.op_type hcore
  have hop : i.op_type = (lines[p]).op_type := by
    have e : i.op_type = ((cycles N S k (Processor.init lines)).mem p).op_type := hop0
    rw [e, (h.static p).2.1, trace_mem_op lines hpn]
  have hv := hops _ (List.getElem_mem hpn)
  rw [← hop] at hv
  refine ⟨by omega, by omega, by omega, ?_, w2, d1.symm, s1.symm, e1.symm, w1.symm⟩
  rcases hv with hv | hv | hv
  · exact Or.inl ⟨hv, by rw [e2, hv]; rfl⟩
  · exact Or.inr (Or.inl ⟨hv, by rw [e2, hv]; rfl⟩)
  · exact Or.inr (Or.inr ⟨hv, by rw [e2, hv]; rfl⟩)

/-- Claim C4: after every handler invocation of every iteration of a run the dispatch queue
holds at most `2 * N` entries and the scheduling queue at most `S`. -/
theorem queues_within_capacity (lines : List TraceLine) (N S k j : Nat) :
    (after_handlers N S j (cycles N S k (Processor.init lines))).dispatch_list.length ≤ 2 * N ∧
    (after_handlers N S j (cycles N S k (Processor.init lines))).issue_list.length ≤ S := by
  obtain ⟨hc, D, a, f, h⟩ := cycles_boundary lines N S k
  obtain ⟨h1, h2, h3, D2, f2, _, _, h4, h5, _⟩ := handlers_inv h rfl hc
  match j with
  | 0 => exact h.queue_lengths
  | 1 => exact h1.queue_lengths
  | 2 => exact h2.queue_lengths
  | 3 => exact h3.queue_lengths
  | 4 => exact h4.queue_lengths
  | n + 5 => exact h5.queue_lengths

/-! ## Renaming -/

theorem last_writer_bounds (lines : List TraceLine) (r : Int) :
    ∀ (d : Nat) (t : Int), last_writer lines d r = some t → 0 ≤ t ∧ t < (d : Int)
  | 0, t, h => by simp [last_writer] at h
  | d + 1, t, h => by
    rw [last_writer] at h
    split at h
    · have e : (d : Int) = t := Option.some.inj h
      push_cast
      omega
    · have := last_writer_bounds lines r d t h
      push_cast
      omega

theorem last_writer_isSome_mono (lines : List TraceLine) (r : Int) (d : Nat)
    (h : (last_writer lines d r).isSome = true) :
    ∀ d2, d ≤ d2 → (last_writer lines d2 r).isSome = true
  | 0, hd => by
    have e : d = 0 := by omega
    subst e; exact h
  | d2 + 1, hd => by
    by_cases e : d = d2 + 1
    · subst e; exact h
    · rw [last_writer]
      split
      · rfl
      · exact last_writer_isSome_mono lines r d h d2 (by omega)

theorem rename_src_ne {rf : Int → Option Int} {reg : Int} (h : rename_src rf reg ≠ -1) :
    (rf reg).isSome = true := by
  unfold rename_src at h
  split at h
  · cases e : rf reg with
    | none => rw [e] at h; exact absurd rfl h
    | some t => rfl
  · exact absurd rfl h

/-- In the scheduling queue a source tag other than `-1` belongs to a register that the
register file maps: the third disjunct of the readiness test of `issue` adds nothing. -/
theorem Inv.src_ready_iff {lines : List TraceLine} {N S : Nat} {cE cI cu cs cF : Int}
    {D a f : Nat} {s : Processor} (h : Inv lines N S cE cI cu cs cF D a f s) {p : Nat}
    (hp : p < D) :
    issue_ready s (s.mem p) = true ↔
      ((s.mem p).src1_tag = -1 ∨ (s.mem p).src1_tag ∈ s.completed_tags) ∧
      ((s.mem p).src2_tag = -1 ∨ (s.mem p).src2_tag ∈ s.completed_tags) := by
  have hmap : ∀ reg, rename_src (last_writer lines p) reg ≠ -1 →
      (s.register_file reg).isNone = false := by
    intro reg hne
    have h1 := rename_src_ne hne
    have h2 := last_writer_isSome_mono lines reg p h1 D (by omega)
    rw [h.hrf reg]
    cases e : last_writer lines D reg with
    | none => rw [e] at h2; cases h2
    | some t => rfl
  obtain ⟨e1, e2⟩ := h.hsrc p hp
  have k1 : src_ready s (s.mem p).src1_tag (s.mem p).src1_reg = true ↔
      ((s.mem p).src1_tag = -1 ∨ (s.mem p).src1_tag ∈ s.completed_tags) := by
    unfold src_ready
    by_cases hc : (s.mem p).src1_tag = -1
    · simp [hc]
    · have := hmap (s.mem p).src1_reg (by rw [← e1]; exact hc)
      simp [hc, this]
  have k2 : src_ready s (s.mem p).src2_tag (s.mem p).src2_reg = true ↔
      ((s.mem p).src2_tag = -1 ∨ (s.mem p).src2_tag ∈ s.completed_tags) := by
    unfold src_ready
    by_cases hc : (s.mem p).src2_tag = -1
    · simp [hc]
    · have := hmap (s.mem p).src2_reg (by rw [← e2]; exact hc)
      simp [hc, this]
  unfold issue_ready
  simp only [Bool.and_true, Bool.and_eq_true]
  rw [k1, k2]

/-- The effect of `issue` on a state that satisfies the invariant. -/
theorem issue_spec_inv {lines : List TraceLine} {N S : Nat} {cE cu cs cF : Int} {D a f : Nat}
    {s : Processor} (h : Inv lines N S cE s.current_cycle cu cs cF D a f s) :
    issue N s =
      { s with
        issue_list :=
          ((ready_list s).take N).foldl (fun (acc : List Nat) p => acc.erase p) s.issue_list
        mem := fun q =>
          if q ∈ (ready_list s).take N then issue_instr (s.mem q)
          else if q ∈ s.issue_list then issue_stall (s.mem q) else s.mem q
        execute_list := s.execute_list ++ (ready_list s).take N } ∧
    ready_instructions s = ready_list s := by
  have hn : ∀ p, p < D → p < lines.length := fun p hp => by
    have := h.D_le; have := h.a_le; have := h.f_le; omega
  have hscan : ∀ p ∈ s.issue_list, scan_test s (s.mem p) = true := fun p hp =>
    okIS_scan (h.hIL p hp)
  have htag : ∀ p ∈ s.issue_list, (s.mem p).tag = (p : Int) := fun p hp =>
    h.tag_eq (hn p (h.il_range p hp).2)
  refine ⟨issue_spec N s hscan h.il_sorted htag, ?_⟩
  unfold ready_instructions
  rw [issue_scan_eq]
  show [] ++ _ = _
  rw [List.nil_append]
  apply List.filter_congr
  intro p hp
  rw [hscan p hp, Bool.true_and]

/-! ## The loop of `main` -/

theorem cycles_succ_inner (N S : Nat) (s : Processor) :
    ∀ k, cycles N S (k + 1) s = cycles N S k (cycle N S s)
  | 0 => rfl
  | k + 1 => by
    show cycle N S (cycles N S (k + 1) s) = cycle N S (cycles N S k (cycle N S s))
    rw [cycles_succ_inner N S s k]

theorem main_loop_succ (N S fuel : Nat) (s : Processor) :
    main_loop N S (fuel + 1) s =
      if (cycle N S s).ROB = [] then some (cycle N S s) else main_loop N S fuel (cycle N S s) := by
  rw [main_loop]
  show (if (!(handlers N S s).ROB.isEmpty) = true then _ else _) = _
  have e : (cycle N S s).ROB = (handlers N S s).ROB := rfl
  rw [e]
  cases hr : (handlers N S s).ROB with
  | nil => simp [cycle, advance_cycle]
  | cons x xs => simp [cycle, advance_cycle]

/-- The loop exits after the first iteration that leaves the ROB empty. -/
theorem main_loop_exit (N S : Nat) :
    ∀ (k fuel : Nat) (s : Processor), (cycles N S (k + 1) s).ROB = [] →
      (∀ j, j < k → (cycles N S (j + 1) s).ROB ≠ []) → k < fuel →
      main_loop N S fuel s = some (cycles N S (k + 1) s)
  | 0, fuel, s, h1, _, h3 => by
    obtain ⟨m, rfl⟩ : ∃ m, fuel = m + 1 := ⟨fuel - 1, by omega⟩
    have h1b : (cycle N S s).ROB = [] := h1
    rw [main_loop_succ, if_pos h1b]
    rfl
  | k + 1, fuel, s, h1, h2, h3 => by
    obtain ⟨m, rfl⟩ : ∃ m, fuel = m + 1 := ⟨fuel - 1, by omega⟩
    have hne : (cycle N S s).ROB ≠ [] := h2 0 (by omega)
    rw [main_loop_succ, if_neg hne, cycles_succ_inner N S s (k + 1)]
    apply main_loop_exit N S k m (cycle N S s)
    · rw [← cycles_succ_inner]; exact h1
    · intro j hj
      rw [← cycles_succ_inner]
      exact h2 (j + 1) (by omega)
    · omega

/-- A result of the loop is the state after the first iteration that leaves the ROB
empty. -/
theorem main_loop_some (N S : Nat) :
    ∀ (fuel : Nat) (s t : Processor), main_loop N S fuel s = some t →
      ∃ k, k < fuel ∧ t = cycles N S (k + 1) s ∧ t.ROB = [] ∧
        ∀ j, j < k → (cycles N S (j + 1) s).ROB ≠ []
  | 0, s, t, h => by simp [main_loop] at h
  | fuel + 1, s, t, h => by
    rw [main_loop_succ] at h
    by_cases hr : (cycle N S s).ROB = []
    · rw [if_pos hr] at h
      have e : cycle N S s = t := Option.some.inj h
      refine ⟨0, by omega, e.symm, e ▸ hr, ?_⟩
      intro j hj; omega
    · rw [if_neg hr] at h
      obtain ⟨k, hk, e, hrob, hall⟩ := main_loop_some N S fuel (cycle N S s) t h
      refine ⟨k + 1, by omega, ?_, hrob, ?_⟩
      · rw [cycles_succ_inner]; exact e
      · intro j hj
        by_cases hj0 : j = 0
        · subst hj0; exact hr
        · obtain ⟨i, rfl⟩ : ∃ i, j = i + 1 := ⟨j - 1, by omega⟩
          rw [cycles_succ_inner]
          exact hall i (by omega)

theorem execute_output (s : Processor) : (execute s).output = s.output :=
  (execute_loop_frame s.execute_list s).2.2.2.2.2.2.2

theorem issue_output (N : Nat) (s : Processor) : (issue N s).output = s.output := by
  rw [issue_eq]

theorem phases_of_inv {lines : List TraceLine} {N S : Nat} {c : Int} {D a f : Nat}
    {s : Processor} (h : Inv lines N S c c c c c D a f s) (hcyc : s.current_cycle = c)
    (hc : 0 ≤ c) : ∃ D2 f2, Phases lines N S c D a f D2 f2 s := by
  have h1 := retire_inv h
  have c1 : (retire s).current_cycle = c := by rw [retire_current_cycle, hcyc]
  have h2 := execute_inv h1 c1
  have c2 : (execute (retire s)).current_cycle = c := by rw [execute_current_cycle, c1]
  have h3 := issue_inv h2 c2
  have c3 : (issue N (execute (retire s))).current_cycle = c := by
    rw [issue_current_cycle, c2]
  obtain ⟨D2, hD2, h4, il4, el4, _, out4, _, _, c4⟩ := dispatch_spec h3
  rw [c3] at c4
  obtain ⟨f2, hf2, h5, il5, el5, out5, _, c5⟩ := fetch_spec h4 c4 hc
  rw [c4] at c5
  have out3 : (issue N (execute (retire s))).output = (retire s).output := by
    rw [issue_output, execute_output]
  exact ⟨D2, f2,
    { h0 := h, c0 := hcyc, nonneg := hc, h1 := h1, c1 := c1, h2 := h2, c2 := c2
      out2 := execute_output _, h3 := h3, c3 := c3, out3 := out3, hD2 := hD2, h4 := h4
      il4 := il4, el4 := el4, out4 := out4.trans out3, c4 := c4, hf2 := hf2, h5 := h5
      il5 := il5, el5 := el5, out5 := (out5.trans out4).trans out3, c5 := c5 }⟩

theorem phases_of_boundary {lines : List TraceLine} {N S : Nat} {s : Processor}
    (h : Boundary lines N S s) :
    ∃ D a f D2 f2, Phases lines N S s.current_cycle D a f D2 f2 s := by
  obtain ⟨hc, D, a, f, hinv⟩ := h
  obtain ⟨D2, f2, hp⟩ := phases_of_inv hinv rfl hc
  exact ⟨D, a, f, D2, f2, hp⟩

theorem phases_of_run (lines : List TraceLine) (N S k : Nat) :
    ∃ D a f D2 f2, Phases lines N S (k : Int) D a f D2 f2 (cycles N S k (Processor.init lines)) := by
  have := phases_of_boundary (cycles_boundary lines N S k)
  rwa [cycles_current_cycle] at this

/-- The state at the next boundary. -/
theorem Phases.next {lines : List TraceLine} {N S : Nat} {c : Int} {D a f D2 f2 : Nat}
    {s : Processor} (h : Phases lines N S c D a f D2 f2 s) :
    Inv lines N S (c + 1) (c + 1) (c + 1) (c + 1) (c + 1) D2 f f2 (cycle N S s) ∧
    (cycle N S s).current_cycle = c + 1 ∧ (cycle N S s).output = (retire s).output ∧
    (cycle N S s).ROB = (handlers N S s).ROB :=
  ⟨h.h5.advance, cycle_current_cycle_of h.c5, h.out5, rfl⟩

/-! ## Counting transitions -/

theorem transitions_le (n : Nat) (x y : State) (before after : Processor) (L : List Nat)
    (hL : ∀ p, p < n → (before.mem p).current_state = x → (after.mem p).current_state = y →
      p ∈ L) : transitions n x y before after ≤ L.length := by
  unfold transitions
  apply List.Subperm.length_le
  apply List.subperm_of_subset ((List.nodup_range n).filter _)
  intro p hp
  rw [List.mem_filter, List.mem_range, decide_eq_true_eq] at hp
  exact hL p hp.1 hp.2.1 hp.2.2

/-- The readiness test of `issue` on a state that satisfies the invariant. -/
theorem issue_ready_of_inv {lines : List TraceLine} {N S : Nat} {cE cu cs cF : Int}
    {D a f : Nat} {s : Processor} (h : Inv lines N S cE s.current_cycle cu cs cF D a f s) :
    (∀ p ∈ s.issue_list,
      (p ∈ ready_instructions s ↔
        (((s.mem p).src1_tag = -1 ∨ (s.mem p).src1_tag ∈ s.completed_tags) ∧
         ((s.mem p).src2_tag = -1 ∨ (s.mem p).src2_tag ∈ s.completed_tags)))) ∧
    (∀ p, p < lines.length → (s.mem p).current_state = State.IS →
      ((issue N s).mem p).current_state = State.EX →
      (((s.mem p).src1_tag = -1 ∨ (s.mem p).src1_tag ∈ s.completed_tags) ∧
       ((s.mem p).src2_tag = -1 ∨ (s.mem p).src2_tag ∈ s.completed_tags))) := by
  obtain ⟨hiss, hready⟩ := issue_spec_inv (N := N) h
  constructor
  · intro p hp
    rw [hready, ← h.src_ready_iff (h.il_range p hp).2]
    unfold ready_list
    rw [List.mem_filter]
    exact ⟨fun e => e.2, fun e => ⟨hp, e⟩⟩
  · intro p _ hst1 hst2
    rw [hiss] at hst2
    have hst3 : (if p ∈ (ready_list s).take N then issue_instr (s.mem p)
        else if p ∈ s.issue_list then issue_stall (s.mem p) else s.mem p).current_state =
        State.EX := hst2
    by_cases hp : p ∈ (ready_list s).take N
    · have hp2 := List.mem_of_mem_take hp
      unfold ready_list at hp2
      rw [List.mem_filter] at hp2
      exact (h.src_ready_iff (h.il_range p hp2.1).2).mp hp2.2
    · exfalso
      rw [if_neg hp] at hst3
      by_cases hp3 : p ∈ s.issue_list
      · rw [if_pos hp3] at hst3
        have e : (issue_stall (s.mem p)).current_state = (s.mem p).current_state := rfl
        rw [e, hst1] at hst3
        cases hst3
      · rw [if_neg hp3, hst1] at hst3
        cases hst3

/-- Claim C1: in every iteration of a run, in each state before `issue` runs (`j = 0`: the
start of the iteration, `j = 1`: after `retire`, `j = 2`: after `execute`, the state in
which the loop of `main` calls `issue`), `issue` puts an entry of the scheduling queue
into `ready_instructions` if and only if each of its two source tags is `-1` or in
`completed_tags`; and every record that `issue` moves from `IS` to `EX` has its source
tags other than `-1` in `completed_tags` at that moment. -/
theorem issue_ready_iff_sources_completed (lines : List TraceLine) (N S k j : Nat)
    (hj : j ≤ 2) :
    (∀ p ∈ (after_handlers N S j (cycles N S k (Processor.init lines))).issue_list,
      (p ∈ ready_instructions (after_handlers N S j (cycles N S k (Processor.init lines))) ↔
        ((((after_handlers N S j (cycles N S k (Processor.init lines))).mem p).src1_tag = -1 ∨
          ((after_handlers N S j (cycles N S k (Processor.init lines))).mem p).src1_tag ∈
            (after_handlers N S j (cycles N S k (Processor.init lines))).completed_tags) ∧
         (((after_handlers N S j (cycles N S k (Processor.init lines))).mem p).src2_tag = -1 ∨
          ((after_handlers N S j (cycles N S k (Processor.init lines))).mem p).src2_tag ∈
            (after_handlers N S j (cycles N S k (Processor.init lines))).completed_tags)))) ∧
    (∀ p, p < lines.length →
      ((after_handlers N S j (cycles N S k (Processor.init lines))).mem p).current_state =
        State.IS →
      ((issue N (after_handlers N S j (cycles N S k (Processor.init lines)))).mem p).current_state =
        State.EX →
      ((((after_handlers N S j (cycles N S k (Processor.init lines))).mem p).src1_tag = -1 ∨
          ((after_handlers N S j (cycles N S k (Processor.init lines))).mem p).src1_tag ∈
            (after_handlers N S j (cycles N S k (Processor.init lines))).completed_tags) ∧
         (((after_handlers N S j (cycles N S k (Processor.init lines))).mem p).src2_tag = -1 ∨
          ((after_handlers N S j (cycles N S k (Processor.init lines))).mem p).src2_tag ∈
            (after_handlers N S j (cycles N S k (Processor.init lines))).completed_tags))) := by
  obtain ⟨D, a, f, D2, f2, ph⟩ := phases_of_run lines N S k
  match j, hj with
  | 0, _ =>
    have h := ph.h0
    rw [← ph.c0] at h
    exact issue_ready_of_inv h
  | 1, _ =>
    have h := ph.h1
    rw [← ph.c1] at h
    exact issue_ready_of_inv h
  | 2, _ =>
    have h : Inv lines N S ((k : Int) + 1)
        (execute (retire (cycles N S k (Processor.init lines)))).current_cycle k k k D a f
        (execute (retire (cycles N S k (Processor.init lines)))) := by
      rw [ph.c2]; exact ph.h2
    exact issue_ready_of_inv h

theorem state_ne_of {s : Processor} {p : Nat} {x y : State} (h : (s.mem p).current_state = x)
    (hxy : x ≠ y) : (s.mem p).current_state ≠ y := fun e => hxy (h.symm.trans e)

/-- Claim C6: in every iteration of a run at most `N` records move from `IF` to `ID` in
`fetch`, at most `N` from `ID` to `IS` in `dispatch`, and at most `N` from `IS` to `EX`
in `issue`. -/
theorem front_transitions_bounded (lines : List TraceLine) (N S k : Nat) :
    transitions lines.length State.IF State.ID
      (dispatch N S (issue N (execute (retire (cycles N S k (Processor.init lines))))))
      (fetch N (dispatch N S (issue N (execute (retire (cycles N S k (Processor.init lines)))))))
      ≤ N ∧
    transitions lines.length State.ID State.IS
      (issue N (execute (retire (cycles N S k (Processor.init lines)))))
      (dispatch N S (issue N (execute (retire (cycles N S k (Processor.init lines))))))
      ≤ N ∧
    transitions lines.length State.IS State.EX
      (execute (retire (cycles N S k (Processor.init lines))))
      (issue N (execute (retire (cycles N S k (Processor.init lines)))))
      ≤ N := by
  obtain ⟨D, a, f, D2, f2, ph⟩ := phases_of_run lines N S k
  have h2' : Inv lines N S ((k : Int) + 1)
      (execute (retire (cycles N S k (Processor.init lines)))).current_cycle k k k D a f
      (execute (retire (cycles N S k (Processor.init lines)))) := by
    rw [ph.c2]; exact ph.h2
  obtain ⟨hiss, _⟩ := issue_spec_inv (N := N) h2'
  refine ⟨?_, ?_, ?_⟩
  · refine le_trans (transitions_le _ _ _ _ _ (seg a f) ?_) ?_
    · intro p hpn hb ha
      have h5 : Inv lines N S _ _ _ _ _ D2 f f2
          (fetch N (dispatch N S (issue N (execute (retire
            (cycles N S k (Processor.init lines))))))) := ph.h5
      rw [mem_seg]
      constructor
      · rcases ph.h4.state_cases p hpn with e | e | e | e | e
        · rw [hb] at e; cases e.2
        · rw [hb] at e; cases e.2
        · rw [hb] at e; cases e.2.2.2
        · rw [hb] at e; cases e.2.2
        · exact e.1
      · rcases h5.state_cases p hpn with e | e | e | e | e
        · rw [ha] at e; cases e.2
        · rw [ha] at e; cases e.2
        · rw [ha] at e; cases e.2.2.2
        · exact e.2.1
        · rw [ha] at e; cases e.2
    · rw [length_seg]; exact ph.h4.hBlen
  · refine le_trans (transitions_le _ _ _ _ _ (seg D D2) ?_) ?_
    · intro p hpn hb ha
      rw [mem_seg]
      have hD : D ≤ p := by
        rcases ph.h3.state_cases p hpn with e | e | e | e | e
        · rw [hb] at e; cases e.2
        · rw [hb] at e; cases e.2
        · rw [hb] at e; cases e.2.2.2
        · exact e.1
        · rw [hb] at e; cases e.2
      refine ⟨hD, ?_⟩
      rcases ph.h4.state_cases p hpn with e | e | e | e | e
      · exact (ph.h4.il_range p e.1).2
      · rw [ha] at e; cases e.2
      · rw [ha] at e; cases e.2.2.2
      · rw [ha] at e; cases e.2.2
      · rw [ha] at e; cases e.2
    · rw [length_seg, ph.hD2]; omega
  · refine le_trans (transitions_le _ _ _ _ _
      ((ready_list (execute (retire (cycles N S k (Processor.init lines))))).take N) ?_) ?_
    · intro p hpn hb ha
      have hnel : p ∉ (execute (retire (cycles N S k (Processor.init lines)))).execute_list := by
        intro e
        have := (ph.h2.hEL p e).1
        rw [hb] at this; cases this
      have hel : p ∈ (issue N (execute (retire
          (cycles N S k (Processor.init lines))))).execute_list := by
        rcases ph.h3.state_cases p hpn with e | e | e | e | e
        · rw [ha] at e; cases e.2
        · exact e.1
        · rw [ha] at e; cases e.2.2.2
        · rw [ha] at e; cases e.2.2
        · rw [ha] at e; cases e.2
      rw [hiss] at hel
      have hel2 : p ∈ (execute (retire (cycles N S k (Processor.init lines)))).execute_list ++
          (ready_list (execute (retire (cycles N S k (Processor.init lines))))).take N := hel
      rcases List.mem_append.mp hel2 with e | e
      · exact absurd e hnel
      · exact e
    · rw [List.length_take]; omega

/-- Claim C8: with `N ≥ 1`, after every complete iteration of a run an empty ROB means an
empty remaining trace and `total_instructions` equal to the trace length; the loop of
`main`, which tests only the ROB, exits after the first iteration that leaves the ROB
empty, and whenever it exits the ROB is empty, the trace is drained and
`total_instructions` is the trace length. -/
theorem rob_empty_implies_trace_drained (lines : List TraceLine) (N S : Nat) (hN : 1 ≤ N) :
    (∀ k, (cycles N S (k + 1) (Processor.init lines)).ROB = [] →
      (cycles N S (k + 1) (Processor.init lines)).new_instructions = [] ∧
      (cycles N S (k + 1) (Processor.init lines)).total_instructions = (lines.length : Int)) ∧
    (∀ k fuel, (cycles N S (k + 1) (Processor.init lines)).ROB = [] →
      (∀ j, j < k → (cycles N S (j + 1) (Processor.init lines)).ROB ≠ []) → k < fuel →
      main_loop N S fuel (Processor.init lines) =
        some (cycles N S (k + 1) (Processor.init lines))) ∧
    (∀ fuel final, main_loop N S fuel (Processor.init lines) = some final →
      final.ROB = [] ∧ final.new_instructions = [] ∧
      final.total_instructions = (lines.length : Int)) := by
  have key : ∀ k, (cycles N S (k + 1) (Processor.init lines)).ROB = [] →
      (cycles N S (k + 1) (Processor.init lines)).new_instructions = [] ∧
      (cycles N S (k + 1) (Processor.init lines)).total_instructions = (lines.length : Int) := by
    intro k hrob
    obtain ⟨D, a, f, D2, f2, ph⟩ := phases_of_run lines N S k
    obtain ⟨h5, _, _, _⟩ := ph.next
    have hrob2 : (cycle N S (cycles N S k (Processor.init lines))).ROB = [] := hrob
    have hlen := congrArg List.length hrob2
    rw [h5.rob, length_seg, List.length_nil] at hlen
    have h1 := h5.le_D
    have h2 := h5.D_le
    have h3 := h5.a_le
    have h4 := h5.f_le
    have hf2 := ph.hf2
    have hfn : f2 = lines.length := by omega
    constructor
    · show (cycle N S (cycles N S k (Processor.init lines))).new_instructions = []
      rw [h5.pend, seg_eq_nil (by omega)]
    · show (cycle N S (cycles N S k (Processor.init lines))).total_instructions = _
      rw [h5.htotal, hfn]
  refine ⟨key, ?_, ?_⟩
  · intro k fuel h1 h2 h3
    exact main_loop_exit N S k fuel _ h1 h2 h3
  · intro fuel final hfinal
    obtain ⟨k, _, e, hrob, _⟩ := main_loop_some N S fuel _ _ hfinal
    subst e
    exact ⟨hrob, key k hrob⟩

/-! ## Records a handler does not touch -/

theorem foldl_dispatch_one_mem_not_mem {q : Nat} : ∀ (l : List Nat) (t : Processor), q ∉ l →
    (l.foldl dispatch_one t).mem q = t.mem q
  | [], _, _ => rfl
  | p :: l, t, h => by
    have h1 : q ≠ p := fun e => h (e ▸ List.mem_cons_self _ _)
    have h2 : q ∉ l := fun e => h (List.mem_cons_of_mem _ e)
    rw [List.foldl_cons, foldl_dispatch_one_mem_not_mem l _ h2]
    exact setInstr_other _ _ h1

/-- The handler `dispatch` writes only to records of the dispatch queue. -/
theorem dispatch_mem_of_not_mem (N S : Nat) (s : Processor) {q : Nat}
    (hq : q ∉ s.dispatch_list) : (dispatch N S s).mem q = s.mem q := by
  have hsort : ∀ m, q ∉ sort_by_tag m
      (s.dispatch_list.filter (fun p => decide ((s.mem p).current_state = State.ID))) := by
    intro m e
    rw [mem_sort_by_tag] at e
    exact hq (List.mem_filter.mp e).1
  rw [dispatch_eq, dispatch_loop_eq]
  show forEach _ _ stamp_dispatch q = s.mem q
  rw [forEach_not_mem _ _ _ (fun e => hsort _ (List.mem_of_mem_drop e)),
    foldl_dispatch_one_mem_not_mem _ _ (fun e => hsort _ (List.mem_of_mem_take e))]
  show forEach s.mem _ dispatch_wait q = s.mem q
  rw [forEach_not_mem _ _ _ (fun e => hq (List.mem_filter.mp e).1)]

/-- The handler `fetch` writes only to records of the dispatch queue and of the trace. -/
theorem fetch_mem_of_not_mem (N : Nat) (s : Processor) {q : Nat}
    (hq : q ∉ s.dispatch_list) (hq2 : q ∉ s.new_instructions) :
    (fetch N s).mem q = s.mem q := by
  rw [fetch_eq]
  show forEach _ _ (promote s.current_cycle) q = s.mem q
  rw [forEach_not_mem _ _ _ (fun e => by
      rcases List.mem_append.mp e with e1 | e1
      · exact hq e1
      · exact hq2 (List.mem_of_mem_take e1)),
    forEach_not_mem _ _ _ (fun e => hq2 (List.mem_of_mem_take e))]

/-- The handler `issue` writes only to records of the scheduling queue. -/
theorem issue_mem_of_not_mem (N : Nat) (s : Processor) {q : Nat}
    (hq : q ∉ s.issue_list) : (issue N s).mem q = s.mem q := by
  have hsort : ∀ m, q ∉ sort_by_tag m
      (s.issue_list.filter (fun p => scan_test s (s.mem p) && issue_ready s (s.mem p))) := by
    intro m e
    rw [mem_sort_by_tag] at e
    exact hq (List.mem_filter.mp e).1
  rw [issue_eq]
  show forEach (forEach (forEach s.mem _ issue_stall) _ issue_instr) _ issue_stall q = s.mem q
  rw [forEach_not_mem _ _ _ (fun e => hsort _ (List.mem_of_mem_drop e)),
    forEach_not_mem _ _ _ (fun e => hsort _ (List.mem_of_mem_take e)),
    forEach_not_mem _ _ _ (fun e => hq (List.mem_filter.mp e).1)]

theorem retire_mem (s : Processor) : (retire s).mem = s.mem := by
  rw [retire_eq]

/-- The handler `execute` writes, the wake-up flags apart, only to records of the execute list. -/
theorem execute_mem_core (s : Processor) (hn : s.execute_list.Nodup) (q : Nat) :
    core ((execute s).mem q) =
      core (if q ∈ s.execute_list then execute_instr s.current_cycle (s.mem q)
        else s.mem q) :=
  execute_loop_mem s.execute_list s hn q

theorem execute_list_eq (s : Processor) (hn : s.execute_list.Nodup) :
    (execute s).execute_list =
      s.execute_list.filter (fun p => !completes s.current_cycle (s.mem p)) :=
  execute_loop_list s.execute_list s hn

theorem execute_issue_list (s : Processor) : (execute s).issue_list = s.issue_list :=
  (execute_loop_frame s.execute_list s).2.2.1

theorem retire_issue_list (s : Processor) : (retire s).issue_list = s.issue_list := by
  rw [retire_eq]

theorem retire_execute_list (s : Processor) : (retire s).execute_list = s.execute_list := by
  rw [retire_eq]

theorem retire_completed_tags (s : Processor) :
    (retire s).completed_tags = s.completed_tags := by
  rw [retire_eq]

/-! ## Progress of the head of the ROB -/

theorem latency_le (op : Int) : latency op ≤ 10 := by
  unfold latency
  split
  · omega
  · split
    · omega
    · split <;> omega

theorem latency_pos {op : Int} (h : op = 0 ∨ op = 1 ∨ op = 2) : 1 ≤ latency op := by
  unfold latency
  rcases h with h | h | h <;> subst h <;> simp

theorem rank_core (i : Instruction) : rank (core i) = rank i := rfl

theorem rank_le_of_state {i : Instruction} (h : i.current_state ≠ State.EX) : rank i ≤ 14 := by
  unfold rank
  cases hs : i.current_state with
  | IF => simp
  | ID => simp
  | IS => simp
  | EX => exact absurd hs h
  | WB => simp

theorem rank_okEX {c : Int} {i : Instruction} (h : okEX c i) : rank i ≤ 11 := by
  obtain ⟨h1, _, h3, h4, _⟩ := h
  have := latency_le i.op_type
  unfold rank
  rw [h1]
  show 1 + i.execute_cycles_left.toNat ≤ 11
  omega

theorem rank_execute_instr {c : Int} {i : Instruction} (h : okEX c i)
    (hl : 1 ≤ i.execute_cycles_left) : rank (execute_instr c i) < rank i := by
  obtain ⟨h1, _, h3, h4, _⟩ := h
  have hg : c ≥ i.execute_timing.start := by omega
  have hr : rank i = 1 + i.execute_cycles_left.toNat := by unfold rank; rw [h1]
  rw [hr]
  by_cases hz : i.execute_cycles_left - 1 = 0
  · simp only [execute_instr, hg, hz, if_true]
    show 1 < 1 + i.execute_cycles_left.toNat
    omega
  · simp only [execute_instr, hg, hz, if_true, if_false]
    have : rank (tick i) = 1 + (i.execute_cycles_left - 1).toNat := by
      unfold rank tick; simp only [h1]
    rw [this]
    omega

theorem head_rank_seg {s : Processor} {r f : Nat} (h : s.ROB = seg r f) (hrf : r < f) :
    head_rank s = rank (s.mem r) := by
  unfold head_rank
  rw [h, seg_cons hrf]

theorem head_rank_nil {s : Processor} (h : s.ROB = []) : head_rank s = 15 := by
  unfold head_rank
  rw [h]

theorem Inv.head_rank_le {lines : List TraceLine} {N S : Nat} {cE cI cu cs cF : Int}
    {D a f : Nat} {s : Processor} (h : Inv lines N S cE cI cu cs cF D a f s) :
    head_rank s ≤ 15 := by
  by_cases hrf : s.output.length < f
  · rw [head_rank_seg h.rob hrf]
    by_cases he : s.output.length ∈ s.execute_list
    · have := rank_okEX (h.hEL _ he); omega
    · have hn : s.output.length < lines.length := by have := h.f_le; omega
      have : (s.mem s.output.length).current_state ≠ State.EX := by
        rcases h.state_cases _ hn with e | e | e | e | e
        · rw [e.2]; decide
        · exact absurd e.1 he
        · rw [e.2.2.2]; decide
        · rw [e.2.2]; decide
        · rw [e.2]; decide
      have := rank_le_of_state this; omega
  · have : s.ROB = [] := by rw [h.rob, seg_eq_nil (by omega)]
    rw [head_rank_nil this]

theorem head_of_sorted {l : List Nat} {r : Nat} (hs : l.Pairwise (fun x y => x < y))
    (hr : r ∈ l) (hmin : ∀ p ∈ l, r ≤ p) : ∃ rest, l = r :: rest := by
  cases l with
  | nil => cases hr
  | cons x xs =>
    rcases List.mem_cons.mp hr with e | e
    · exact ⟨xs, by rw [e]⟩
    · have h1 := (List.pairwise_cons.mp hs).1 r e
      have h2 := hmin x (List.mem_cons_self _ _)
      omega

theorem rename_src_cases (rf : Int → Option Int) (reg : Int) :
    rename_src rf reg = -1 ∨ ∃ t, rf reg = some t ∧ rename_src rf reg = t := by
  unfold rename_src
  split
  · cases e : rf reg with
    | none => exact Or.inl rfl
    | some t => exact Or.inr ⟨t, rfl, rfl⟩
  · exact Or.inl rfl

/-- The sources of the oldest instruction in flight are ready. -/
theorem Inv.head_ready {lines : List TraceLine} {N S : Nat} {cE cI cu cs cF : Int}
    {D a f : Nat} {s : Processor} (h : Inv lines N S cE cI cu cs cF D a f s)
    (hr : s.output.length < D) : issue_ready s (s.mem s.output.length) = true := by
  have hDn : D ≤ lines.length := by have := h.D_le; have := h.a_le; have := h.f_le; omega
  rw [h.src_ready_iff hr]
  have key : ∀ reg, rename_src (last_writer lines s.output.length) reg = -1 ∨
      rename_src (last_writer lines s.output.length) reg ∈ s.completed_tags := by
    intro reg
    rcases rename_src_cases (last_writer lines s.output.length) reg with e | ⟨t, e1, e2⟩
    · exact Or.inl e
    · right
      rw [e2]
      obtain ⟨b1, b2⟩ := last_writer_bounds lines reg _ t e1
      have hq : t.toNat < s.output.length := by omega
      have hw := h.hWB t.toNat (by omega)
        (fun e => by have := (h.il_range _ e).1; omega)
        (fun e => by have := (h.el_range _ e).1; omega)
      have ht := h.tag_eq (p := t.toNat) (by omega)
      rw [ht] at hw
      have : ((t.toNat : Nat) : Int) = t := Int.toNat_of_nonneg b1
      rw [this] at hw
      exact hw.2
  obtain ⟨e1, e2⟩ := h.hsrc _ hr
  rw [e1, e2]
  exact ⟨key _, key _⟩

theorem retire_output_length {lines : List TraceLine} {N S : Nat} {cE cI cu cs cF : Int}
    {D a f : Nat} {s : Processor} (h : Inv lines N S cE cI cu cs cF D a f s) :
    ∃ r, (retire s).output.length = r ∧ s.output.length ≤ r ∧ r ≤ D ∧
      (r < f → retirable s r = false) ∧
      (r = s.output.length → (retire s).output = s.output) := by
  obtain ⟨r, h1, h2, h3, _, h5⟩ := retire_spec h
  refine ⟨r, ?_, h1, h2, h5, ?_⟩
  · rw [h3]
    show (s.output ++ (seg s.output.length r).map s.mem).length = r
    rw [List.length_append, List.length_map, length_seg]; omega
  · intro e
    rw [h3]
    show s.output ++ (seg s.output.length r).map s.mem = s.output
    rw [e, seg_eq_nil (le_refl _)]
    simp

/-- With `N ≥ 1`, `S ≥ 1` and operation types in {0, 1, 2}, every iteration that starts
with an instruction not yet retired makes progress: it retires an instruction, or the
oldest instruction in flight moves on. -/
theorem progress {lines : List TraceLine} {N S : Nat} (hN : 1 ≤ N) (hS : 1 ≤ S)
    (hops : ∀ l ∈ lines, l.op_type = 0 ∨ l.op_type = 1 ∨ l.op_type = 2)
    {s : Processor} (hb : Boundary lines N S s) (hr : s.output.length < lines.length) :
    work_left lines.length (cycle N S s) < work_left lines.length s := by
  obtain ⟨D, a, f, D2, f2, ph⟩ := phases_of_boundary hb
  obtain ⟨c, hc⟩ : ∃ c, c = s.current_cycle := ⟨_, rfl⟩
  rw [← hc] at ph
  obtain ⟨h5, _, hout, hrob⟩ := ph.next
  obtain ⟨r1, hr1, hr1a, hr1D, hstop, hsame⟩ := retire_output_length ph.h0
  have h0 := ph.h0
  have hDa := h0.D_le
  have haf := h0.a_le
  have hfn := h0.f_le
  have hD2a := ph.h4.D_le
  have hD2 := ph.hD2
  have hf2 := ph.hf2
  have hlen5 : (cycle N S s).output.length = r1 := by rw [hout, hr1]
  have hrank5 := h5.head_rank_le
  unfold work_left
  rw [hlen5]
  by_cases hpop : s.output.length < r1
  · omega
  have hr1e : r1 = s.output.length := by omega
  have hout1 : (retire s).output = s.output := hsame hr1e
  rw [hr1e]
  have hrob5 : (cycle N S s).ROB = seg s.output.length f2 := by
    have := h5.rob
    rwa [hlen5, hr1e] at this
  have hmem5 : (cycle N S s).mem = (handlers N S s).mem := rfl
  have hD2r : s.output.length ≤ D2 := by
    have := ph.h4.le_D
    rwa [ph.out4, hout1] at this
  suffices hsuff : head_rank (cycle N S s) < head_rank s by omega
  by_cases hrf : s.output.length < f
  · -- the ROB is not empty: its head is the pointer `s.output.length`
    have hf2' : f ≤ f2 := h5.a_le
    rw [head_rank_seg hrob5 (by omega), head_rank_seg h0.rob hrf, hmem5]
    have hnot := hstop (by omega)
    rw [hr1e] at hnot
    rcases h0.state_cases s.output.length hr with e | e | e | e | e
    · -- `IS`: the head is issued
      have hrD : s.output.length < D := (h0.il_range _ e.1).2
      have h2 := ph.h2
      have hout2 : (execute (retire s)).output.length = s.output.length := by
        rw [ph.out2, hout1]
      have hil2 : s.output.length ∈ (execute (retire s)).issue_list := by
        rw [execute_issue_list, retire_issue_list]; exact e.1
      have hready := h2.head_ready (by rw [hout2]; exact hrD)
      rw [hout2] at hready
      have h2' : Inv lines N S (c + 1) (execute (retire s)).current_cycle c c c D a f
          (execute (retire s)) := by rw [ph.c2]; exact h2
      obtain ⟨hiss, _⟩ := issue_spec_inv (N := N) h2'
      have hrl : s.output.length ∈ ready_list (execute (retire s)) :=
        List.mem_filter.mpr ⟨hil2, hready⟩
      have hsorted : (ready_list (execute (retire s))).Pairwise (fun x y => x < y) :=
        h2.il_sorted.sublist (List.filter_sublist _)
      obtain ⟨rest, hrest⟩ := head_of_sorted hsorted hrl (fun p hp => by
        have := (h2.il_range p (List.mem_filter.mp hp).1).1
        rwa [hout2] at this)
      obtain ⟨m, hm⟩ : ∃ m, N = m + 1 := ⟨N - 1, by omega⟩
      have hel3 : s.output.length ∈ (issue N (execute (retire s))).execute_list := by
        rw [hiss]
        show s.output.length ∈ (execute (retire s)).execute_list ++
          (ready_list (execute (retire s))).take N
        rw [hrest, hm, List.take_succ_cons]
        exact List.mem_append_right _ (List.mem_cons_self _ _)
      have hel5 : s.output.length ∈ (handlers N S s).execute_list := by
        rw [ph.el5, ph.el4]; exact hel3
      have := rank_okEX (ph.h5.hEL _ hel5)
      have hr0 : rank (s.mem s.output.length) = 12 := by unfold rank; rw [e.2]
      omega
    · -- `EX`: the countdown of the head advances
      have hrD : s.output.length < D := (h0.el_range _ e.1).2
      have hex := h0.hEL _ e.1
      have hop : 1 ≤ latency (s.mem s.output.length).op_type := by
        apply latency_pos
        rw [(h0.static _).2.1, trace_mem_op lines hr]
        exact hops _ (List.getElem_mem hr)
      have hl := hex.2.2.2.2 hop
      have hnil : s.output.length ∉ s.issue_list := by
        intro e2
        have := (h0.hIL _ e2).1
        rw [e.2] at this; cases this
      have m2 := execute_mem_core (retire s)
        (by rw [retire_execute_list]; exact h0.el_nodup) s.output.length
      rw [retire_execute_list, if_pos e.1, retire_mem, ph.c1] at m2
      have m3 : (issue N (execute (retire s))).mem s.output.length =
          (execute (retire s)).mem s.output.length :=
        issue_mem_of_not_mem N _ (by rw [execute_issue_list, retire_issue_list]; exact hnil)
      have m4 : (dispatch N S (issue N (execute (retire s)))).mem s.output.length =
          (issue N (execute (retire s))).mem s.output.length :=
        dispatch_mem_of_not_mem N S _ (by
          rw [ph.h3.dl, mem_seg]; omega)
      have m5 : (handlers N S s).mem s.output.length =
          (dispatch N S (issue N (execute (retire s)))).mem s.output.length :=
        fetch_mem_of_not_mem N _ (by rw [ph.h4.dl, mem_seg]; omega)
          (by rw [ph.h4.pend, mem_seg]; omega)
      rw [m5, m4, m3, ← rank_core, m2, rank_core]
      exact rank_execute_instr hex hl
    · -- `WB`: the head would have been retired
      exfalso
      have hw := (h0.hWB _ e.1 e.2.1 e.2.2.1).1
      obtain ⟨w1, ⟨_, _, w3⟩, w4⟩ := hw
      have : retirable s s.output.length = true := by
        unfold retirable
        rw [w1, w3, hc.symm]
        simp only [decide_True, Bool.true_and, decide_eq_true_eq]
        omega
      rw [this] at hnot; cases hnot
    · -- `ID`: the head is dispatched
      have hDr : D = s.output.length := by have := h0.le_D; omega
      have hil3 : (issue N (execute (retire s))).issue_list = [] := by
        apply List.eq_nil_iff_forall_not_mem.mpr
        intro p hp
        have := ph.h3.il_range p hp
        rw [ph.out3, hout1] at this
        omega
      rw [hil3, List.length_nil] at hD2
      have hil5 : s.output.length ∈ (handlers N S s).issue_list := by
        rw [ph.il5, ph.il4]
        apply List.mem_append_right
        rw [mem_seg]; omega
      have h1 := (ph.h5.hIL _ hil5).1
      have hr5 : rank ((handlers N S s).mem s.output.length) = 12 := by unfold rank; rw [h1]
      have hr0 : rank (s.mem s.output.length) = 13 := by unfold rank; rw [e.2.2]
      omega
    · -- `IF`: the head moves to `ID`
      have hDr : D = s.output.length := by have := h0.le_D; omega
      have hle : D2 ≤ s.output.length := by have := e.1; omega
      have h1 := (ph.h5.hA s.output.length hle hrf).1
      have hr5 : rank ((handlers N S s).mem s.output.length) = 13 := by unfold rank; rw [h1]
      have hr0 : rank (s.mem s.output.length) = 14 := by unfold rank; rw [e.2]
      omega
  · -- the ROB is empty: the next instruction of the trace is fetched
    have h0le := h0.le_D
    have hrob0 : s.ROB = [] := by rw [h0.rob, seg_eq_nil (by omega)]
    rw [head_rank_nil hrob0]
    have hf2r : s.output.length < f2 := by omega
    rw [head_rank_seg hrob5 hf2r, hmem5]
    have h1 := (ph.h5.hB s.output.length (by omega) hf2r).1
    have hr5 : rank ((handlers N S s).mem s.output.length) = 14 := by unfold rank; rw [h1]
    omega

/-! ## Termination of the loop of `main` -/

theorem Inv.output_le {lines : List TraceLine} {N S : Nat} {cE cI cu cs cF : Int}
    {D a f : Nat} {s : Processor} (h : Inv lines N S cE cI cu cs cF D a f s) :
    s.output.length ≤ lines.length := by
  have := h.le_D; have := h.D_le; have := h.a_le; have := h.f_le; omega

theorem output_length_cycle {lines : List TraceLine} {N S : Nat} {s : Processor}
    (hb : Boundary lines N S s) :
    s.output.length ≤ (retire s).output.length ∧
    (cycle N S s).output = (retire s).output := by
  obtain ⟨D, a, f, D2, f2, ph⟩ := phases_of_boundary hb
  obtain ⟨r1, hr1, hr1a, _, _, _⟩ := retire_output_length ph.h0
  exact ⟨by omega, ph.next.2.2.1⟩

theorem output_length_mono (lines : List TraceLine) (N S : Nat) (j : Nat) :
    ∀ d, (cycles N S j (Processor.init lines)).output.length ≤
      (cycles N S (j + d) (Processor.init lines)).output.length
  | 0 => le_refl _
  | d + 1 => by
    have h1 := output_length_mono lines N S j d
    have h2 := output_length_cycle (N := N) (S := S) (cycles_boundary lines N S (j + d))
    have e : (cycles N S (j + (d + 1)) (Processor.init lines)).output =
        (cycle N S (cycles N S (j + d) (Processor.init lines))).output := rfl
    rw [e, h2.2]
    omega

theorem all_retired {lines : List TraceLine} {N S : Nat} (hN : 1 ≤ N) (hS : 1 ≤ S)
    (hops : ∀ l ∈ lines, l.op_type = 0 ∨ l.op_type = 1 ∨ l.op_type = 2) :
    ∀ (m k : Nat), work_left lines.length (cycles N S k (Processor.init lines)) ≤ m →
      ∃ j, (cycles N S (k + j) (Processor.init lines)).output.length = lines.length
  | 0, k, hm => by
    obtain ⟨_, D, a, f, hinv⟩ := cycles_boundary lines N S k
    have hle := hinv.output_le
    by_cases hr : (cycles N S k (Processor.init lines)).output.length = lines.length
    · exact ⟨0, hr⟩
    · have hp := progress hN hS hops (cycles_boundary lines N S k) (by omega)
      omega
  | m + 1, k, hm => by
    obtain ⟨_, D, a, f, hinv⟩ := cycles_boundary lines N S k
    have hle := hinv.output_le
    by_cases hr : (cycles N S k (Processor.init lines)).output.length = lines.length
    · exact ⟨0, hr⟩
    · have hp := progress hN hS hops (cycles_boundary lines N S k) (by omega)
      obtain ⟨j, hj⟩ := all_retired hN hS hops m (k + 1) (by
        show work_left lines.length (cycle N S (cycles N S k (Processor.init lines))) ≤ m
        omega)
      have e : k + (j + 1) = k + 1 + j := by omega
      exact ⟨j + 1, by rw [e]; exact hj⟩

/-- With `N ≥ 1`, `S ≥ 1` and operation types in {0, 1, 2} the loop of `main` exits:
after the first iteration `K` that leaves the ROB empty. -/
theorem main_loop_terminates {lines : List TraceLine} {N S : Nat} (hN : 1 ≤ N) (hS : 1 ≤ S)
    (hops : ∀ l ∈ lines, l.op_type = 0 ∨ l.op_type = 1 ∨ l.op_type = 2) :
    ∃ K, (cycles N S (K + 1) (Processor.init lines)).ROB = [] ∧
      (∀ j, j < K → (cycles N S (j + 1) (Processor.init lines)).ROB ≠ []) ∧
      ∀ fuel, K < fuel →
        main_loop N S fuel (Processor.init lines) =
          some (cycles N S (K + 1) (Processor.init lines)) := by
  have hex : ∃ K, (cycles N S (K + 1) (Processor.init lines)).ROB = [] := by
    obtain ⟨j, hj⟩ := all_retired hN hS hops _ 0 (le_refl _)
    rw [Nat.zero_add] at hj
    refine ⟨j, ?_⟩
    obtain ⟨_, D, a, f, hinv⟩ := cycles_boundary lines N S (j + 1)
    have h1 := output_length_mono lines N S j 1
    have h2 := hinv.output_le
    have h3 := hinv.f_le
    rw [hinv.rob, seg_eq_nil (by omega)]
  classical
  refine ⟨Nat.find hex, Nat.find_spec hex, ?_, ?_⟩
  · intro j hj
    exact Nat.find_min hex hj
  · intro fuel hfuel
    exact main_loop_exit N S _ fuel _ (Nat.find_spec hex) (fun j hj => Nat.find_min hex hj) hfuel

/-- Claim C9: on a non-empty trace with operation types in {0, 1, 2}, with `N ≥ 1` and
`S ≥ 1`, the loop of `main` exits, and the number of cycles `print_results` reports
(`current_cycle - 1`) is the value of the cycle counter in the iteration whose `retire`
removed the last instruction from the ROB: there is exactly one iteration `k` in which
`retire` brings the number of printed instructions to the trace length, and the
reported number is the counter of that iteration. -/
theorem reported_cycles_is_last_retire_cycle (lines : List TraceLine) (N S : Nat)
    (hne : lines ≠ []) (hops : ∀ l ∈ lines, l.op_type = 0 ∨ l.op_type = 1 ∨ l.op_type = 2)
    (hN : 1 ≤ N) (hS : 1 ≤ S) :
    ∃ fuel final, main_loop N S fuel (Processor.init lines) = some final ∧
      (∃ k, (cycles N S k (Processor.init lines)).output.length < lines.length ∧
        (retire (cycles N S k (Processor.init lines))).output.length = lines.length) ∧
      ∀ k, (cycles N S k (Processor.init lines)).output.length < lines.length →
        (retire (cycles N S k (Processor.init lines))).output.length = lines.length →
        (print_results final).number_of_cycles =
          (cycles N S k (Processor.init lines)).current_cycle := by
  obtain ⟨K, hrob, hmin, hloop⟩ := main_loop_terminates (N := N) (S := S) hN hS hops
  have hlen0 : 0 < lines.length := List.length_pos.mpr hne
  -- the iteration `K` retires the last instruction
  have hafter : (retire (cycles N S K (Processor.init lines))).output.length = lines.length := by
    obtain ⟨D, a, f, D2, f2, ph⟩ := phases_of_run lines N S K
    obtain ⟨h5, _, hout, _⟩ := ph.next
    have hrob2 : (cycle N S (cycles N S K (Processor.init lines))).ROB = [] := hrob
    have hl := congrArg List.length hrob2
    rw [h5.rob, length_seg, List.length_nil] at hl
    have h1 := h5.le_D
    have h2 := h5.D_le
    have h3 := h5.a_le
    have h4 := h5.f_le
    have hf2 := ph.hf2
    rw [← hout]
    omega
  have hbefore : (cycles N S K (Processor.init lines)).output.length < lines.length := by
    match K, hmin with
    | 0, _ => exact hlen0
    | K + 1, hmin =>
      obtain ⟨_, D, a, f, hinv⟩ := cycles_boundary lines N S (K + 1)
      have hne2 := hmin K (Nat.lt_succ_self K)
      have h1 := hinv.f_le
      by_contra hc
      exact hne2 (by rw [hinv.rob, seg_eq_nil (by omega)])
  have hnext : (cycles N S (K + 1) (Processor.init lines)).output.length = lines.length := by
    have := (output_length_cycle (N := N) (S := S) (cycles_boundary lines N S K)).2
    have e : (cycles N S (K + 1) (Processor.init lines)).output =
        (cycle N S (cycles N S K (Processor.init lines))).output := rfl
    rw [e, this, hafter]
  refine ⟨K + 1, _, hloop (K + 1) (Nat.lt_succ_self K), ⟨K, hbefore, hafter⟩, ?_⟩
  intro k hk1 hk2
  have hkK : k = K := by
    rcases Nat.lt_trichotomy k K with hlt | heq | hgt
    · exfalso
      have hk3 : (cycles N S (k + 1) (Processor.init lines)).output.length = lines.length := by
        have := (output_length_cycle (N := N) (S := S) (cycles_boundary lines N S k)).2
        have e : (cycles N S (k + 1) (Processor.init lines)).output =
            (cycle N S (cycles N S k (Processor.init lines))).output := rfl
        rw [e, this, hk2]
      have := output_length_mono lines N S (k + 1) (K - (k + 1))
      rw [show k + 1 + (K - (k + 1)) = K by omega] at this
      omega
    · exact heq
    · exfalso
      have := output_length_mono lines N S (K + 1) (k - (K + 1))
      rw [show K + 1 + (k - (K + 1)) = k by omega] at this
      omega
  subst hkK
  show (cycles N S (k + 1) (Processor.init lines)).current_cycle - 1 = _
  rw [cycles_current_cycle, cycles_current_cycle]
  push_cast
  omega

/-! ## Concrete runs -/

theorem print_results_ipc (s : Processor) :
    (print_results s).ipc =
      ((print_results s).number_of_instructions : ℚ) /
        (((print_results s).number_of_cycles : ℚ) + 1) := by
  simp [print_results]

/-- Claim C1, witness: the chain of three dependent instructions with `N = 1`, `S = 4`,
in the state in which the fifth iteration calls `issue`. -/
theorem issue_ready_iff_sources_completed_witness :
    2 ≤ 2 ∧
    (∀ p ∈ (after_handlers 1 4 2 (cycles 1 4 4 (Processor.init raw_chain))).issue_list,
      (p ∈ ready_instructions (after_handlers 1 4 2 (cycles 1 4 4 (Processor.init raw_chain))) ↔
        ((((after_handlers 1 4 2 (cycles 1 4 4 (Processor.init raw_chain))).mem p).src1_tag = -1 ∨
          ((after_handlers 1 4 2 (cycles 1 4 4 (Processor.init raw_chain))).mem p).src1_tag ∈
            (after_handlers 1 4 2 (cycles 1 4 4 (Processor.init raw_chain))).completed_tags) ∧
         (((after_handlers 1 4 2 (cycles 1 4 4 (Processor.init raw_chain))).mem p).src2_tag = -1 ∨
          ((after_handlers 1 4 2 (cycles 1 4 4 (Processor.init raw_chain))).mem p).src2_tag ∈
            (after_handlers 1 4 2 (cycles 1 4 4 (Processor.init raw_chain))).completed_tags)))) ∧
    (∀ p, p < raw_chain.length →
      ((after_handlers 1 4 2 (cycles 1 4 4 (Processor.init raw_chain))).mem p).current_state =
        State.IS →
      ((issue 1 (after_handlers 1 4 2 (cycles 1 4 4 (Processor.init raw_chain)))).mem p).current_state =
        State.EX →
      ((((after_handlers 1 4 2 (cycles 1 4 4 (Processor.init raw_chain))).mem p).src1_tag = -1 ∨
          ((after_handlers 1 4 2 (cycles 1 4 4 (Processor.init raw_chain))).mem p).src1_tag ∈
            (after_handlers 1 4 2 (cycles 1 4 4 (Processor.init raw_chain))).completed_tags) ∧
         (((after_handlers 1 4 2 (cycles 1 4 4 (Processor.init raw_chain))).mem p).src2_tag = -1 ∨
          ((after_handlers 1 4 2 (cycles 1 4 4 (Processor.init raw_chain))).mem p).src2_tag ∈
            (after_handlers 1 4 2 (cycles 1 4 4 (Processor.init raw_chain))).completed_tags))) :=
  ⟨by decide, issue_ready_iff_sources_completed raw_chain 1 4 4 2 (by decide)⟩

/-- Claim C3, witness: the record printed for the single-instruction trace
`1000 0 1 2 3` with `N = 1`, `S = 1`. -/
theorem retired_record_timing_witness :
    (∀ l ∈ scenario_A, l.op_type = 0 ∨ l.op_type = 1 ∨ l.op_type = 2) ∧
    record_A ∈ (cycles 1 1 6 (Processor.init scenario_A)).output ∧
    (record_A.fetch_timing.duration ≥ 1 ∧ record_A.dispatch_timing.duration ≥ 1 ∧
    record_A.issue_timing.duration ≥ 1 ∧
    ((record_A.op_type = 0 ∧ record_A.execute_timing.duration = 1) ∨
      (record_A.op_type = 1 ∧ record_A.execute_timing.duration = 2) ∨
      (record_A.op_type = 2 ∧ record_A.execute_timing.duration = 10)) ∧
    record_A.writeback_timing.duration = 1 ∧
    record_A.fetch_timing.start + record_A.fetch_timing.duration =
      record_A.dispatch_timing.start ∧
    record_A.dispatch_timing.start + record_A.dispatch_timing.duration =
      record_A.issue_timing.start ∧
    record_A.issue_timing.start + record_A.issue_timing.duration =
      record_A.execute_timing.start ∧
    record_A.execute_timing.start + record_A.execute_timing.duration =
      record_A.writeback_timing.start) :=
  ⟨by decide, by decide,
    retired_record_timing scenario_A 1 1 (by decide) 6 record_A (by decide)⟩

/-- Claim C5 (the code breaks it): with `N = 1`, `S = 1` and a trace of two independent
instructions of operation type 2, the execute list holds two entries after five
iterations.  The loop of `issue` tests only `issued >= N`, not the size of the execute
list. -/
theorem execute_list_exceeds_width :
    (cycles 1 1 5 (Processor.init two_long)).execute_list = [0, 1] ∧
    ¬ (cycles 1 1 5 (Processor.init two_long)).execute_list.length ≤ 1 := by
  decide

/-- Claim C7 (the code breaks it): with `N = 1`, `S = 1` and a trace of an instruction
of operation type 1 followed by an independent one of operation type 0, both records
move from `EX` to `WB` in the call of `execute` of the sixth iteration (cycle 5). -/
theorem completions_exceed_width :
    transitions long_short.length State.EX State.WB
      (retire (cycles 1 1 5 (Processor.init long_short)))
      (execute (retire (cycles 1 1 5 (Processor.init long_short)))) = 2 ∧
    ¬ transitions long_short.length State.EX State.WB
      (retire (cycles 1 1 5 (Processor.init long_short)))
      (execute (retire (cycles 1 1 5 (Processor.init long_short)))) ≤ 1 := by
  decide

/-- Claim C8, witness: the single-instruction trace with `N = 1`, `S = 1`; the ROB is
empty after the sixth iteration and not before, and there the loop exits. -/
theorem rob_empty_implies_trace_drained_witness :
    1 ≤ 1 ∧ (cycles 1 1 (5 + 1) (Processor.init scenario_A)).ROB = [] ∧
    (∀ j, j < 5 → (cycles 1 1 (j + 1) (Processor.init scenario_A)).ROB ≠ []) ∧ 5 < 7 ∧
    ((cycles 1 1 (5 + 1) (Processor.init scenario_A)).new_instructions = [] ∧
      (cycles 1 1 (5 + 1) (Processor.init scenario_A)).total_instructions =
        (scenario_A.length : Int)) ∧
    main_loop 1 1 7 (Processor.init scenario_A) =
      some (cycles 1 1 (5 + 1) (Processor.init scenario_A)) ∧
    ((cycles 1 1 (5 + 1) (Processor.init scenario_A)).ROB = [] ∧
      (cycles 1 1 (5 + 1) (Processor.init scenario_A)).new_instructions = [] ∧
      (cycles 1 1 (5 + 1) (Processor.init scenario_A)).total_instructions =
        (scenario_A.length : Int)) :=
  ⟨by decide, by decide, by decide, by decide,
    (rob_empty_implies_trace_drained scenario_A 1 1 (by decide)).1 5 (by decide),
    (rob_empty_implies_trace_drained scenario_A 1 1 (by decide)).2.1 5 7 (by decide)
      (by decide) (by decide),
    (rob_empty_implies_trace_drained scenario_A 1 1 (by decide)).2.2 7 _ (by rfl)⟩

/-- Claim C9, witness: the single-instruction trace with `N = 1`, `S = 1`. -/
theorem reported_cycles_is_last_retire_cycle_witness :
    scenario_A ≠ [] ∧
    (∀ l ∈ scenario_A, l.op_type = 0 ∨ l.op_type = 1 ∨ l.op_type = 2) ∧ 1 ≤ 1 ∧ 1 ≤ 1 ∧
    ∃ fuel final, main_loop 1 1 fuel (Processor.init scenario_A) = some final ∧
      (∃ k, (cycles 1 1 k (Processor.init scenario_A)).output.length < scenario_A.length ∧
        (retire (cycles 1 1 k (Processor.init scenario_A))).output.length =
          scenario_A.length) ∧
      ∀ k, (cycles 1 1 k (Processor.init scenario_A)).output.length < scenario_A.length →
        (retire (cycles 1 1 k (Processor.init scenario_A))).output.length =
          scenario_A.length →
        (print_results final).number_of_cycles =
          (cycles 1 1 k (Processor.init scenario_A)).current_cycle :=
  ⟨by decide, by decide, by decide, by decide,
    reported_cycles_is_last_retire_cycle scenario_A 1 1 (by decide) (by decide) (by decide)
      (by decide)⟩

/-- Claim C10 (the code breaks it): on the single-instruction trace with `N = 1`,
`S = 1` the loop exits with `current_cycle = 6`; `print_results` reports 1 instruction
and 5 cycles, and the IPC it reports is `1 / 6`, not `1 / 5`: the quotient divides by
`current_cycle`, the printed number of cycles is `current_cycle - 1`. -/
theorem ipc_divisor_is_not_reported_cycles :
    main_loop 1 1 7 (Processor.init scenario_A) =
      some (cycles 1 1 6 (Processor.init scenario_A)) ∧
    (print_results (cycles 1 1 6 (Processor.init scenario_A))).number_of_instructions = 1 ∧
    (print_results (cycles 1 1 6 (Processor.init scenario_A))).number_of_cycles = 5 ∧
    (print_results (cycles 1 1 6 (Processor.init scenario_A))).ipc = 1 / 6 ∧
    (print_results (cycles 1 1 6 (Processor.init scenario_A))).ipc ≠ 1 / 5 := by
  have h1 : (cycles 1 1 6 (Processor.init scenario_A)).total_instructions = 1 := by decide
  have h2 : (cycles 1 1 6 (Processor.init scenario_A)).current_cycle = 6 := by decide
  have h3 : (print_results (cycles 1 1 6 (Processor.init scenario_A))).ipc = 1 / 6 := by
    show ((cycles 1 1 6 (Processor.init scenario_A)).total_instructions : ℚ) /
      ((cycles 1 1 6 (Processor.init scenario_A)).current_cycle : ℚ) = 1 / 6
    rw [h1, h2]
    norm_num
  refine ⟨by rfl, by decide, by decide, h3, ?_⟩
  rw [h3]
  norm_num

/-! ## The lists and the ROB -/

theorem Inv.lists_subset {lines : List TraceLine} {N S : Nat} {cE cI cu cs cF : Int}
    {D a f : Nat} {s : Processor} (h : Inv lines N S cE cI cu cs cF D a f s) :
    (∀ p ∈ s.dispatch_list, p ∈ s.ROB) ∧ (∀ p ∈ s.issue_list, p ∈ s.ROB) ∧
      (∀ p ∈ s.execute_list, p ∈ s.ROB) := by
  have h1 := h.le_D
  have h2 := h.D_le
  have h3 := h.a_le
  refine ⟨fun p hp => ?_, fun p hp => ?_, fun p hp => ?_⟩
  · rw [h.dl, mem_seg] at hp
    rw [h.rob, mem_seg]; omega
  · have := h.il_range p hp
    rw [h.rob, mem_seg]; omega
  · have := h.el_range p hp
    rw [h.rob, mem_seg]; omega

theorem after_handlers_inv (lines : List TraceLine) (N S k j : Nat) :
    ∃ cE cI cu cs cF D a f,
      Inv lines N S cE cI cu cs cF D a f (after_handlers N S j (cycles N S k (Processor.init lines))) := by
  obtain ⟨D, a, f, D2, f2, ph⟩ := phases_of_run lines N S k
  match j with
  | 0 => exact ⟨_, _, _, _, _, _, _, _, ph.h0⟩
  | 1 => exact ⟨_, _, _, _, _, _, _, _, ph.h1⟩
  | 2 => exact ⟨_, _, _, _, _, _, _, _, ph.h2⟩
  | 3 => exact ⟨_, _, _, _, _, _, _, _, ph.h3⟩
  | 4 => exact ⟨_, _, _, _, _, _, _, _, ph.h4⟩
  | j + 5 => exact ⟨_, _, _, _, _, _, _, _, ph.h5⟩

/-- Claim C17: at each of the six points of every iteration of a run (before `retire`
and after each of the five handlers), every pointer held in the dispatch queue, in the
scheduling queue or in the execute list is in the ROB; hence a pointer that `retire`
pops from the ROB (and frees) is in none of the three lists. -/
theorem lists_within_rob (lines : List TraceLine) (N S k j : Nat) :
    ((∀ p ∈ (after_handlers N S j (cycles N S k (Processor.init lines))).dispatch_list,
        p ∈ (after_handlers N S j (cycles N S k (Processor.init lines))).ROB) ∧
      (∀ p ∈ (after_handlers N S j (cycles N S k (Processor.init lines))).issue_list,
        p ∈ (after_handlers N S j (cycles N S k (Processor.init lines))).ROB) ∧
      (∀ p ∈ (after_handlers N S j (cycles N S k (Processor.init lines))).execute_list,
        p ∈ (after_handlers N S j (cycles N S k (Processor.init lines))).ROB)) ∧
    ∀ p ∈ (cycles N S k (Processor.init lines)).ROB,
      p ∉ (retire (cycles N S k (Processor.init lines))).ROB →
      p ∉ (retire (cycles N S k (Processor.init lines))).dispatch_list ∧
      p ∉ (retire (cycles N S k (Processor.init lines))).issue_list ∧
      p ∉ (retire (cycles N S k (Processor.init lines))).execute_list := by
  constructor
  · obtain ⟨cE, cI, cu, cs, cF, D, a, f, h⟩ := after_handlers_inv lines N S k j
    exact h.lists_subset
  · intro p _ hp
    obtain ⟨D, a, f, D2, f2, ph⟩ := phases_of_run lines N S k
    obtain ⟨h1, h2, h3⟩ := ph.h1.lists_subset
    exact ⟨fun e => hp (h1 p e), fun e => hp (h2 p e), fun e => hp (h3 p e)⟩

/-! ## The state in which the loop of `main` exits -/

theorem exit_state {lines : List TraceLine} {N S : Nat} (hN : 1 ≤ N) (k : Nat)
    (hrob : (cycles N S (k + 1) (Processor.init lines)).ROB = []) :
    (cycles N S (k + 1) (Processor.init lines)).new_instructions = [] ∧
    (cycles N S (k + 1) (Processor.init lines)).output.length = lines.length ∧
    (cycles N S (k + 1) (Processor.init lines)).output.map (fun i => i.tag) =
      (List.range lines.length).map (fun (p : Nat) => (p : Int)) := by
  obtain ⟨D, a, f, D2, f2, ph⟩ := phases_of_run lines N S k
  obtain ⟨h5, _, _, _⟩ := ph.next
  have hrob2 : (cycle N S (cycles N S k (Processor.init lines))).ROB = [] := hrob
  have hlen := congrArg List.length hrob2
  rw [h5.rob, length_seg, List.length_nil] at hlen
  have h1 := h5.le_D
  have h2 := h5.D_le
  have h3 := h5.a_le
  have h4 := h5.f_le
  have hf2 := ph.hf2
  have hfn : f2 = lines.length := by omega
  have hout : (cycle N S (cycles N S k (Processor.init lines))).output.length = lines.length := by
    omega
  refine ⟨?_, hout, ?_⟩
  · show (cycle N S (cycles N S k (Processor.init lines))).new_instructions = []
    rw [h5.pend, seg_eq_nil (by omega)]
  · show (cycle N S (cycles N S k (Processor.init lines))).output.map (fun i => i.tag) = _
    rw [h5.output_tags, hout]

/-- Claim C18: on every trace with operation types in {0, 1, 2} (`read_trace` gives the
records the tags `0 .. n-1`), with `N ≥ 1` and `S ≥ 1`, the loop of `main` exits: there is
a number `K + 1` of iterations after which the loop has returned (with any bound on the
iterations above `K`), the ROB is empty, the trace is exhausted, and the printed records
carry the tags `0, 1, ..., n-1`, each once. -/
theorem driver_loop_terminates (lines : List TraceLine) (N S : Nat)
    (hops : ∀ l ∈ lines, l.op_type = 0 ∨ l.op_type = 1 ∨ l.op_type = 2)
    (hN : 1 ≤ N) (hS : 1 ≤ S) :
    ∃ K, (∀ fuel, K < fuel →
        main_loop N S fuel (Processor.init lines) =
          some (cycles N S (K + 1) (Processor.init lines))) ∧
      (cycles N S (K + 1) (Processor.init lines)).ROB = [] ∧
      (cycles N S (K + 1) (Processor.init lines)).new_instructions = [] ∧
      (cycles N S (K + 1) (Processor.init lines)).output.map (fun i => i.tag) =
        (List.range lines.length).map (fun (p : Nat) => (p : Int)) := by
  obtain ⟨K, hrob, _, hloop⟩ := main_loop_terminates (N := N) (S := S) hN hS hops
  obtain ⟨h1, _, h3⟩ := exit_state hN K hrob
  exact ⟨K, hloop, hrob, h1, h3⟩

/-! ## The register file and the last writer of a register -/

theorem last_writer_none (lines : List TraceLine) (r : Int) :
    ∀ d : Nat, (∀ q, q < d → (trace_mem lines q).dest_reg ≠ r) → last_writer lines d r = none
  | 0, _ => rfl
  | d + 1, h => by
    rw [last_writer, if_neg (fun e => h d (Nat.lt_succ_self d) e.2.symm)]
    exact last_writer_none lines r d (fun q hq => h q (Nat.lt_succ_of_lt hq))

theorem last_writer_some (lines : List TraceLine) (r : Int) (hr : r ≠ -1) (q : Nat)
    (hq : (trace_mem lines q).dest_reg = r) :
    ∀ d : Nat, q < d → (∀ q2, q < q2 → q2 < d → (trace_mem lines q2).dest_reg ≠ r) →
      last_writer lines d r = some (q : Int)
  | 0, h, _ => absurd h (Nat.not_lt_zero q)
  | d + 1, h, h2 => by
    rw [last_writer]
    by_cases e : q = d
    · subst e
      rw [if_pos ⟨by rw [hq]; exact hr, hq.symm⟩]
    · have hlt : q < d := by omega
      rw [if_neg (fun c => h2 d hlt (Nat.lt_succ_self d) c.2.symm)]
      exact last_writer_some lines r hr q hq d hlt (fun q2 h3 h4 => h2 q2 h3 (Nat.lt_succ_of_lt h4))

/-- The tag renaming gives a source register other than `-1`: `-1` when no earlier
instruction writes the register, the tag of the last earlier writer otherwise. -/
theorem rename_src_last_writer (lines : List TraceLine) (p : Nat) (r : Int) (hr : r ≠ -1) :
    rename_src (last_writer lines p) r < (p : Int) ∧
    ((rename_src (last_writer lines p) r = -1 ∧
        ∀ q, q < p → (trace_mem lines q).dest_reg ≠ r) ∨
      ∃ q, q < p ∧ rename_src (last_writer lines p) r = (q : Int) ∧
        (trace_mem lines q).dest_reg = r ∧
        ∀ q2, q < q2 → q2 < p → (trace_mem lines q2).dest_reg ≠ r) := by
  by_cases hex : ∃ q, q < p ∧ (trace_mem lines q).dest_reg = r
  · -- the last writer below `p`
    have hex2 : ∃ m, m < p ∧ (trace_mem lines (p - 1 - m)).dest_reg = r := by
      obtain ⟨q, hq, hd⟩ := hex
      exact ⟨p - 1 - q, by omega, by rw [show p - 1 - (p - 1 - q) = q by omega]; exact hd⟩
    have hspec := Nat.find_spec hex2
    have hmin := fun m => Nat.find_min hex2 (m := m)
    obtain ⟨q, hqdef⟩ : ∃ q, q = p - 1 - Nat.find hex2 := ⟨_, rfl⟩
    rw [← hqdef] at hspec
    have hqp : q < p := by omega
    have hlast : ∀ q2, q < q2 → q2 < p → (trace_mem lines q2).dest_reg ≠ r := by
      intro q2 h1 h2 e
      apply hmin (p - 1 - q2) (by omega)
      exact ⟨by omega, by rw [show p - 1 - (p - 1 - q2) = q2 by omega]; exact e⟩
    have hlw := last_writer_some lines r hr q hspec.2 p hqp hlast
    have hrn : rename_src (last_writer lines p) r = (q : Int) := by
      unfold rename_src
      rw [if_pos hr, hlw]
    refine ⟨by rw [hrn]; exact_mod_cast hqp, Or.inr ⟨q, hqp, hrn, hspec.2, hlast⟩⟩
  · have hno : ∀ q, q < p → (trace_mem lines q).dest_reg ≠ r := fun q hq e => hex ⟨q, hq, e⟩
    have hlw := last_writer_none lines r p hno
    have hrn : rename_src (last_writer lines p) r = -1 := by
      unfold rename_src
      rw [if_pos hr, hlw]
    refine ⟨by rw [hrn]; omega, Or.inl ⟨hrn, hno⟩⟩

/-- Claim C20: for every record that is in `IS` when `dispatch` returns in iteration `k`
(the records this call has renamed, and those an earlier call renamed and `issue` has not
selected yet), each captured source tag is strictly smaller than the tag of the
instruction, and for a source register other than `-1` it is `-1` when no earlier
instruction of the trace writes the register, and the largest tag below `p` among the
instructions that write it otherwise (also when the instruction writes that register
itself).  No bound on `N` and `S` is needed. -/
theorem renamed_to_last_writer (lines : List TraceLine) (N S k p : Nat)
    (hp : p < lines.length)
    (hIS : ((dispatch N S (issue N (execute (retire (cycles N S k (Processor.init lines)))))).mem
      p).current_state = State.IS) :
    (((dispatch N S (issue N (execute (retire (cycles N S k (Processor.init lines)))))).mem
        p).src1_tag <
      ((dispatch N S (issue N (execute (retire (cycles N S k (Processor.init lines)))))).mem
        p).tag ∧
      (((dispatch N S (issue N (execute (retire (cycles N S k (Processor.init lines)))))).mem
          p).src1_reg = -1 ∨
        (((dispatch N S (issue N (execute (retire (cycles N S k (Processor.init lines)))))).mem
            p).src1_tag = -1 ∧
          ∀ q, q < p → (trace_mem lines q).dest_reg ≠
            ((dispatch N S (issue N (execute (retire (cycles N S k (Processor.init lines)))))).mem
              p).src1_reg) ∨
        ∃ q, q < p ∧
          ((dispatch N S (issue N (execute (retire (cycles N S k (Processor.init lines)))))).mem
            p).src1_tag = (q : Int) ∧
          (trace_mem lines q).dest_reg =
            ((dispatch N S (issue N (execute (retire (cycles N S k (Processor.init lines)))))).mem
              p).src1_reg ∧
          ∀ q2, q < q2 → q2 < p → (trace_mem lines q2).dest_reg ≠
            ((dispatch N S (issue N (execute (retire (cycles N S k (Processor.init lines)))))).mem
              p).src1_reg)) ∧
    (((dispatch N S (issue N (execute (retire (cycles N S k (Processor.init lines)))))).mem
        p).src2_tag <
      ((dispatch N S (issue N (execute (retire (cycles N S k (Processor.init lines)))))).mem
        p).tag ∧
      (((dispatch N S (issue N (execute (retire (cycles N S k (Processor.init lines)))))).mem
          p).src2_reg = -1 ∨
        (((dispatch N S (issue N (execute (retire (cycles N S k (Processor.init lines)))))).mem
            p).src2_tag = -1 ∧
          ∀ q, q < p → (trace_mem lines q).dest_reg ≠
            ((dispatch N S (issue N (execute (retire (cycles N S k (Processor.init lines)))))).mem
              p).src2_reg) ∨
        ∃ q, q < p ∧
          ((dispatch N S (issue N (execute (retire (cycles N S k (Processor.init lines)))))).mem
            p).src2_tag = (q : Int) ∧
          (trace_mem lines q).dest_reg =
            ((dispatch N S (issue N (execute (retire (cycles N S k (Processor.init lines)))))).mem
              p).src2_reg ∧
          ∀ q2, q < q2 → q2 < p → (trace_mem lines q2).dest_reg ≠
            ((dispatch N S (issue N (execute (retire (cycles N S k (Processor.init lines)))))).mem
              p).src2_reg)) := by
  obtain ⟨D, a, f, D2, f2, ph⟩ := phases_of_run lines N S k
  obtain ⟨m, hm⟩ : ∃ m, m =
      (dispatch N S (issue N (execute (retire (cycles N S k (Processor.init lines)))))).mem p :=
    ⟨_, rfl⟩
  rw [← hm] at hIS ⊢
  have hpD : p < D2 := by
    rcases ph.h4.state_cases p hp with h | h | h | h | h
    · exact (ph.h4.il_range p h.1).2
    · exact (ph.h4.el_range p h.1).2
    · exact h.1
    · rw [← hm, hIS] at h; cases h.2.2
    · rw [← hm, hIS] at h; cases h.2
  have hsrc := ph.h4.hsrc p hpD
  rw [← hm] at hsrc
  have htag : m.tag = (p : Int) := by rw [hm]; exact ph.h4.tag_eq hp
  have hneg : rename_src (last_writer lines p) (-1) = -1 := by simp [rename_src]
  have key : ∀ (t r : Int), t = rename_src (last_writer lines p) r →
      t < m.tag ∧ (r = -1 ∨ (t = -1 ∧ ∀ q, q < p → (trace_mem lines q).dest_reg ≠ r) ∨
        ∃ q, q < p ∧ t = (q : Int) ∧ (trace_mem lines q).dest_reg = r ∧
          ∀ q2, q < q2 → q2 < p → (trace_mem lines q2).dest_reg ≠ r) := by
    intro t r ht
    by_cases hr : r = -1
    · subst hr
      rw [hneg] at ht
      refine ⟨?_, Or.inl rfl⟩
      rw [ht, htag]; omega
    · obtain ⟨h1, h2⟩ := rename_src_last_writer lines p r hr
      rw [← ht] at h1 h2
      exact ⟨by rw [htag]; exact h1, Or.inr h2⟩
  exact ⟨key _ _ hsrc.1, key _ _ hsrc.2⟩

/-! ## The records `dispatch` admits -/

theorem foldl_dispatch_one_mem_mem {q : Nat} : ∀ (l : List Nat) (t : Processor), l.Nodup →
    q ∈ l → ∃ rf, (l.foldl dispatch_one t).mem q = dispatch_instr rf (t.mem q)
  | [], _, _, h => absurd h (List.not_mem_nil q)
  | p :: l, t, hn, h => by
    have hn1 := List.nodup_cons.mp hn
    rw [List.foldl_cons]
    by_cases e : q = p
    · subst e
      rw [foldl_dispatch_one_mem_not_mem l _ hn1.1]
      exact ⟨t.register_file, setInstr_same _ _ _⟩
    · have hq : q ∈ l := by
        rcases List.mem_cons.mp h with h1 | h1
        · exact absurd h1 e
        · exact h1
      obtain ⟨rf, hrf⟩ := foldl_dispatch_one_mem_mem l (dispatch_one t p) hn1.2 hq
      refine ⟨rf, ?_⟩
      rw [hrf]
      show dispatch_instr rf (setInstr t.mem p _ q) = _
      rw [setInstr_other _ _ e]

theorem dispatch_instr_duration (rf : Int → Option Int) (i : Instruction) :
    (dispatch_instr rf i).issue_timing.duration = 1 := rfl

/-- A record that `dispatch` admits to the scheduling queue leaves the handler with
`IS` duration 1. -/
theorem dispatch_admitted {lines : List TraceLine} {N S : Nat} {cE c cF : Int} {D a f : Nat}
    {s : Processor} (h : Inv lines N S cE (c + 1) c c cF D a f s) (q : Nat) (hq1 : D ≤ q)
    (hq2 : q < min (D + min N (S - s.issue_list.length)) a) :
    ((dispatch N S s).mem q).issue_timing.duration = 1 := by
  have hDa := h.D_le
  have haf := h.a_le
  have hfn := h.f_le
  obtain ⟨m1, hm1⟩ : ∃ m1 : Mem, m1 = forEach s.mem
      (s.dispatch_list.filter (fun p => decide ((s.mem p).current_state = State.ID ∧
        (s.mem p).dispatch_timing.start > 0))) dispatch_wait := ⟨_, rfl⟩
  have h1 : Inv lines N S cE (c + 1) c (c + 1) cF D a f { s with mem := m1 } := by
    rw [hm1]; exact collect_inv h
  have htemp : s.dispatch_list.filter (fun p => decide ((s.mem p).current_state = State.ID)) =
      seg D a := by
    rw [h.dl]
    apply filter_seg _ hDa haf
    · intro p hp1 hp2
      simp [(h.hA p hp1 hp2).1]
    · intro p hp1 hp2
      simp [(h.hB p hp1 hp2).1]
  have hsort : sort_by_tag m1 (seg D a) = seg D a := by
    apply sort_by_tag_of_sorted
    refine (List.Pairwise.and_mem.mp (pairwise_seg D a)).imp ?_
    intro x y hxy
    obtain ⟨hx, hy, hlt⟩ := hxy
    rw [mem_seg] at hx hy
    rw [(h1.static x).2.2.2.2.2, (h1.static y).2.2.2.2.2,
      trace_mem_tag lines (by omega), trace_mem_tag lines (by omega)]
    exact_mod_cast Nat.le_of_lt hlt
  obtain ⟨n, hn⟩ : ∃ n, n = min (min N (S - s.issue_list.length)) (a - D) := ⟨_, rfl⟩
  have htake : (seg D a).take (min (N - 0) (S - s.issue_list.length)) = seg D (D + n) := by
    rw [take_seg]; congr 1; omega
  have hdrop : (seg D a).drop (min (N - 0) (S - s.issue_list.length)) = seg (D + n) a := by
    rw [drop_seg]
    by_cases hc : D + min (N - 0) (S - s.issue_list.length) ≤ a
    · congr 1; omega
    · rw [seg_eq_nil (by omega), seg_eq_nil (by omega)]
  rw [dispatch_eq, ← hm1, htemp, hsort, dispatch_loop_eq]
  show (forEach (((seg D a).take (min (N - 0) (S - s.issue_list.length))).foldl dispatch_one
      { s with mem := m1 }).mem
    ((seg D a).drop (min (N - 0) (S - s.issue_list.length))) stamp_dispatch q).issue_timing.duration
      = 1
  rw [htake, hdrop, forEach_not_mem _ _ _ (fun e => by rw [mem_seg] at e; omega)]
  obtain ⟨rf, hrf⟩ := foldl_dispatch_one_mem_mem (q := q) (seg D (D + n)) { s with mem := m1 }
    (nodup_seg _ _) (mem_seg.mpr ⟨hq1, by omega⟩)
  rw [hrf]
  rfl

/-! ## Stamps and the cycle counter -/

theorem core_state {x y : Instruction} (h : core x = core y) :
    x.current_state = y.current_state ∧ x.writeback_timing = y.writeback_timing ∧
    x.execute_timing = y.execute_timing ∧ x.issue_timing = y.issue_timing ∧
    x.dispatch_timing = y.dispatch_timing ∧ x.fetch_timing = y.fetch_timing ∧
    x.src1_tag = y.src1_tag ∧ x.src2_tag = y.src2_tag ∧
    x.execute_cycles_left = y.execute_cycles_left := by
  have e1 := congrArg Instruction.current_state h
  have e2 := congrArg Instruction.writeback_timing h
  have e3 := congrArg Instruction.execute_timing h
  have e4 := congrArg Instruction.issue_timing h
  have e5 := congrArg Instruction.dispatch_timing h
  have e6 := congrArg Instruction.fetch_timing h
  have e7 := congrArg Instruction.src1_tag h
  have e8 := congrArg Instruction.src2_tag h
  have e9 := congrArg Instruction.execute_cycles_left h
  exact ⟨e1, e2, e3, e4, e5, e6, e7, e8, e9⟩

/-- Claim C19: in iteration `k` of a run (the cycle counter is `k` in each handler), a
record that `dispatch` moves from `ID` to `IS` leaves the call with `IS.start` equal to
the counter, a record that `issue` moves from `IS` to `EX` leaves it with `EX.start`
equal to the counter, and a record that `execute` moves from `EX` to `WB` leaves it with
`WB.start` equal to the counter.  The operation types need not be in {0, 1, 2}. -/
theorem stamps_follow_clock (lines : List TraceLine) (N S k : Nat) :
    (∀ p, p < lines.length →
      ((issue N (execute (retire (cycles N S k (Processor.init lines))))).mem p).current_state =
        State.ID →
      ((dispatch N S (issue N (execute (retire (cycles N S k (Processor.init lines)))))).mem
        p).current_state = State.IS →
      ((dispatch N S (issue N (execute (retire (cycles N S k (Processor.init lines)))))).mem
        p).issue_timing.start =
        (issue N (execute (retire (cycles N S k (Processor.init lines))))).current_cycle) ∧
    (∀ p, p < lines.length →
      ((execute (retire (cycles N S k (Processor.init lines)))).mem p).current_state = State.IS →
      ((issue N (execute (retire (cycles N S k (Processor.init lines))))).mem p).current_state =
        State.EX →
      ((issue N (execute (retire (cycles N S k (Processor.init lines))))).mem
        p).execute_timing.start =
        (execute (retire (cycles N S k (Processor.init lines)))).current_cycle) ∧
    (∀ p, p < lines.length →
      ((retire (cycles N S k (Processor.init lines))).mem p).current_state = State.EX →
      ((execute (retire (cycles N S k (Processor.init lines)))).mem p).current_state = State.WB →
      ((execute (retire (cycles N S k (Processor.init lines)))).mem p).writeback_timing.start =
        (retire (cycles N S k (Processor.init lines))).current_cycle) ∧
    (retire (cycles N S k (Processor.init lines))).current_cycle = (k : Int) ∧
    (execute (retire (cycles N S k (Processor.init lines)))).current_cycle = (k : Int) ∧
    (issue N (execute (retire (cycles N S k (Processor.init lines))))).current_cycle =
      (k : Int) := by
  obtain ⟨D, a, f, D2, f2, ph⟩ := phases_of_run lines N S k
  refine ⟨?_, ?_, ?_, ph.c1, ph.c2, ph.c3⟩
  · -- dispatch
    intro p hp hID hIS
    rw [ph.c3]
    have hq1 : D ≤ p ∧ p < a := by
      rcases ph.h3.state_cases p hp with h | h | h | h | h
      · rw [hID] at h; cases h.2
      · rw [hID] at h; cases h.2
      · rw [hID] at h; cases h.2.2.2
      · exact ⟨h.1, h.2.1⟩
      · rw [hID] at h; cases h.2
    have hmem : p ∈ (dispatch N S (issue N (execute (retire
        (cycles N S k (Processor.init lines)))))).issue_list := by
      rcases ph.h4.state_cases p hp with h | h | h | h | h
      · exact h.1
      · rw [hIS] at h; cases h.2
      · rw [hIS] at h; cases h.2.2.2
      · rw [hIS] at h; cases h.2.2
      · rw [hIS] at h; cases h.2
    have hq2 : p < D2 := (ph.h4.il_range p hmem).2
    have hd := dispatch_admitted ph.h3 p hq1.1 (by rw [← ph.hD2]; exact hq2)
    obtain ⟨_, _, _, h4⟩ := ph.h4.hIL p hmem
    omega
  · -- issue
    intro p hp hIS hEX
    have h : Inv lines N S ((k : Int) + 1)
        (execute (retire (cycles N S k (Processor.init lines)))).current_cycle k k k D a f
        (execute (retire (cycles N S k (Processor.init lines)))) := by
      rw [ph.c2]; exact ph.h2
    obtain ⟨e, _⟩ := issue_spec_inv (N := N) h
    have hmem : p ∈ (execute (retire (cycles N S k (Processor.init lines)))).issue_list := by
      rcases ph.h2.state_cases p hp with h | h | h | h | h
      · exact h.1
      · rw [hIS] at h; cases h.2
      · rw [hIS] at h; cases h.2.2.2
      · rw [hIS] at h; cases h.2.2
      · rw [hIS] at h; cases h.2
    obtain ⟨_, _, _, h4⟩ := ph.h2.hIL p hmem
    rw [e] at hEX ⊢
    show (if p ∈ _ then issue_instr _ else if p ∈ _ then issue_stall _ else _).execute_timing.start
      = _
    have hEX2 : (if p ∈ (ready_list (execute (retire (cycles N S k (Processor.init lines))))).take N
        then issue_instr ((execute (retire (cycles N S k (Processor.init lines)))).mem p)
        else if p ∈ (execute (retire (cycles N S k (Processor.init lines)))).issue_list
          then issue_stall ((execute (retire (cycles N S k (Processor.init lines)))).mem p)
          else (execute (retire (cycles N S k (Processor.init lines)))).mem p).current_state =
        State.EX := hEX
    by_cases hsel : p ∈ (ready_list (execute (retire (cycles N S k (Processor.init lines))))).take N
    · rw [if_pos hsel]
      show ((execute (retire (cycles N S k (Processor.init lines)))).mem p).issue_timing.start +
        ((execute (retire (cycles N S k (Processor.init lines)))).mem p).issue_timing.duration = _
      rw [ph.c2]; exact h4
    · rw [if_neg hsel, if_pos hmem] at hEX2
      have : ((execute (retire (cycles N S k (Processor.init lines)))).mem p).current_state =
          State.EX := hEX2
      rw [hIS] at this; cases this
  · -- execute
    intro p hp hEX hWB
    have hmem : p ∈ (retire (cycles N S k (Processor.init lines))).execute_list := by
      rcases ph.h1.state_cases p hp with h | h | h | h | h
      · rw [hEX] at h; cases h.2
      · exact h.1
      · rw [hEX] at h; cases h.2.2.2
      · rw [hEX] at h; cases h.2.2
      · rw [hEX] at h; cases h.2
    have hc := execute_mem_core (retire (cycles N S k (Processor.init lines))) ph.h1.el_nodup p
    rw [if_pos hmem, ph.c1] at hc
    obtain ⟨e1, e2, _⟩ := core_state hc
    obtain ⟨_, ⟨_, _, h3⟩, h4, h5, _⟩ := ph.h1.hEL p hmem
    rw [e1] at hWB
    rw [e2, ph.c1]
    unfold execute_instr at hWB ⊢
    by_cases hc1 : (k : Int) ≥
        ((retire (cycles N S k (Processor.init lines))).mem p).execute_timing.start
    · rw [if_pos hc1] at hWB ⊢
      by_cases hc2 : ((retire (cycles N S k (Processor.init lines))).mem p).execute_cycles_left - 1
          = 0
      · rw [if_pos hc2]
        show ((retire (cycles N S k (Processor.init lines))).mem p).execute_timing.start +
          ((retire (cycles N S k (Processor.init lines))).mem p).execute_timing.duration = _
        omega
      · rw [if_neg hc2] at hWB
        have : ((retire (cycles N S k (Processor.init lines))).mem p).current_state = State.WB :=
          hWB
        rw [hEX] at this; cases this
    · rw [if_neg hc1] at hWB
      rw [hEX] at hWB; cases hWB

/-! ## The selection of `issue` -/

theorem before_issue_inv (lines : List TraceLine) (N S k j : Nat) (hj : j ≤ 2) :
    ∃ cE cu cs cF D a f,
      Inv lines N S cE (after_handlers N S j (cycles N S k (Processor.init lines))).current_cycle
        cu cs cF D a f (after_handlers N S j (cycles N S k (Processor.init lines))) := by
  obtain ⟨D, a, f, D2, f2, ph⟩ := phases_of_run lines N S k
  match j, hj with
  | 0, _ =>
    have h := ph.h0
    rw [← ph.c0] at h
    exact ⟨_, _, _, _, _, _, _, h⟩
  | 1, _ =>
    have h := ph.h1
    rw [← ph.c1] at h
    exact ⟨_, _, _, _, _, _, _, h⟩
  | 2, _ =>
    have h : Inv lines N S ((k : Int) + 1)
        (execute (retire (cycles N S k (Processor.init lines)))).current_cycle k k k D a f
        (execute (retire (cycles N S k (Processor.init lines)))) := by
      rw [ph.c2]; exact ph.h2
    exact ⟨_, _, _, _, _, _, _, h⟩

theorem take_lt_drop {l : List Nat} (h : l.Pairwise (fun x y => x < y)) (n : Nat) {x y : Nat}
    (hx : x ∈ l.take n) (hy : y ∈ l) (hy2 : y ∉ l.take n) : x < y := by
  have e := List.take_append_drop n l
  rw [← e] at h hy
  rcases List.mem_append.mp hy with h1 | h1
  · exact absurd h1 hy2
  · exact (List.pairwise_append.mp h).2.2 x hx y h1

theorem issue_selection {lines : List TraceLine} {N S : Nat} {cE cu cs cF : Int} {D a f : Nat}
    {s : Processor} (h : Inv lines N S cE s.current_cycle cu cs cF D a f s) :
    (issue N s).execute_list = s.execute_list ++ (ready_list s).take N ∧
    ((ready_list s).take N).length = min N (ready_list s).length ∧
    ((ready_list s).take N).Pairwise (fun x y => (s.mem x).tag < (s.mem y).tag) ∧
    (∀ p ∈ (ready_list s).take N, p ∈ s.issue_list ∧ issue_ready s (s.mem p) = true) ∧
    (∀ p ∈ (ready_list s).take N, ∀ q ∈ s.issue_list, issue_ready s (s.mem q) = true →
      q ∉ (ready_list s).take N → (s.mem p).tag < (s.mem q).tag) ∧
    (∀ p ∈ (ready_list s).take N, (s.mem p).current_state = State.IS ∧
      ((issue N s).mem p).current_state = State.EX ∧ p ∉ (issue N s).issue_list) ∧
    (∀ q ∈ s.issue_list, q ∉ (ready_list s).take N →
      q ∈ (issue N s).issue_list ∧ ((issue N s).mem q).current_state = State.IS ∧
      ((issue N s).mem q).issue_timing.start = (s.mem q).issue_timing.start ∧
      ((issue N s).mem q).issue_timing.duration = (s.mem q).issue_timing.duration + 1) ∧
    (∀ q ∈ (issue N s).issue_list, q ∈ s.issue_list ∧ q ∉ (ready_list s).take N) ∧
    (∀ p ∈ s.issue_list, (issue_ready s (s.mem p) = true ↔
      ((s.mem p).src1_tag = -1 ∨ (s.mem p).src1_tag ∈ s.completed_tags) ∧
      ((s.mem p).src2_tag = -1 ∨ (s.mem p).src2_tag ∈ s.completed_tags))) := by
  obtain ⟨e, _⟩ := issue_spec_inv (N := N) h
  have hn : ∀ p, p < D → p < lines.length := fun p hp => by
    have := h.D_le; have := h.a_le; have := h.f_le; omega
  have htag : ∀ p ∈ s.issue_list, (s.mem p).tag = (p : Int) := fun p hp =>
    h.tag_eq (hn p (h.il_range p hp).2)
  have hnd : s.issue_list.Nodup := h.il_sorted.imp (fun h => Nat.ne_of_lt h)
  have hrl : (ready_list s).Pairwise (fun x y => x < y) :=
    h.il_sorted.sublist (List.filter_sublist _)
  have hsub : ∀ p ∈ (ready_list s).take N, p ∈ s.issue_list ∧ issue_ready s (s.mem p) = true := by
    intro p hp
    have := List.mem_of_mem_take hp
    unfold ready_list at this
    exact List.mem_filter.mp this
  have hil : ∀ q, q ∈ (issue N s).issue_list ↔ q ∈ s.issue_list ∧ q ∉ (ready_list s).take N := by
    intro q
    rw [e]
    exact mem_foldl_erase _ _ hnd q
  have hmem : ∀ q, (issue N s).mem q =
      if q ∈ (ready_list s).take N then issue_instr (s.mem q)
      else if q ∈ s.issue_list then issue_stall (s.mem q) else s.mem q := by
    intro q
    rw [e]
  refine ⟨by rw [e], List.length_take _ _, ?_, hsub, ?_, ?_, ?_, fun q hq => (hil q).mp hq, ?_⟩
  · refine (List.Pairwise.and_mem.mp (hrl.sublist (List.take_sublist _ _))).imp ?_
    intro x y hxy
    obtain ⟨hx, hy, hlt⟩ := hxy
    rw [htag x (hsub x hx).1, htag y (hsub y hy).1]
    exact_mod_cast hlt
  · intro p hp q hq hqr hqn
    rw [htag p (hsub p hp).1, htag q hq]
    have hq2 : q ∈ ready_list s := by
      unfold ready_list
      exact List.mem_filter.mpr ⟨hq, hqr⟩
    exact_mod_cast take_lt_drop hrl N hp hq2 hqn
  · intro p hp
    refine ⟨(h.hIL p (hsub p hp).1).1, ?_, fun c => ((hil p).mp c).2 hp⟩
    rw [hmem, if_pos hp]
    rfl
  · intro q hq hqn
    refine ⟨(hil q).mpr ⟨hq, hqn⟩, ?_, ?_, ?_⟩
    · rw [hmem, if_neg hqn, if_pos hq]
      exact (h.hIL q hq).1
    · rw [hmem, if_neg hqn, if_pos hq]
      rfl
    · rw [hmem, if_neg hqn, if_pos hq]
      rfl
  · intro p hp
    exact h.src_ready_iff (h.il_range p hp).2

/-- Claim C16: in every iteration of a run, in each state before `issue` runs (`j = 0`:
the start of the iteration, `j = 1`: after `retire`, `j = 2`: after `execute`, the state
in which the loop of `main` calls `issue`), one call of `issue` appends to the execute
list a list `moved` of entries of the scheduling queue that are ready (`issue_ready`,
which holds exactly when each source tag is `-1` or in `completed_tags`), in ascending
order of tag, `min N |ready|` of them, each with a smaller tag than every ready entry
that is not moved; the moved entries go from `IS` to `EX` and leave the queue; every
other entry stays in the queue in `IS`, with the same `IS.start` and its `IS.duration`
increased by exactly 1; and nothing else enters the queue. -/
theorem issue_moves_oldest_ready (lines : List TraceLine) (N S k j : Nat) (hj : j ≤ 2)
    (s : Processor) (hs : s = after_handlers N S j (cycles N S k (Processor.init lines))) :
    ∃ moved : List Nat,
      (issue N s).execute_list = s.execute_list ++ moved ∧
      moved.length = min N (ready_list s).length ∧
      moved.Pairwise (fun x y => (s.mem x).tag < (s.mem y).tag) ∧
      (∀ p ∈ moved, p ∈ s.issue_list ∧ issue_ready s (s.mem p) = true) ∧
      (∀ p ∈ moved, ∀ q ∈ s.issue_list, issue_ready s (s.mem q) = true →
        q ∉ moved → (s.mem p).tag < (s.mem q).tag) ∧
      (∀ p ∈ moved, (s.mem p).current_state = State.IS ∧
        ((issue N s).mem p).current_state = State.EX ∧ p ∉ (issue N s).issue_list) ∧
      (∀ q ∈ s.issue_list, q ∉ moved →
        q ∈ (issue N s).issue_list ∧ ((issue N s).mem q).current_state = State.IS ∧
        ((issue N s).mem q).issue_timing.start = (s.mem q).issue_timing.start ∧
        ((issue N s).mem q).issue_timing.duration = (s.mem q).issue_timing.duration + 1) ∧
      (∀ q ∈ (issue N s).issue_list, q ∈ s.issue_list ∧ q ∉ moved) ∧
      (∀ p ∈ s.issue_list, (issue_ready s (s.mem p) = true ↔
        ((s.mem p).src1_tag = -1 ∨ (s.mem p).src1_tag ∈ s.completed_tags) ∧
        ((s.mem p).src2_tag = -1 ∨ (s.mem p).src2_tag ∈ s.completed_tags))) := by
  subst hs
  obtain ⟨cE, cu, cs, cF, D, a, f, h⟩ := before_issue_inv lines N S k j hj
  exact ⟨_, issue_selection h⟩

/-! ## A reader renamed after its producer has retired -/

/-- Claim C15, as amended: for every record `p` that is in `IS` when `dispatch` returns
in iteration `k` (in particular a reader this call has renamed), and every register `R`
other than `-1` whose last writer before `p` in the trace is `q`, if the record of `q`
has already been printed by `retire`, then each source of `p` that reads `R` carries the
tag `q` of the producer, not `-1` (the entry of the register file is never erased); the
tag is in `completed_tags`, so that `issue` finds the source ready. -/
theorem retired_producer_tag_is_kept (lines : List TraceLine) (N S k p q : Nat) (R : Int)
    (hp : p < lines.length) (hq : q < p) (hR : R ≠ -1)
    (hdest : (trace_mem lines q).dest_reg = R)
    (hlast : ∀ q2, q2 < p → q < q2 → (trace_mem lines q2).dest_reg ≠ R)
    (s3 s4 : Processor)
    (hs3 : s3 = issue N (execute (retire (cycles N S k (Processor.init lines)))))
    (hs4 : s4 = dispatch N S s3)
    (hIS : (s4.mem p).current_state = State.IS)
    (hret : ∃ i ∈ s3.output, i.tag = (q : Int)) :
    ((s4.mem p).src1_reg = R →
      (s4.mem p).src1_tag = (q : Int) ∧ (s4.mem p).src1_tag ≠ -1 ∧
      (s4.mem p).src1_tag ∈ s4.completed_tags ∧
      src_ready s4 (s4.mem p).src1_tag (s4.mem p).src1_reg = true) ∧
    ((s4.mem p).src2_reg = R →
      (s4.mem p).src2_tag = (q : Int) ∧ (s4.mem p).src2_tag ≠ -1 ∧
      (s4.mem p).src2_tag ∈ s4.completed_tags ∧
      src_ready s4 (s4.mem p).src2_tag (s4.mem p).src2_reg = true) := by
  subst hs4
  subst hs3
  obtain ⟨D, a, f, D2, f2, ph⟩ := phases_of_run lines N S k
  obtain ⟨m, hm⟩ : ∃ m, m =
      (dispatch N S (issue N (execute (retire (cycles N S k (Processor.init lines)))))).mem p :=
    ⟨_, rfl⟩
  rw [← hm] at hIS ⊢
  have hpD : p < D2 := by
    rcases ph.h4.state_cases p hp with h | h | h | h | h
    · exact (ph.h4.il_range p h.1).2
    · exact (ph.h4.el_range p h.1).2
    · exact h.1
    · rw [← hm, hIS] at h; cases h.2.2
    · rw [← hm, hIS] at h; cases h.2
  have hsrc := ph.h4.hsrc p hpD
  rw [← hm] at hsrc
  have hlw := last_writer_some lines R hR q hdest p hq (fun q2 h1 h2 => hlast q2 h2 h1)
  have hrn : rename_src (last_writer lines p) R = (q : Int) := by
    unfold rename_src
    rw [if_pos hR, hlw]
  -- the producer is below the printed records
  have hqout : q < (issue N (execute (retire (cycles N S k (Processor.init lines))))).output.length := by
    obtain ⟨i, hi, hti⟩ := hret
    have ht := ph.h3.output_tags
    have hmem : (q : Int) ∈ (issue N (execute (retire (cycles N S k (Processor.init lines))))).output.map
        (fun i => i.tag) := List.mem_map.mpr ⟨i, hi, hti⟩
    rw [ht, List.mem_map] at hmem
    obtain ⟨x, hx, hxq⟩ := hmem
    have : x = q := by exact_mod_cast hxq
    rw [← this]
    exact List.mem_range.mp hx
  have hout4 := ph.out4
  have hout3 := ph.out3
  have hq4 : q < (dispatch N S (issue N (execute (retire (cycles N S k (Processor.init lines)))))).output.length := by
    rw [hout4, ← hout3]; exact hqout
  have hqD : q < D2 := by omega
  have hcomp : (q : Int) ∈ (dispatch N S (issue N (execute (retire
      (cycles N S k (Processor.init lines)))))).completed_tags := by
    have h1 := ph.h4.hWB q hqD (fun e => by have := (ph.h4.il_range q e).1; omega)
      (fun e => by have := (ph.h4.el_range q e).1; omega)
    have h2 := ph.h4.tag_eq (p := q) (by omega)
    rw [h2] at h1
    exact h1.2
  have key : ∀ (t r : Int), t = rename_src (last_writer lines p) r → r = R →
      t = (q : Int) ∧ t ≠ -1 ∧
      t ∈ (dispatch N S (issue N (execute (retire
        (cycles N S k (Processor.init lines)))))).completed_tags ∧
      src_ready (dispatch N S (issue N (execute (retire
        (cycles N S k (Processor.init lines)))))) t r = true := by
    intro t r ht hr
    subst hr
    rw [hrn] at ht
    subst ht
    refine ⟨rfl, by omega, hcomp, ?_⟩
    unfold src_ready
    simp [hcomp]
  exact ⟨key _ _ hsrc.1, key _ _ hsrc.2⟩

/-! ## A trace that fits into the width and the scheduling queue -/

theorem independent_ready {lines : List TraceLine} {N S : Nat} {cE cI cu cs cF : Int}
    {D a f : Nat} {s : Processor} (h : Inv lines N S cE cI cu cs cF D a f s)
    (hind : ∀ p, p < lines.length →
      rename_src (last_writer lines p) (trace_mem lines p).src1_reg = -1 ∧
      rename_src (last_writer lines p) (trace_mem lines p).src2_reg = -1)
    {p : Nat} (hp : p < D) : issue_ready s (s.mem p) = true := by
  have hpn : p < lines.length := by
    have := h.D_le; have := h.a_le; have := h.f_le; omega
  rw [h.src_ready_iff hp]
  obtain ⟨h1, h2⟩ := h.hsrc p hp
  obtain ⟨_, _, _, e1, e2, _⟩ := h.static p
  rw [e1] at h1
  rw [e2] at h2
  rw [h1, h2]
  exact ⟨Or.inl (hind p hpn).1, Or.inl (hind p hpn).2⟩

theorem cycle_issue_list (N S : Nat) (s : Processor) :
    (cycle N S s).issue_list = (handlers N S s).issue_list := rfl

theorem cycle_execute_list (N S : Nat) (s : Processor) :
    (cycle N S s).execute_list = (handlers N S s).execute_list := rfl

theorem cycle_mem (N S : Nat) (s : Processor) : (cycle N S s).mem = (handlers N S s).mem := rfl

theorem handlers_eq (N S : Nat) (s : Processor) :
    handlers N S s = fetch N (dispatch N S (issue N (execute (retire s)))) := rfl

theorem cycles_one (N S : Nat) (s : Processor) : cycles N S 1 s = cycle N S s := rfl

theorem cycles_succ (N S k : Nat) (s : Processor) :
    cycles N S (k + 1) s = cycle N S (cycles N S k s) := rfl

/-- The first three iterations on a trace of at most `min N S` instructions: all of them
are fetched in cycle 0, promoted in cycle 1 and dispatched in cycle 2. -/
theorem unstalled_dispatch {lines : List TraceLine} {N S : Nat} (hnN : lines.length ≤ N)
    (hnS : lines.length ≤ S) :
    Inv lines N S 3 3 3 3 3 lines.length lines.length lines.length
      (cycles N S 3 (Processor.init lines)) ∧
    (cycles N S 3 (Processor.init lines)).current_cycle = 3 ∧
    (cycles N S 3 (Processor.init lines)).issue_list = seg 0 lines.length ∧
    (cycles N S 3 (Processor.init lines)).execute_list = [] ∧
    (cycles N S 3 (Processor.init lines)).output = [] ∧
    (cycles N S 1 (Processor.init lines)).ROB = seg 0 lines.length ∧
    (cycles N S 2 (Processor.init lines)).ROB = seg 0 lines.length ∧
    (cycles N S 3 (Processor.init lines)).ROB = seg 0 lines.length := by
  have e1 : (0 : Int) + 1 = 1 := by norm_num
  have e2 : (1 : Int) + 1 = 2 := by norm_num
  have e3 : (2 : Int) + 1 = 3 := by norm_num
  rw [show (3 : Nat) = 2 + 1 from rfl, cycles_succ, show (2 : Nat) = 1 + 1 from rfl, cycles_succ,
    cycles_one]
  obtain ⟨s1, hs1⟩ : ∃ s1, s1 = cycle N S (Processor.init lines) := ⟨_, rfl⟩
  obtain ⟨s2, hs2⟩ : ∃ s2, s2 = cycle N S s1 := ⟨_, rfl⟩
  obtain ⟨s3, hs3⟩ : ∃ s3, s3 = cycle N S s2 := ⟨_, rfl⟩
  rw [← hs1, ← hs2, ← hs3]
  -- iteration 0
  obtain ⟨D2, f2, ph0⟩ := phases_of_inv (init_inv lines N S) rfl (le_refl 0)
  have hD0 : D2 = 0 := by have := ph0.hD2; omega
  have hf0 : f2 = lines.length := by have := ph0.hf2; omega
  subst hD0
  subst hf0
  obtain ⟨I1, c1, o1, _⟩ := ph0.next
  rw [e1, ← hs1] at I1 c1
  have out1 : s1.output = [] :=
    List.eq_nil_of_length_eq_zero (by have := I1.le_D; omega)
  have rob1 : s1.ROB = seg 0 lines.length := by
    rw [I1.rob, out1, List.length_nil]
  -- iteration 1
  obtain ⟨D2, f2, ph1⟩ := phases_of_inv I1 c1 (by norm_num)
  have hD1 : D2 = 0 := by have := ph1.hD2; omega
  have hf1 : f2 = lines.length := by have := ph1.hf2; omega
  subst hD1
  subst hf1
  obtain ⟨I2, c2, o2, _⟩ := ph1.next
  rw [e2, ← hs2] at I2 c2
  have out2 : s2.output = [] :=
    List.eq_nil_of_length_eq_zero (by have := I2.le_D; omega)
  have rob2 : s2.ROB = seg 0 lines.length := by
    rw [I2.rob, out2, List.length_nil]
  -- iteration 2
  obtain ⟨D2, f2, ph2⟩ := phases_of_inv I2 c2 (by norm_num)
  have hil : (issue N (execute (retire s2))).issue_list = [] :=
    List.eq_nil_iff_forall_not_mem.mpr (fun p hp => by
      have := (ph2.h3.il_range p hp).2; omega)
  have hel : (issue N (execute (retire s2))).execute_list = [] :=
    List.eq_nil_iff_forall_not_mem.mpr (fun p hp => by
      have := (ph2.h3.el_range p hp).2; omega)
  have hD2 : D2 = lines.length := by
    have := ph2.hD2
    rw [hil] at this
    simp only [List.length_nil] at this
    omega
  have hf2 : f2 = lines.length := by have := ph2.hf2; omega
  subst hD2
  subst hf2
  obtain ⟨I3, c3, o3, _⟩ := ph2.next
  rw [e3, ← hs3] at I3 c3
  rw [← hs3] at o3
  have out3 : s3.output = [] := by
    rw [o3]
    exact List.eq_nil_of_length_eq_zero (by have := ph2.h1.le_D; omega)
  have rob3 : s3.ROB = seg 0 lines.length := by
    rw [I3.rob, out3, List.length_nil]
  have il3 : s3.issue_list = seg 0 lines.length := by
    rw [hs3, cycle_issue_list, ph2.il5, ph2.il4, hil, List.nil_append]
  have el3 : s3.execute_list = [] := by
    rw [hs3, cycle_execute_list, ph2.el5, ph2.el4, hel]
  exact ⟨I3, c3, il3, el3, out3, rob1, rob2, rob3⟩

/-- The fourth iteration on a trace of at most `min N S` instructions none of which reads
a register that an earlier one writes: `issue` moves all of them to the execute list,
with `EX.start = 3`. -/
theorem unstalled_issue {lines : List TraceLine} {N S : Nat} (hnN : lines.length ≤ N)
    (hnS : lines.length ≤ S)
    (hind : ∀ p, p < lines.length →
      rename_src (last_writer lines p) (trace_mem lines p).src1_reg = -1 ∧
      rename_src (last_writer lines p) (trace_mem lines p).src2_reg = -1) :
    Inv lines N S 4 4 4 4 4 lines.length lines.length lines.length
      (cycles N S 4 (Processor.init lines)) ∧
    (cycles N S 4 (Processor.init lines)).current_cycle = 4 ∧
    (cycles N S 4 (Processor.init lines)).issue_list = [] ∧
    (cycles N S 4 (Processor.init lines)).execute_list = seg 0 lines.length ∧
    (cycles N S 4 (Processor.init lines)).output = [] ∧
    (cycles N S 4 (Processor.init lines)).ROB = seg 0 lines.length ∧
    (∀ p, p < lines.length →
      ((execute (retire (cycles N S 3 (Processor.init lines)))).mem p).current_state = State.IS ∧
      ((issue N (execute (retire (cycles N S 3 (Processor.init lines))))).mem p).current_state =
        State.EX ∧
      ((cycles N S 4 (Processor.init lines)).mem p).current_state = State.EX ∧
      ((cycles N S 4 (Processor.init lines)).mem p).execute_timing.start = 3) := by
  obtain ⟨I3, c3, il3, el3, out3, _, _, rob3⟩ := unstalled_dispatch hnN hnS
  have e4 : (3 : Int) + 1 = 4 := by norm_num
  rw [show (4 : Nat) = 3 + 1 from rfl, cycles_succ]
  obtain ⟨s3, hs3⟩ : ∃ s3, s3 = cycles N S 3 (Processor.init lines) := ⟨_, rfl⟩
  rw [← hs3] at I3 c3 il3 el3 out3 rob3 ⊢
  obtain ⟨D2, f2, ph⟩ := phases_of_inv I3 c3 (by norm_num)
  have hD : D2 = lines.length := by have := ph.hD2; omega
  have hf : f2 = lines.length := by have := ph.hf2; omega
  subst hD
  subst hf
  obtain ⟨I4, c4, o4, _⟩ := ph.next
  rw [e4] at I4 c4
  -- the state in which `issue` is called
  obtain ⟨e, he⟩ : ∃ e, e = execute (retire s3) := ⟨_, rfl⟩
  have h2 : Inv lines N S (3 + 1) e.current_cycle 3 3 3 lines.length lines.length lines.length e := by
    rw [he, ph.c2]; exact ph.h2
  have ile : e.issue_list = seg 0 lines.length := by
    rw [he, execute_issue_list, retire_issue_list, il3]
  have ele : e.execute_list = [] := by
    rw [he, execute_list_eq _ ph.h1.el_nodup, retire_execute_list, el3]
    rfl
  have hready : ready_list e = seg 0 lines.length := by
    unfold ready_list
    rw [ile]
    apply List.filter_eq_self.mpr
    intro p hp
    exact independent_ready h2 hind (mem_seg.mp hp).2
  have htake : (ready_list e).take N = seg 0 lines.length := by
    rw [hready]
    apply List.take_of_length_le
    rw [length_seg]; omega
  obtain ⟨eq, _⟩ := issue_spec_inv (N := N) h2
  rw [htake] at eq
  have hmem3 : ∀ p, p < lines.length → (issue N e).mem p = issue_instr (e.mem p) := by
    intro p hp
    rw [eq]
    show (if p ∈ seg 0 lines.length then issue_instr (e.mem p) else _) = _
    rw [if_pos (mem_seg.mpr ⟨Nat.zero_le _, hp⟩)]
  have hel3 : (issue N e).execute_list = seg 0 lines.length := by
    rw [eq]
    show e.execute_list ++ seg 0 lines.length = _
    rw [ele, List.nil_append]
  -- `dispatch` and `fetch` find nothing to do
  have hmem4 : ∀ p, (cycle N S s3).mem p = (issue N e).mem p := by
    intro p
    rw [cycle_mem, handlers_eq,
      fetch_mem_of_not_mem N _ (by rw [ph.h4.dl, seg_eq_nil (le_refl _)]; exact List.not_mem_nil p)
        (by rw [ph.h4.pend, seg_eq_nil (le_refl _)]; exact List.not_mem_nil p),
      dispatch_mem_of_not_mem N S _
        (by rw [ph.h3.dl, seg_eq_nil (le_refl _)]; exact List.not_mem_nil p), ← he]
  have hst : ∀ p, p < lines.length → ((cycle N S s3).mem p).current_state = State.EX := by
    intro p hp
    rw [hmem4, hmem3 p hp]
    rfl
  have il4 : (cycle N S s3).issue_list = [] :=
    List.eq_nil_iff_forall_not_mem.mpr (fun p hp => by
      have h1 := (I4.hIL p hp).1
      rw [hst p (I4.il_range p hp).2] at h1
      cases h1)
  have el4 : (cycle N S s3).execute_list = seg 0 lines.length := by
    rw [cycle_execute_list, ph.el5, ph.el4, ← he, hel3]
  have out4 : (cycle N S s3).output = [] := by
    rw [o4]
    apply List.eq_nil_of_length_eq_zero
    by_cases hn : lines.length = 0
    · have := ph.h1.le_D; omega
    · have hm : 0 ∈ (retire s3).issue_list := by
        rw [retire_issue_list, il3, mem_seg]; omega
      have := (ph.h1.il_range 0 hm).1
      omega
  have rob4 : (cycle N S s3).ROB = seg 0 lines.length := by
    rw [I4.rob, out4, List.length_nil]
  refine ⟨I4, c4, il4, el4, out4, rob4, fun p hp => ⟨?_, ?_, hst p hp, ?_⟩⟩
  · rw [← he]
    exact (h2.hIL p (by rw [ile, mem_seg]; omega)).1
  · rw [← he, hmem3 p hp]
    rfl
  · rw [hmem4, hmem3 p hp]
    show (e.mem p).issue_timing.start + (e.mem p).issue_timing.duration = 3
    have := (h2.hIL p (by rw [ile, mem_seg]; omega)).2.2.2
    rw [he, ph.c2] at this
    rw [he]
    exact this

/-! ## Stamps of a record that has been issued -/

theorem execute_instr_stamps (c : Int) (i : Instruction) :
    (execute_instr c i).execute_timing = i.execute_timing ∧
    ((execute_instr c i).current_state = i.current_state ∨
      (execute_instr c i).current_state = State.WB) := by
  unfold execute_instr
  split
  · split
    · exact ⟨rfl, Or.inr rfl⟩
    · exact ⟨rfl, Or.inl rfl⟩
  · exact ⟨rfl, Or.inl rfl⟩

/-- One iteration leaves the `EX` timing of a record that is in `EX` or `WB` as it is. -/
theorem issued_stable_cycle {lines : List TraceLine} {N S : Nat} {s : Processor}
    (hb : Boundary lines N S s) {p : Nat} (hp : p < lines.length)
    (hst : (s.mem p).current_state = State.EX ∨ (s.mem p).current_state = State.WB) :
    ((cycle N S s).mem p).execute_timing = (s.mem p).execute_timing ∧
    (((cycle N S s).mem p).current_state = State.EX ∨
      ((cycle N S s).mem p).current_state = State.WB) := by
  obtain ⟨D, a, f, D2, f2, ph⟩ := phases_of_boundary hb
  have hne : ∀ {x : State}, (x = State.EX ∨ x = State.WB) → x ≠ State.IS ∧ x ≠ State.ID ∧
      x ≠ State.IF := by
    intro x hx
    rcases hx with h | h <;> subst h <;> exact ⟨by decide, by decide, by decide⟩
  -- retire
  have h1 : ((retire s).mem p).current_state = State.EX ∨
      ((retire s).mem p).current_state = State.WB := by rw [retire_mem]; exact hst
  -- execute
  have hc := execute_mem_core (retire s) ph.h1.el_nodup p
  have h2 : ((execute (retire s)).mem p).execute_timing = (s.mem p).execute_timing ∧
      (((execute (retire s)).mem p).current_state = State.EX ∨
        ((execute (retire s)).mem p).current_state = State.WB) := by
    by_cases hm : p ∈ (retire s).execute_list
    · rw [if_pos hm] at hc
      obtain ⟨e1, _, e3, _⟩ := core_state hc
      obtain ⟨g1, g2⟩ := execute_instr_stamps (retire s).current_cycle ((retire s).mem p)
      refine ⟨by rw [e3, g1, retire_mem], ?_⟩
      rw [e1]
      rcases g2 with g | g
      · rw [g]; exact h1
      · exact Or.inr g
    · rw [if_neg hm] at hc
      obtain ⟨e1, _, e3, _⟩ := core_state hc
      rw [e1, e3, retire_mem]
      exact ⟨rfl, hst⟩
  -- issue
  have hnil : p ∉ (execute (retire s)).issue_list := fun hm =>
    (hne h2.2).1 (ph.h2.hIL p hm).1
  have e3 : (issue N (execute (retire s))).mem p = (execute (retire s)).mem p :=
    issue_mem_of_not_mem N _ hnil
  have hpD : p < D := by
    rcases ph.h2.state_cases p hp with h | h | h | h | h
    · exact absurd h.1 hnil
    · exact (ph.h2.el_range p h.1).2
    · exact h.1
    · exact absurd h.2.2 (hne h2.2).2.1
    · exact absurd h.2 (hne h2.2).2.2
  -- dispatch
  have e4 : (dispatch N S (issue N (execute (retire s)))).mem p =
      (issue N (execute (retire s))).mem p :=
    dispatch_mem_of_not_mem N S _ (by rw [ph.h3.dl, mem_seg]; omega)
  -- fetch
  have hDD : D ≤ D2 := by have := ph.hD2; have := ph.h0.D_le; omega
  have hD2f : D2 ≤ f := by have := ph.h4.D_le; have := ph.h4.a_le; omega
  have e5 : (fetch N (dispatch N S (issue N (execute (retire s))))).mem p =
      (dispatch N S (issue N (execute (retire s)))).mem p :=
    fetch_mem_of_not_mem N _ (by rw [ph.h4.dl, mem_seg]; omega)
      (by rw [ph.h4.pend, mem_seg]; omega)
  rw [cycle_mem, handlers_eq, e5, e4, e3]
  exact h2

theorem issued_stable (lines : List TraceLine) (N S k p : Nat) (hp : p < lines.length)
    (hst : ((cycles N S k (Processor.init lines)).mem p).current_state = State.EX ∨
      ((cycles N S k (Processor.init lines)).mem p).current_state = State.WB) :
    ∀ d, ((cycles N S (k + d) (Processor.init lines)).mem p).execute_timing =
        ((cycles N S k (Processor.init lines)).mem p).execute_timing ∧
      (((cycles N S (k + d) (Processor.init lines)).mem p).current_state = State.EX ∨
        ((cycles N S (k + d) (Processor.init lines)).mem p).current_state = State.WB)
  | 0 => ⟨rfl, hst⟩
  | d + 1 => by
    obtain ⟨ih1, ih2⟩ := issued_stable lines N S k p hp hst d
    obtain ⟨g1, g2⟩ := issued_stable_cycle (N := N) (S := S) (cycles_boundary lines N S (k + d))
      hp ih2
    rw [show k + (d + 1) = (k + d) + 1 from rfl, cycles_succ]
    exact ⟨g1.trans ih1, g2⟩

/-! ## A trace of one instruction of operation type 0 -/

theorem timing_eq (t : Timing) (a b : Int) (h1 : t.start = a) (h2 : t.duration = b) :
    t = ⟨a, b⟩ := by
  cases t
  simp only [Timing.mk.injEq]
  exact ⟨h1, h2⟩

theorem single_instruction_run {lines : List TraceLine} {N S : Nat} (hlen : lines.length = 1)
    (hop : (trace_mem lines 0).op_type = 0) (hN : 1 ≤ N) (hS : 1 ≤ S) :
    (∀ j, j < 5 → (cycles N S (j + 1) (Processor.init lines)).ROB ≠ []) ∧
    (cycles N S 6 (Processor.init lines)).ROB = [] ∧
    ∃ r, (cycles N S 6 (Processor.init lines)).output = [r] ∧
      r.fetch_timing = ⟨0, 1⟩ ∧ r.dispatch_timing = ⟨1, 1⟩ ∧ r.issue_timing = ⟨2, 1⟩ ∧
      r.execute_timing = ⟨3, 1⟩ ∧ r.writeback_timing = ⟨4, 1⟩ := by
  have hnN : lines.length ≤ N := by omega
  have hnS : lines.length ≤ S := by omega
  have hind : ∀ p, p < lines.length →
      rename_src (last_writer lines p) (trace_mem lines p).src1_reg = -1 ∧
      rename_src (last_writer lines p) (trace_mem lines p).src2_reg = -1 := by
    intro p hp
    have : p = 0 := by omega
    subst this
    constructor <;> simp [rename_src, last_writer]
  obtain ⟨_, _, _, _, _, rob1, rob2, rob3⟩ := unstalled_dispatch hnN hnS
  obtain ⟨I4, c4, il4, el4, out4, rob4, hmem4⟩ := unstalled_issue hnN hnS hind
  obtain ⟨_, _, hst4, hex4⟩ := hmem4 0 (by omega)
  have hb4 := cycles_boundary lines N S 4
  have e5 : (4 : Int) + 1 = 5 := by norm_num
  have e6 : (5 : Int) + 1 = 6 := by norm_num
  have hseg : seg 0 lines.length = [0] := by
    rw [hlen, seg_cons (by omega), seg_eq_nil (le_refl _)]
  -- iteration 4
  obtain ⟨s4, hs4⟩ : ∃ s4, s4 = cycles N S 4 (Processor.init lines) := ⟨_, rfl⟩
  rw [← hs4] at I4 c4 il4 el4 out4 rob4 hst4 hex4 hb4
  obtain ⟨D2, f2, ph4⟩ := phases_of_inv I4 c4 (by norm_num)
  have hD : D2 = lines.length := by have := ph4.hD2; omega
  have hf : f2 = lines.length := by have := ph4.hf2; omega
  subst hD
  subst hf
  obtain ⟨I5, c5, o5, _⟩ := ph4.next
  rw [e5] at I5 c5
  obtain ⟨s5, hs5⟩ : ∃ s5, s5 = cycle N S s4 := ⟨_, rfl⟩
  rw [← hs5] at I5 c5 o5
  obtain ⟨g1, g2⟩ := issued_stable_cycle (N := N) (S := S) hb4 (p := 0) (by omega) (Or.inl hst4)
  rw [← hs5] at g1 g2
  have hop5 : (s5.mem 0).op_type = 0 := by
    rw [(I5.static 0).2.1]; exact hop
  have hlat : latency (s5.mem 0).op_type = 1 := by rw [hop5]; rfl
  have hnel : (0 : Nat) ∉ s5.execute_list := by
    intro hm
    obtain ⟨_, _, _, h4, h5⟩ := I5.hEL 0 hm
    have h6 := h5 (by rw [hlat])
    rw [hlat, g1, hex4] at h4
    omega
  have hstate5 : (s5.mem 0).current_state = State.WB := by
    rcases I5.state_cases 0 (by omega) with h | h | h | h | h
    · rcases g2 with g | g <;> rw [g] at h <;> cases h.2
    · exact absurd h.1 hnel
    · exact h.2.2.2
    · omega
    · omega
  have hnil : (0 : Nat) ∉ s5.issue_list := by
    intro hm
    have := (I5.hIL 0 hm).1
    rw [hstate5] at this; cases this
  have out5 : s5.output = [] := by
    rw [o5]
    apply List.eq_nil_of_length_eq_zero
    have hm : 0 ∈ (retire s4).execute_list := by
      rw [retire_execute_list, el4, hseg]; exact List.mem_singleton.mpr rfl
    have := (ph4.h1.el_range 0 hm).1
    omega
  have rob5 : s5.ROB = [0] := by
    rw [I5.rob, out5, List.length_nil, hseg]
  obtain ⟨hwb, _⟩ := I5.hWB 0 (by omega) hnil hnel
  obtain ⟨_, ⟨⟨⟨⟨t1, t2⟩, t3, t4, t5, t6⟩, t7, t8⟩, t9, t10⟩, t11⟩ := hwb
  rw [hlat] at t8
  -- iteration 5
  obtain ⟨D2, f2, ph5⟩ := phases_of_inv I5 c5 (by norm_num)
  have hD : D2 = lines.length := by have := ph5.hD2; omega
  have hf : f2 = lines.length := by have := ph5.hf2; omega
  subst hD
  subst hf
  obtain ⟨I6, _, o6, _⟩ := ph5.next
  obtain ⟨r, hr1, hr2, hr3, _, hr5⟩ := retire_spec I5
  have hr : r = 1 := by
    by_contra hne
    have hr0 : r = 0 := by omega
    have hf := hr5 (by omega)
    rw [hr0] at hf
    have ht : retirable s5 0 = true := by
      unfold retirable
      rw [hstate5, c5]
      simp only [decide_True, Bool.true_and, decide_eq_true_eq]
      omega
    rw [ht] at hf
    cases hf
  subst hr
  have hout : (retire s5).output = [s5.mem 0] := by
    rw [hr3]
    show s5.output ++ (seg s5.output.length 1).map s5.mem = _
    rw [out5, List.length_nil, List.nil_append, seg_cons (by omega), seg_eq_nil (le_refl _)]
    rfl
  have out6 : (cycle N S s5).output = [s5.mem 0] := by rw [o6, hout]
  have rob6 : (cycle N S s5).ROB = [] := by
    rw [I6.rob, out6, List.length_singleton, seg_eq_nil (by omega)]
  have hs6 : cycles N S 6 (Processor.init lines) = cycle N S s5 := by
    rw [hs5, hs4]; rfl
  refine ⟨?_, by rw [hs6]; exact rob6, s5.mem 0, by rw [hs6]; exact out6, ?_, ?_, ?_, ?_, ?_⟩
  · intro j hj
    have hcases : j = 0 ∨ j = 1 ∨ j = 2 ∨ j = 3 ∨ j = 4 := by omega
    rcases hcases with h | h | h | h | h <;> subst h
    · rw [rob1, hseg]; exact List.cons_ne_nil _ _
    · rw [rob2, hseg]; exact List.cons_ne_nil _ _
    · rw [rob3, hseg]; exact List.cons_ne_nil _ _
    · show (cycles N S 4 (Processor.init lines)).ROB ≠ []
      rw [← hs4, rob4, hseg]; exact List.cons_ne_nil _ _
    · show (cycle N S (cycles N S 4 (Processor.init lines))).ROB ≠ []
      rw [← hs4, ← hs5, rob5]; exact List.cons_ne_nil _ _
  · exact timing_eq _ _ _ (by omega) t1
  · exact timing_eq _ _ _ (by omega) (by omega)
  · exact timing_eq _ _ _ (by omega) (by omega)
  · exact timing_eq _ _ _ (by omega) (by omega)
  · exact timing_eq _ _ _ (by omega) t10

/-- Claim C11, as amended: on the single-instruction trace `1000 0 1 2 3`, for every
`N ≥ 1` and `S ≥ 1`, the loop of `main` exits after six iterations, the one printed
record has the timings `IF{0,1} ID{1,1} IS{2,1} EX{3,1} WB{4,1}` (the cycle counter
starts at 0), and `print_results` reports 5 cycles. -/
theorem scenario_A_timing (N S : Nat) (hN : 1 ≤ N) (hS : 1 ≤ S) :
    ∃ r, (∀ fuel, 5 < fuel →
        main_loop N S fuel (Processor.init scenario_A) =
          some (cycles N S 6 (Processor.init scenario_A))) ∧
      (cycles N S 6 (Processor.init scenario_A)).output = [r] ∧
      r.tag = 0 ∧
      r.fetch_timing = ⟨0, 1⟩ ∧ r.dispatch_timing = ⟨1, 1⟩ ∧ r.issue_timing = ⟨2, 1⟩ ∧
      r.execute_timing = ⟨3, 1⟩ ∧ r.writeback_timing = ⟨4, 1⟩ ∧
      (print_results (cycles N S 6 (Processor.init scenario_A))).number_of_cycles = 5 := by
  obtain ⟨hne, hrob, r, hout, t1, t2, t3, t4, t5⟩ :=
    @single_instruction_run scenario_A N S rfl rfl hN hS
  refine ⟨r, ?_, hout, ?_, t1, t2, t3, t4, t5, ?_⟩
  · intro fuel hfuel
    exact main_loop_exit N S 5 fuel _ hrob hne hfuel
  · obtain ⟨_, D, a, f, hinv⟩ := cycles_boundary scenario_A N S 6
    have h := hinv.output_tags
    rw [hout] at h
    exact (List.cons.inj h).1
  · show (cycles N S 6 (Processor.init scenario_A)).current_cycle - 1 = 5
    rw [cycles_current_cycle]
    norm_num

/-! ## Two writers of one register -/

/-- Claim C13: for every trace of two instructions without source registers that write
the same destination register (any program counters, operation types and register), run
with `N = 2`, `S = 2`: in the fourth iteration (cycle 3) `issue` moves both records from
`IS` to `EX`; and when the operation types are in {0, 1, 2} the loop of `main` exits with
the two records printed, both with `EX.start = 3`. -/
theorem same_dest_issued_together (pc0 pc1 : Nat) (op0 op1 d : Int) :
    (∀ p, p < 2 →
      ((execute (retire (cycles 2 2 3 (Processor.init (same_dest pc0 pc1 op0 op1 d))))).mem
        p).current_state = State.IS ∧
      ((issue 2 (execute (retire (cycles 2 2 3
        (Processor.init (same_dest pc0 pc1 op0 op1 d)))))).mem p).current_state = State.EX) ∧
    ((op0 = 0 ∨ op0 = 1 ∨ op0 = 2) → (op1 = 0 ∨ op1 = 1 ∨ op1 = 2) →
    ∃ K r0 r1,
      (∀ fuel, K < fuel →
        main_loop 2 2 fuel (Processor.init (same_dest pc0 pc1 op0 op1 d)) =
          some (cycles 2 2 (K + 1) (Processor.init (same_dest pc0 pc1 op0 op1 d)))) ∧
      (cycles 2 2 (K + 1) (Processor.init (same_dest pc0 pc1 op0 op1 d))).output = [r0, r1] ∧
      r0.tag = 0 ∧ r1.tag = 1 ∧
      r0.execute_timing.start = r1.execute_timing.start ∧ r0.execute_timing.start = 3) := by
  obtain ⟨lines, hl⟩ : ∃ lines, lines = same_dest pc0 pc1 op0 op1 d := ⟨_, rfl⟩
  rw [← hl]
  have hlen : lines.length = 2 := by rw [hl]; rfl
  have hind : ∀ p, p < lines.length →
      rename_src (last_writer lines p) (trace_mem lines p).src1_reg = -1 ∧
      rename_src (last_writer lines p) (trace_mem lines p).src2_reg = -1 := by
    intro p hp
    have hs : (trace_mem lines p).src1_reg = -1 ∧ (trace_mem lines p).src2_reg = -1 := by
      have hc : p = 0 ∨ p = 1 := by omega
      rw [hl]
      rcases hc with e | e <;> subst e <;> exact ⟨rfl, rfl⟩
    rw [hs.1, hs.2]
    constructor <;> simp [rename_src]
  obtain ⟨_, _, _, _, out4, _, hmem4⟩ :=
    @unstalled_issue lines 2 2 (by omega) (by omega) hind
  refine ⟨fun p hp => ⟨(hmem4 p (by omega)).1, (hmem4 p (by omega)).2.1⟩, fun h0 h1 => ?_⟩
  have hops : ∀ l ∈ lines, l.op_type = 0 ∨ l.op_type = 1 ∨ l.op_type = 2 := by
    intro l hm
    rw [hl] at hm
    simp only [same_dest, List.mem_cons, List.mem_singleton, List.not_mem_nil, or_false] at hm
    rcases hm with e | e <;> subst e
    · exact h0
    · exact h1
  obtain ⟨K, hrob, _, hloop⟩ := @main_loop_terminates lines 2 2
    (by omega) (by omega) hops
  obtain ⟨_, holen, htags⟩ := @exit_state lines 2 2 (by omega) K hrob
  have hK : 4 ≤ K + 1 := by
    by_contra hc
    have hm := output_length_mono lines 2 2 (K + 1) (4 - (K + 1))
    rw [show K + 1 + (4 - (K + 1)) = 4 by omega, out4, holen] at hm
    simp only [List.length_nil] at hm
    omega
  have hst : ∀ p, p < 2 →
      ((cycles 2 2 (K + 1) (Processor.init lines)).mem p).execute_timing.start = 3 := by
    intro p hp
    obtain ⟨_, _, s4, e4⟩ := hmem4 p (by omega)
    have := (issued_stable lines 2 2 4 p (by omega) (Or.inl s4) (K + 1 - 4)).1
    rw [show 4 + (K + 1 - 4) = K + 1 by omega] at this
    rw [this, e4]
  obtain ⟨_, D, a, f, hinv⟩ := cycles_boundary lines 2 2 (K + 1)
  have hout := hinv.out
  rw [hlen] at htags
  rw [holen, hlen] at hout
  obtain ⟨r0, r1, hr⟩ := List.length_eq_two.mp (holen.trans hlen)
  rw [hr] at htags hout
  have hrange : List.range 2 = [0, 1] := rfl
  rw [hrange] at htags hout
  simp only [List.map_cons, List.map_nil, List.cons.injEq, and_true] at htags hout
  obtain ⟨c0, c1⟩ := hout
  have g0 := (core_state c0).2.2.1
  have g1 := (core_state c1).2.2.1
  refine ⟨K, r0, r1, hloop, hr, ?_, ?_, ?_, ?_⟩
  · exact_mod_cast htags.1
  · exact_mod_cast htags.2
  · rw [g0, g1, hst 0 (by omega), hst 1 (by omega)]
  · rw [g0, hst 0 (by omega)]

/-! ## Concrete runs of the scenarios -/

set_option maxRecDepth 100000

/-- Claim C11, counterexample: on the single-instruction trace with `N = 1`, `S = 1` the
loop exits after six iterations, the printed record is `record_A`, with
`IF{0,1} ID{1,1} IS{2,1} EX{3,1} WB{4,1}`, and `print_results` reports 5 cycles: neither
the timings `IF{1,1} ID{2,1} IS{3,1} EX{4,1} WB{5,1}` nor the 6 cycles of the claim. -/
theorem scenario_A_not_as_described :
    main_loop 1 1 7 (Processor.init scenario_A) = some (cycles 1 1 6 (Processor.init scenario_A)) ∧
    (cycles 1 1 6 (Processor.init scenario_A)).output = [record_A] ∧
    record_A.fetch_timing ≠ ⟨1, 1⟩ ∧ record_A.dispatch_timing ≠ ⟨2, 1⟩ ∧
    record_A.issue_timing ≠ ⟨3, 1⟩ ∧ record_A.execute_timing ≠ ⟨4, 1⟩ ∧
    record_A.writeback_timing ≠ ⟨5, 1⟩ ∧
    (print_results (cycles 1 1 6 (Processor.init scenario_A))).number_of_cycles ≠ 6 ∧
    ¬ (∀ r ∈ (cycles 1 1 6 (Processor.init scenario_A)).output,
        r.fetch_timing = ⟨1, 1⟩ ∧ r.dispatch_timing = ⟨2, 1⟩ ∧ r.issue_timing = ⟨3, 1⟩ ∧
        r.execute_timing = ⟨4, 1⟩ ∧ r.writeback_timing = ⟨5, 1⟩ ∧
        (print_results (cycles 1 1 6 (Processor.init scenario_A))).number_of_cycles = 6) := by
  refine ⟨by rfl, by decide, by decide, by decide, by decide, by decide, by decide, by decide,
    by decide⟩

/-- Claim C11, witness: `N = 1`, `S = 1`. -/
theorem scenario_A_timing_witness :
    1 ≤ 1 ∧ 1 ≤ 1 ∧
    ∃ r, (∀ fuel, 5 < fuel →
        main_loop 1 1 fuel (Processor.init scenario_A) =
          some (cycles 1 1 6 (Processor.init scenario_A))) ∧
      (cycles 1 1 6 (Processor.init scenario_A)).output = [r] ∧
      r.tag = 0 ∧
      r.fetch_timing = ⟨0, 1⟩ ∧ r.dispatch_timing = ⟨1, 1⟩ ∧ r.issue_timing = ⟨2, 1⟩ ∧
      r.execute_timing = ⟨3, 1⟩ ∧ r.writeback_timing = ⟨4, 1⟩ ∧
      (print_results (cycles 1 1 6 (Processor.init scenario_A))).number_of_cycles = 5 :=
  ⟨by decide, by decide, scenario_A_timing 1 1 (by decide) (by decide)⟩

/-- Claim C12, counterexample: on the chain of three dependent instructions with `N = 1`,
`S = 4` the loop exits after eight iterations, and no printed records with tags 0 and 1
have the timings of the claim (`IF{1,1} ID{2,1} IS{3,1} EX{4,1} WB{5,1}` for tag 0,
`EX.start = 6`, two cycles after the `EX.start` of tag 0, for tag 1). -/
theorem raw_chain_not_as_described :
    main_loop 1 4 8 (Processor.init raw_chain) = some (cycles 1 4 8 (Processor.init raw_chain)) ∧
    ¬ (∃ r0 ∈ (cycles 1 4 8 (Processor.init raw_chain)).output, ∃ r1 ∈ (cycles 1 4 8 (Processor.init raw_chain)).output,
        r0.tag = 0 ∧ r1.tag = 1 ∧
        r0.fetch_timing = ⟨1, 1⟩ ∧ r0.dispatch_timing = ⟨2, 1⟩ ∧ r0.issue_timing = ⟨3, 1⟩ ∧
        r0.execute_timing = ⟨4, 1⟩ ∧ r0.writeback_timing = ⟨5, 1⟩ ∧
        r1.execute_timing.start = 6) ∧
    ¬ (∃ r0 ∈ (cycles 1 4 8 (Processor.init raw_chain)).output, ∃ r1 ∈ (cycles 1 4 8 (Processor.init raw_chain)).output,
        r0.tag = 0 ∧ r1.tag = 1 ∧ r1.execute_timing.start = r0.execute_timing.start + 2) := by
  refine ⟨by rfl, by decide, by decide⟩

/-- Claim C12, as amended: on the chain of three dependent instructions with `N = 1`,
`S = 4` the loop exits after eight iterations; tag 0 is printed with
`IF{0,1} ID{1,1} IS{2,1} EX{3,1} WB{4,1}`, tag 1 with `EX.start = 4`, one cycle after the
`EX.start` of tag 0 (the cycle in which tag 0 completes), and tag 2 one cycle later
again. -/
theorem raw_chain_timing :
    main_loop 1 4 8 (Processor.init raw_chain) = some (cycles 1 4 8 (Processor.init raw_chain)) ∧
    (cycles 1 4 8 (Processor.init raw_chain)).output.map
      (fun i => (i.tag, i.fetch_timing, i.dispatch_timing, i.issue_timing, i.execute_timing,
        i.writeback_timing)) =
      [(0, ⟨0, 1⟩, ⟨1, 1⟩, ⟨2, 1⟩, ⟨3, 1⟩, ⟨4, 1⟩), (1, ⟨1, 1⟩, ⟨2, 1⟩, ⟨3, 1⟩, ⟨4, 1⟩, ⟨5, 1⟩),
       (2, ⟨2, 1⟩, ⟨3, 1⟩, ⟨4, 1⟩, ⟨5, 1⟩, ⟨6, 1⟩)] ∧
    (∀ r0 ∈ (cycles 1 4 8 (Processor.init raw_chain)).output, ∀ r1 ∈ (cycles 1 4 8 (Processor.init raw_chain)).output,
      r0.tag = 0 → r1.tag = 1 →
        r1.execute_timing.start = 4 ∧
        r1.execute_timing.start = r0.execute_timing.start + 1 ∧
        r1.execute_timing.start = r0.writeback_timing.start) := by
  refine ⟨by rfl, by decide, by decide⟩

/-- Claim C13, witness: operation type 1 and destination 5 for both instructions. -/
theorem same_dest_issued_together_witness :
    ((1 : Int) = 0 ∨ (1 : Int) = 1 ∨ (1 : Int) = 2) ∧
    (∀ p, p < 2 →
      ((execute (retire (cycles 2 2 3 (Processor.init (same_dest 4096 4100 1 1 5))))).mem
        p).current_state = State.IS ∧
      ((issue 2 (execute (retire (cycles 2 2 3
        (Processor.init (same_dest 4096 4100 1 1 5)))))).mem p).current_state = State.EX) ∧
    ∃ K r0 r1,
      (∀ fuel, K < fuel →
        main_loop 2 2 fuel (Processor.init (same_dest 4096 4100 1 1 5)) =
          some (cycles 2 2 (K + 1) (Processor.init (same_dest 4096 4100 1 1 5)))) ∧
      (cycles 2 2 (K + 1) (Processor.init (same_dest 4096 4100 1 1 5))).output = [r0, r1] ∧
      r0.tag = 0 ∧ r1.tag = 1 ∧
      r0.execute_timing.start = r1.execute_timing.start ∧ r0.execute_timing.start = 3 :=
  ⟨by decide, (same_dest_issued_together 4096 4100 1 1 5).1,
    (same_dest_issued_together 4096 4100 1 1 5).2 (by decide) (by decide)⟩

/-- Claim C14 (the code breaks it): with `N = 1`, `S = 1` and four independent
instructions of operation type 2 the loop exits after eighteen iterations, and every
record is printed with `ID.duration = 1`; the third one (tag 2) has `ID{3,1}`, not an
`ID.duration` of 10 or more.  The scheduling queue never fills: `issue` moves an entry
to the execute list in the cycle after its dispatch, whatever the number of entries of
the execute list. -/
theorem third_instruction_not_stalled :
    main_loop 1 1 18 (Processor.init scenario_C) = some (cycles 1 1 18 (Processor.init scenario_C)) ∧
    (cycles 1 1 18 (Processor.init scenario_C)).output.map (fun i => (i.tag, i.dispatch_timing)) =
      [(0, ⟨1, 1⟩), (1, ⟨2, 1⟩), (2, ⟨3, 1⟩), (3, ⟨4, 1⟩)] ∧
    (∀ r ∈ (cycles 1 1 18 (Processor.init scenario_C)).output, r.tag = 2 →
      r.dispatch_timing.duration = 1 ∧ ¬ r.dispatch_timing.duration ≥ 10) := by
  refine ⟨by rfl, by decide, by decide⟩

/-- Claim C15, counterexample: with `N = 1`, `S = 1` on `scenario_E`, the call of
`dispatch` of the sixth iteration (cycle 5) renames the reader (tag 3) of register 1; the
producer (tag 0) is the only writer of register 1 and its record has been printed by the
call of `retire` of the same iteration; the reader gets `src1_tag = 0`, not `-1`, and
register 1 is still mapped to tag 0. -/
theorem retired_producer_still_renamed :
    ((issue 1 (execute (retire (cycles 1 1 5 (Processor.init scenario_E))))).mem 3).current_state = State.ID ∧
    ((dispatch 1 1 (issue 1 (execute (retire (cycles 1 1 5 (Processor.init scenario_E)))))).mem 3).current_state = State.IS ∧
    ((dispatch 1 1 (issue 1 (execute (retire (cycles 1 1 5 (Processor.init scenario_E)))))).mem 3).src1_reg = 1 ∧
    (trace_mem scenario_E 0).dest_reg = 1 ∧
    (∀ q2, q2 < 3 → 0 < q2 → (trace_mem scenario_E q2).dest_reg ≠ 1) ∧
    (issue 1 (execute (retire (cycles 1 1 5 (Processor.init scenario_E))))).output.map (fun i => i.tag) = [0] ∧
    (issue 1 (execute (retire (cycles 1 1 5 (Processor.init scenario_E))))).register_file 1 = some 0 ∧
    ((dispatch 1 1 (issue 1 (execute (retire (cycles 1 1 5 (Processor.init scenario_E)))))).mem 3).src1_tag = 0 ∧
    ¬ ((dispatch 1 1 (issue 1 (execute (retire (cycles 1 1 5 (Processor.init scenario_E)))))).mem 3).src1_tag = -1 := by
  decide

/-- Claim C15, witness: the reader of `scenario_E` with `N = 1`, `S = 1`, renamed in the
sixth iteration. -/
theorem retired_producer_tag_is_kept_witness :
    3 < scenario_E.length ∧ 0 < 3 ∧ (1 : Int) ≠ -1 ∧
    (trace_mem scenario_E 0).dest_reg = 1 ∧
    (∀ q2, q2 < 3 → 0 < q2 → (trace_mem scenario_E q2).dest_reg ≠ 1) ∧
    ((dispatch 1 1 (issue 1 (execute (retire (cycles 1 1 5 (Processor.init scenario_E)))))).mem 3).current_state = State.IS ∧
    (∃ i ∈ (issue 1 (execute (retire (cycles 1 1 5 (Processor.init scenario_E))))).output, i.tag = ((0 : Nat) : Int)) ∧
    ((dispatch 1 1 (issue 1 (execute (retire (cycles 1 1 5 (Processor.init scenario_E)))))).mem 3).src1_reg = 1 ∧
    (((dispatch 1 1 (issue 1 (execute (retire (cycles 1 1 5 (Processor.init scenario_E)))))).mem 3).src1_tag = ((0 : Nat) : Int) ∧ ((dispatch 1 1 (issue 1 (execute (retire (cycles 1 1 5 (Processor.init scenario_E)))))).mem 3).src1_tag ≠ -1 ∧
      ((dispatch 1 1 (issue 1 (execute (retire (cycles 1 1 5 (Processor.init scenario_E)))))).mem 3).src1_tag ∈ (dispatch 1 1 (issue 1 (execute (retire (cycles 1 1 5 (Processor.init scenario_E)))))).completed_tags ∧
      src_ready (dispatch 1 1 (issue 1 (execute (retire (cycles 1 1 5 (Processor.init scenario_E)))))) ((dispatch 1 1 (issue 1 (execute (retire (cycles 1 1 5 (Processor.init scenario_E)))))).mem 3).src1_tag ((dispatch 1 1 (issue 1 (execute (retire (cycles 1 1 5 (Processor.init scenario_E)))))).mem 3).src1_reg = true) :=
  ⟨by decide, by decide, by decide, by decide, by decide, by decide, by decide, by decide,
    (retired_producer_tag_is_kept scenario_E 1 1 5 3 0 1 (by decide) (by decide) (by decide)
      (by decide) (by decide) _ _ rfl rfl (by decide) (by decide)).1 (by decide)⟩

/-- Claim C16, witness: a producer of operation type 2 and two readers of its register
with `N = 1`, `S = 4`; in the state in which the fourteenth iteration (cycle 13) calls
`issue` the scheduling queue holds both readers, both ready. -/
theorem issue_moves_oldest_ready_witness :
    2 ≤ 2 ∧ (after_handlers 1 4 2 (cycles 1 4 13 (Processor.init two_readers))).issue_list = [1, 2] ∧ ready_list (after_handlers 1 4 2 (cycles 1 4 13 (Processor.init two_readers))) = [1, 2] ∧
    ∃ moved : List Nat,
      (issue 1 (after_handlers 1 4 2 (cycles 1 4 13 (Processor.init two_readers)))).execute_list = (after_handlers 1 4 2 (cycles 1 4 13 (Processor.init two_readers))).execute_list ++ moved ∧
      moved.length = min 1 (ready_list (after_handlers 1 4 2 (cycles 1 4 13 (Processor.init two_readers)))).length ∧
      moved.Pairwise (fun x y => ((after_handlers 1 4 2 (cycles 1 4 13 (Processor.init two_readers))).mem x).tag < ((after_handlers 1 4 2 (cycles 1 4 13 (Processor.init two_readers))).mem y).tag) ∧
      (∀ p ∈ moved, p ∈ (after_handlers 1 4 2 (cycles 1 4 13 (Processor.init two_readers))).issue_list ∧ issue_ready (after_handlers 1 4 2 (cycles 1 4 13 (Processor.init two_readers))) ((after_handlers 1 4 2 (cycles 1 4 13 (Processor.init two_readers))).mem p) = true) ∧
      (∀ p ∈ moved, ∀ q ∈ (after_handlers 1 4 2 (cycles 1 4 13 (Processor.init two_readers))).issue_list, issue_ready (after_handlers 1 4 2 (cycles 1 4 13 (Processor.init two_readers))) ((after_handlers 1 4 2 (cycles 1 4 13 (Processor.init two_readers))).mem q) = true →
        q ∉ moved → ((after_handlers 1 4 2 (cycles 1 4 13 (Processor.init two_readers))).mem p).tag < ((after_handlers 1 4 2 (cycles 1 4 13 (Processor.init two_readers))).mem q).tag) ∧
      (∀ p ∈ moved, ((after_handlers 1 4 2 (cycles 1 4 13 (Processor.init two_readers))).mem p).current_state = State.IS ∧
        ((issue 1 (after_handlers 1 4 2 (cycles 1 4 13 (Processor.init two_readers)))).mem p).current_state = State.EX ∧ p ∉ (issue 1 (after_handlers 1 4 2 (cycles 1 4 13 (Processor.init two_readers)))).issue_list) ∧
      (∀ q ∈ (after_handlers 1 4 2 (cycles 1 4 13 (Processor.init two_readers))).issue_list, q ∉ moved →
        q ∈ (issue 1 (after_handlers 1 4 2 (cycles 1 4 13 (Processor.init two_readers)))).issue_list ∧ ((issue 1 (after_handlers 1 4 2 (cycles 1 4 13 (Processor.init two_readers)))).mem q).current_state = State.IS ∧
        ((issue 1 (after_handlers 1 4 2 (cycles 1 4 13 (Processor.init two_readers)))).mem q).issue_timing.start = ((after_handlers 1 4 2 (cycles 1 4 13 (Processor.init two_readers))).mem q).issue_timing.start ∧
        ((issue 1 (after_handlers 1 4 2 (cycles 1 4 13 (Processor.init two_readers)))).mem q).issue_timing.duration =
          ((after_handlers 1 4 2 (cycles 1 4 13 (Processor.init two_readers))).mem q).issue_timing.duration + 1) ∧
      (∀ q ∈ (issue 1 (after_handlers 1 4 2 (cycles 1 4 13 (Processor.init two_readers)))).issue_list, q ∈ (after_handlers 1 4 2 (cycles 1 4 13 (Processor.init two_readers))).issue_list ∧ q ∉ moved) ∧
      (∀ p ∈ (after_handlers 1 4 2 (cycles 1 4 13 (Processor.init two_readers))).issue_list, (issue_ready (after_handlers 1 4 2 (cycles 1 4 13 (Processor.init two_readers))) ((after_handlers 1 4 2 (cycles 1 4 13 (Processor.init two_readers))).mem p) = true ↔
        (((after_handlers 1 4 2 (cycles 1 4 13 (Processor.init two_readers))).mem p).src1_tag = -1 ∨ ((after_handlers 1 4 2 (cycles 1 4 13 (Processor.init two_readers))).mem p).src1_tag ∈ (after_handlers 1 4 2 (cycles 1 4 13 (Processor.init two_readers))).completed_tags) ∧
        (((after_handlers 1 4 2 (cycles 1 4 13 (Processor.init two_readers))).mem p).src2_tag = -1 ∨ ((after_handlers 1 4 2 (cycles 1 4 13 (Processor.init two_readers))).mem p).src2_tag ∈ (after_handlers 1 4 2 (cycles 1 4 13 (Processor.init two_readers))).completed_tags))) :=
  ⟨by decide, by decide, by decide,
    issue_moves_oldest_ready two_readers 1 4 13 2 (by decide) _ rfl⟩

/-- Claim C18, witness: the chain of three dependent instructions with `N = 1`, `S = 4`. -/
theorem driver_loop_terminates_witness :
    (∀ l ∈ raw_chain, l.op_type = 0 ∨ l.op_type = 1 ∨ l.op_type = 2) ∧ 1 ≤ 1 ∧ 1 ≤ 4 ∧
    ∃ K, (∀ fuel, K < fuel →
        main_loop 1 4 fuel (Processor.init raw_chain) =
          some (cycles 1 4 (K + 1) (Processor.init raw_chain))) ∧
      (cycles 1 4 (K + 1) (Processor.init raw_chain)).ROB = [] ∧
      (cycles 1 4 (K + 1) (Processor.init raw_chain)).new_instructions = [] ∧
      (cycles 1 4 (K + 1) (Processor.init raw_chain)).output.map (fun i => i.tag) =
        (List.range raw_chain.length).map (fun (p : Nat) => (p : Int)) :=
  ⟨by decide, by decide, by decide,
    driver_loop_terminates raw_chain 1 4 (by decide) (by decide) (by decide)⟩

/-- Claim C19, witness: in the fifth iteration (cycle 4) of the run of the chain of three
dependent instructions with `N = 1`, `S = 4`, `execute` completes tag 0, `issue` selects
tag 1 and `dispatch` admits tag 2; the three stamps are 4. -/
theorem stamps_follow_clock_witness :
    (((dispatch 1 4 (issue 1 (execute (retire (cycles 1 4 4 (Processor.init raw_chain)))))).mem 2).issue_timing.start =
        (issue 1 (execute (retire (cycles 1 4 4 (Processor.init raw_chain))))).current_cycle ∧
      ((issue 1 (execute (retire (cycles 1 4 4 (Processor.init raw_chain))))).mem 1).execute_timing.start =
        (execute (retire (cycles 1 4 4 (Processor.init raw_chain)))).current_cycle ∧
      ((execute (retire (cycles 1 4 4 (Processor.init raw_chain)))).mem 0).writeback_timing.start = (retire (cycles 1 4 4 (Processor.init raw_chain))).current_cycle) ∧
    (retire (cycles 1 4 4 (Processor.init raw_chain))).current_cycle = ((4 : Nat) : Int) :=
  ⟨⟨(stamps_follow_clock raw_chain 1 4 4).1 2 (by decide) (by decide) (by decide),
    (stamps_follow_clock raw_chain 1 4 4).2.1 1 (by decide) (by decide) (by decide),
    (stamps_follow_clock raw_chain 1 4 4).2.2.1 0 (by decide) (by decide) (by decide)⟩,
    (stamps_follow_clock raw_chain 1 4 4).2.2.2.1⟩

/-- Claim C20, witness: the second instruction of the chain of three dependent
instructions with `N = 1`, `S = 4`, renamed in the fourth iteration; its first source
reads the register that tag 0 writes. -/
theorem renamed_to_last_writer_witness :
    1 < raw_chain.length ∧
    ((dispatch 1 4 (issue 1 (execute (retire (cycles 1 4 3 (Processor.init raw_chain)))))).mem 1).current_state = State.IS ∧
    ((dispatch 1 4 (issue 1 (execute (retire (cycles 1 4 3 (Processor.init raw_chain)))))).mem 1).src1_tag = 0 ∧ ((dispatch 1 4 (issue 1 (execute (retire (cycles 1 4 3 (Processor.init raw_chain)))))).mem 1).src1_reg = 1 ∧
    ((((dispatch 1 4 (issue 1 (execute (retire (cycles 1 4 3 (Processor.init raw_chain)))))).mem 1).src1_tag < ((dispatch 1 4 (issue 1 (execute (retire (cycles 1 4 3 (Processor.init raw_chain)))))).mem 1).tag ∧
      (((dispatch 1 4 (issue 1 (execute (retire (cycles 1 4 3 (Processor.init raw_chain)))))).mem 1).src1_reg = -1 ∨
        (((dispatch 1 4 (issue 1 (execute (retire (cycles 1 4 3 (Processor.init raw_chain)))))).mem 1).src1_tag = -1 ∧
          ∀ q : Nat, q < 1 → (trace_mem raw_chain q).dest_reg ≠ ((dispatch 1 4 (issue 1 (execute (retire (cycles 1 4 3 (Processor.init raw_chain)))))).mem 1).src1_reg) ∨
        ∃ q : Nat, q < 1 ∧ ((dispatch 1 4 (issue 1 (execute (retire (cycles 1 4 3 (Processor.init raw_chain)))))).mem 1).src1_tag = (q : Int) ∧
          (trace_mem raw_chain q).dest_reg = ((dispatch 1 4 (issue 1 (execute (retire (cycles 1 4 3 (Processor.init raw_chain)))))).mem 1).src1_reg ∧
          ∀ q2 : Nat, q < q2 → q2 < 1 → (trace_mem raw_chain q2).dest_reg ≠ ((dispatch 1 4 (issue 1 (execute (retire (cycles 1 4 3 (Processor.init raw_chain)))))).mem 1).src1_reg)) ∧
    (((dispatch 1 4 (issue 1 (execute (retire (cycles 1 4 3 (Processor.init raw_chain)))))).mem 1).src2_tag < ((dispatch 1 4 (issue 1 (execute (retire (cycles 1 4 3 (Processor.init raw_chain)))))).mem 1).tag ∧
      (((dispatch 1 4 (issue 1 (execute (retire (cycles 1 4 3 (Processor.init raw_chain)))))).mem 1).src2_reg = -1 ∨
        (((dispatch 1 4 (issue 1 (execute (retire (cycles 1 4 3 (Processor.init raw_chain)))))).mem 1).src2_tag = -1 ∧
          ∀ q : Nat, q < 1 → (trace_mem raw_chain q).dest_reg ≠ ((dispatch 1 4 (issue 1 (execute (retire (cycles 1 4 3 (Processor.init raw_chain)))))).mem 1).src2_reg) ∨
        ∃ q : Nat, q < 1 ∧ ((dispatch 1 4 (issue 1 (execute (retire (cycles 1 4 3 (Processor.init raw_chain)))))).mem 1).src2_tag = (q : Int) ∧
          (trace_mem raw_chain q).dest_reg = ((dispatch 1 4 (issue 1 (execute (retire (cycles 1 4 3 (Processor.init raw_chain)))))).mem 1).src2_reg ∧
          ∀ q2 : Nat, q < q2 → q2 < 1 → (trace_mem raw_chain q2).dest_reg ≠ ((dispatch 1 4 (issue 1 (execute (retire (cycles 1 4 3 (Processor.init raw_chain)))))).mem 1).src2_reg))) :=
  ⟨by decide, by decide, by decide, by decide,
    renamed_to_last_writer raw_chain 1 4 3 1 (by decide) (by decide)⟩

/-! ## Consumers and producers -/

theorem execute_instr_tags (c : Int) (i : Instruction) :
    (execute_instr c i).src1_tag = i.src1_tag ∧ (execute_instr c i).src2_tag = i.src2_tag := by
  unfold execute_instr
  split
  · split
    · exact ⟨rfl, rfl⟩
    · exact ⟨rfl, rfl⟩
  · exact ⟨rfl, rfl⟩

/-- In one iteration `dispatch` and `fetch` leave the records that were dispatched
before as they are. -/
theorem handlers_mem_dispatched {lines : List TraceLine} {N S : Nat} {c : Int}
    {D a f D2 f2 : Nat} {s : Processor} (ph : Phases lines N S c D a f D2 f2 s) {x : Nat}
    (hx : x < D) : (handlers N S s).mem x = (issue N (execute (retire s))).mem x := by
  have hDD : D ≤ D2 := by have := ph.hD2; have := ph.h0.D_le; omega
  have hD2f : D2 ≤ f := by have := ph.h4.D_le; have := ph.h4.a_le; omega
  rw [handlers_eq,
    fetch_mem_of_not_mem N _ (by rw [ph.h4.dl, mem_seg]; omega)
      (by rw [ph.h4.pend, mem_seg]; omega),
    dispatch_mem_of_not_mem N S _ (by rw [ph.h3.dl, mem_seg]; omega)]

/-- One iteration leaves a completed record as it is, the wake-up flags apart. -/
theorem completed_stable_cycle {lines : List TraceLine} {N S : Nat} {s : Processor}
    (hb : Boundary lines N S s) {q : Nat} (hq : q < lines.length)
    (hst : (s.mem q).current_state = State.WB) :
    core ((cycle N S s).mem q) = core (s.mem q) := by
  obtain ⟨D, a, f, D2, f2, ph⟩ := phases_of_boundary hb
  have hr : ((retire s).mem q).current_state = State.WB := by rw [retire_mem]; exact hst
  have hnel : q ∉ (retire s).execute_list := fun hm => by
    have := (ph.h1.hEL q hm).1
    rw [hr] at this; cases this
  have hc := execute_mem_core (retire s) ph.h1.el_nodup q
  rw [if_neg hnel, retire_mem] at hc
  have hste : ((execute (retire s)).mem q).current_state = State.WB := by
    rw [(core_state hc).1]; exact hst
  have hnil : q ∉ (execute (retire s)).issue_list := fun hm => by
    have := (ph.h2.hIL q hm).1
    rw [hste] at this; cases this
  have hqD : q < D := by
    rcases ph.h2.state_cases q hq with h | h | h | h | h
    · exact absurd h.1 hnil
    · rw [hste] at h; cases h.2
    · exact h.1
    · rw [hste] at h; cases h.2.2
    · rw [hste] at h; cases h.2
  rw [cycle_mem, handlers_mem_dispatched ph hqD, issue_mem_of_not_mem N _ hnil]
  exact hc

/-- What one iteration does to a record that is in `EX` or `WB` after it: the record was
in `EX` or `WB` before, with the same `EX` timing and source tags, or `issue` has
selected it in this iteration, and then the producers of its sources have completed. -/
theorem issued_cases {lines : List TraceLine} {N S : Nat} {s : Processor}
    (hb : Boundary lines N S s) {p : Nat} (hp : p < lines.length)
    (hst : ((cycle N S s).mem p).current_state = State.EX ∨
      ((cycle N S s).mem p).current_state = State.WB) :
    (((s.mem p).current_state = State.EX ∨ (s.mem p).current_state = State.WB) ∧
      ((cycle N S s).mem p).execute_timing = (s.mem p).execute_timing ∧
      ((cycle N S s).mem p).src1_tag = (s.mem p).src1_tag ∧
      ((cycle N S s).mem p).src2_tag = (s.mem p).src2_tag) ∨
    (okSrc lines.length (cycle N S s) p ((cycle N S s).mem p).src1_tag ∧
      okSrc lines.length (cycle N S s) p ((cycle N S s).mem p).src2_tag) := by
  obtain ⟨D, a, f, D2, f2, ph⟩ := phases_of_boundary hb
  have hne : ∀ {x : State}, (x = State.EX ∨ x = State.WB) → x ≠ State.IS ∧ x ≠ State.ID ∧
      x ≠ State.IF := by
    intro x hx
    rcases hx with h | h <;> subst h <;> exact ⟨by decide, by decide, by decide⟩
  rw [cycle_mem] at hst ⊢
  have hDn : D ≤ lines.length := by
    have := ph.h0.D_le; have := ph.h0.a_le; have := ph.h0.f_le; omega
  -- the record was dispatched before this iteration
  have hpD : p < D := by
    have hnil5 : p ∉ (handlers N S s).issue_list := fun hm =>
      (hne hst).1 (ph.h5.hIL p hm).1
    have hlt : p < D2 := by
      rcases ph.h5.state_cases p hp with h | h | h | h | h
      · exact absurd h.1 hnil5
      · exact (ph.h5.el_range p h.1).2
      · exact h.1
      · exact absurd h.2.2 (hne hst).2.1
      · exact absurd h.2 (hne hst).2.2
    by_contra hc
    apply hnil5
    rw [ph.il5, ph.il4]
    exact List.mem_append_right _ (mem_seg.mpr ⟨by omega, hlt⟩)
  rw [handlers_mem_dispatched ph hpD] at hst ⊢
  have h2 : Inv lines N S (s.current_cycle + 1) (execute (retire s)).current_cycle
      s.current_cycle s.current_cycle s.current_cycle D a f (execute (retire s)) := by
    rw [ph.c2]; exact ph.h2
  obtain ⟨eq, _⟩ := issue_spec_inv (N := N) h2
  have hmem : ∀ x, (issue N (execute (retire s))).mem x =
      if x ∈ (ready_list (execute (retire s))).take N then
        issue_instr ((execute (retire s)).mem x)
      else if x ∈ (execute (retire s)).issue_list then issue_stall ((execute (retire s)).mem x)
      else (execute (retire s)).mem x := by
    intro x
    rw [eq]
  by_cases hil : p ∈ (execute (retire s)).issue_list
  · -- selected in this iteration
    right
    obtain ⟨hIS, _, _, hclock⟩ := ph.h2.hIL p hil
    have hsel : p ∈ (ready_list (execute (retire s))).take N := by
      by_contra hc
      rw [hmem, if_neg hc, if_pos hil] at hst
      have e : (issue_stall ((execute (retire s)).mem p)).current_state =
          ((execute (retire s)).mem p).current_state := rfl
      rw [e, hIS] at hst
      rcases hst with h | h <;> cases h
    have hready : issue_ready (execute (retire s)) ((execute (retire s)).mem p) = true := by
      have := List.mem_of_mem_take hsel
      unfold ready_list at this
      exact (List.mem_filter.mp this).2
    rw [ph.h2.src_ready_iff hpD] at hready
    have hmp : (issue N (execute (retire s))).mem p =
        issue_instr ((execute (retire s)).mem p) := by rw [hmem, if_pos hsel]
    have hstart : ((issue N (execute (retire s))).mem p).execute_timing.start =
        s.current_cycle := by
      rw [hmp]
      exact hclock
    have key : ∀ t : Int, (t = -1 ∨ t ∈ (execute (retire s)).completed_tags) →
        okSrc lines.length (cycle N S s) p t := by
      intro t ht
      rcases ht with h | h
      · exact Or.inl h
      · obtain ⟨q, hqD, hqt, hqil, hqel⟩ := ph.h2.hcomp t h
        obtain ⟨⟨hw1, _, hw3⟩, _⟩ := ph.h2.hWB q hqD hqil hqel
        have hmq : (cycle N S s).mem q = (execute (retire s)).mem q := by
          rw [cycle_mem, handlers_mem_dispatched ph hqD, issue_mem_of_not_mem N _ hqil]
        have hmp2 : (cycle N S s).mem p = (issue N (execute (retire s))).mem p := by
          rw [cycle_mem, handlers_mem_dispatched ph hpD]
        refine Or.inr ⟨q, by omega, hqt, ?_, ?_⟩
        · rw [hmq]; exact hw1
        · rw [hmq, hmp2, hstart]; omega
    rw [hmp]
    exact ⟨key _ hready.1, key _ hready.2⟩
  · -- issued in an earlier iteration
    left
    rw [issue_mem_of_not_mem N _ hil] at hst ⊢
    have hc := execute_mem_core (retire s) ph.h1.el_nodup p
    obtain ⟨e1, _, e3, _, _, _, e7, e8, _⟩ := core_state hc
    rw [e1] at hst
    rw [e3, e7, e8]
    by_cases hel : p ∈ (retire s).execute_list
    · rw [if_pos hel]
      have hEX := (ph.h1.hEL p hel).1
      rw [retire_mem] at hEX ⊢
      obtain ⟨g1, _⟩ := execute_instr_stamps (retire s).current_cycle (s.mem p)
      obtain ⟨g3, g4⟩ := execute_instr_tags (retire s).current_cycle (s.mem p)
      exact ⟨Or.inl hEX, g1, g3, g4⟩
    · rw [if_neg hel] at hst ⊢
      rw [retire_mem] at hst ⊢
      exact ⟨hst, rfl, rfl, rfl⟩

/-- One iteration preserves `Producers`. -/
theorem producers_cycle {lines : List TraceLine} {N S : Nat} {s : Processor}
    (hb : Boundary lines N S s) (h : Producers lines.length s) :
    Producers lines.length (cycle N S s) := by
  intro p hp hst
  rcases issued_cases hb hp hst with ⟨hs, e1, e2, e3⟩ | hnew
  · obtain ⟨k1, k2⟩ := h p hp hs
    have key : ∀ t : Int, okSrc lines.length s p t → okSrc lines.length (cycle N S s) p t := by
      intro t ht
      rcases ht with h1 | ⟨q, hq, hqt, hqs, hqw⟩
      · exact Or.inl h1
      · have hc := completed_stable_cycle (N := N) (S := S) hb hq hqs
        obtain ⟨c1, c2, _⟩ := core_state hc
        refine Or.inr ⟨q, hq, hqt, by rw [c1]; exact hqs, ?_⟩
        rw [c2, e1]; exact hqw
    rw [e2, e3]
    exact ⟨key _ k1, key _ k2⟩
  · exact hnew

theorem producers_run (lines : List TraceLine) (N S : Nat) :
    ∀ k, Producers lines.length (cycles N S k (Processor.init lines))
  | 0 => by
    intro p hp hst
    have e : ((Processor.init lines).mem p).current_state = State.IF := trace_mem_state lines hp
    have hst2 : ((Processor.init lines).mem p).current_state = State.EX ∨
        ((Processor.init lines).mem p).current_state = State.WB := hst
    rw [e] at hst2
    rcases hst2 with h | h <;> cases h
  | k + 1 => by
    rw [cycles_succ]
    exact producers_cycle (cycles_boundary lines N S k) (producers_run lines N S k)

theorem core_static {x y : Instruction} (h : core x = core y) :
    x.tag = y.tag ∧ x.src1_reg = y.src1_reg ∧ x.src2_reg = y.src2_reg := by
  have e1 := congrArg Instruction.tag h
  have e2 := congrArg Instruction.src1_reg h
  have e3 := congrArg Instruction.src2_reg h
  exact ⟨e1, e2, e3⟩

/-- The record printed for the instruction with tag `q`. -/
theorem Inv.output_at {lines : List TraceLine} {N S : Nat} {cE cI cu cs cF : Int}
    {D a f : Nat} {s : Processor} (h : Inv lines N S cE cI cu cs cF D a f s) {q : Nat}
    (hq : q < s.output.length) : ∃ P ∈ s.output, core P = core (s.mem q) := by
  have h1 : (s.output.map core)[q]? =
      ((List.range s.output.length).map (fun p => core (s.mem p)))[q]? := by rw [h.out]
  rw [List.getElem?_map, List.getElem?_map, List.getElem?_range hq,
    List.getElem?_eq_getElem hq] at h1
  exact ⟨s.output[q], List.getElem_mem _, Option.some.inj h1⟩

/-- Claim C21: in every run (any trace, any `N` and `S`, so in particular operation types
in {0, 1, 2}, `N ≥ 1`, `S ≥ 1`), for every record `I` printed so far (after any number
`k` of iterations, hence also in the state in which the loop of `main` exits), with tag
`p`, and every register `R` other than `-1` that `I` reads and that an earlier instruction
writes, `q` being the latest instruction before `p` that writes `R`: the record `P` of
`q` has been printed too, `P.EX.start + P.EX.duration = P.WB.start`, and
`I.EX.start ≥ P.EX.start + P.EX.duration`. -/
theorem consumer_starts_after_producer (lines : List TraceLine) (N S k : Nat)
    (I : Instruction) (hI : I ∈ (cycles N S k (Processor.init lines)).output)
    (p q : Nat) (R : Int) (hp : I.tag = (p : Int)) (hq : q < p) (hR : R ≠ -1)
    (hreads : I.src1_reg = R ∨ I.src2_reg = R)
    (hdest : (trace_mem lines q).dest_reg = R)
    (hlast : ∀ q2, q2 < p → q < q2 → (trace_mem lines q2).dest_reg ≠ R) :
    ∃ P ∈ (cycles N S k (Processor.init lines)).output,
      P.tag = (q : Int) ∧
      P.execute_timing.start + P.execute_timing.duration = P.writeback_timing.start ∧
      I.execute_timing.start ≥ P.execute_timing.start + P.execute_timing.duration := by
  obtain ⟨s, hs⟩ : ∃ s, s = cycles N S k (Processor.init lines) := ⟨_, rfl⟩
  have hprod := producers_run lines N S k
  obtain ⟨_, D, a, f, hinv⟩ := cycles_boundary lines N S k
  rw [← hs] at hI hprod hinv ⊢
  have hDn : D ≤ lines.length := by
    have := hinv.D_le; have := hinv.a_le; have := hinv.f_le; omega
  have hoD := hinv.le_D
  -- the record of the consumer
  obtain ⟨p2, hp2, hcI, hwI⟩ := hinv.output_record hI
  obtain ⟨t1, t2, t3⟩ := core_static hcI
  have hpp : p2 = p := by
    have := hinv.tag_eq (p := p2) (by omega)
    rw [← t1, hp] at this
    exact_mod_cast this.symm
  subst hpp
  obtain ⟨_, _, gI, _, _, _, g7, g8, _⟩ := core_state hcI
  -- the record of the producer
  have hqo : q < s.output.length := by omega
  obtain ⟨P, hPm, hcP⟩ := hinv.output_at hqo
  obtain ⟨u1, _, _⟩ := core_static hcP
  obtain ⟨_, w2, w3, _⟩ := core_state hcP
  obtain ⟨_, hwq, _⟩ := hinv.output_record hPm
  have hchain : (s.mem q).writeback_timing.start =
      (s.mem q).execute_timing.start + (s.mem q).execute_timing.duration := by
    have h1 := (hinv.hWB q (by omega)
      (fun e => by have := (hinv.il_range q e).1; omega)
      (fun e => by have := (hinv.el_range q e).1; omega)).1
    exact h1.2.1.2.1
  -- the captured tag is the tag of the producer
  have hlw := last_writer_some lines R hR q hdest p2 hq (fun q2 h1 h2 => hlast q2 h2 h1)
  have hrn : rename_src (last_writer lines p2) R = (q : Int) := by
    unfold rename_src
    rw [if_pos hR, hlw]
  obtain ⟨r1, r2⟩ := hinv.hsrc p2 (by omega)
  obtain ⟨k1, k2⟩ := hprod p2 (by omega) (Or.inr hwI.1)
  have key : ∀ t : Int, t = (q : Int) → okSrc lines.length s p2 t →
      (s.mem q).writeback_timing.start ≤ (s.mem p2).execute_timing.start := by
    intro t ht hok
    rcases hok with h | ⟨q2, _, hq2, _, hle⟩
    · rw [ht] at h; omega
    · have : q2 = q := by
        rw [ht] at hq2
        exact_mod_cast hq2
      rw [this] at hle
      exact hle
  have hle : (s.mem q).writeback_timing.start ≤ (s.mem p2).execute_timing.start := by
    rcases hreads with h | h
    · rw [t2] at h
      rw [h, hrn] at r1
      exact key _ r1 k1
    · rw [t3] at h
      rw [h, hrn] at r2
      exact key _ r2 k2
  refine ⟨P, hPm, ?_, ?_, ?_⟩
  · rw [u1]; exact hinv.tag_eq (by omega)
  · rw [w3, w2]; exact hchain.symm
  · rw [gI, w3]
    rw [hchain] at hle
    exact hle

/-- Claim C21, witness: the second instruction of the chain of three dependent
instructions with `N = 1`, `S = 4`, after the eight iterations of the run; it reads
register 1, which the first instruction writes. -/
theorem consumer_starts_after_producer_witness :
    record_B1 ∈ (cycles 1 4 8 (Processor.init raw_chain)).output ∧
    record_B1.tag = ((1 : Nat) : Int) ∧ 0 < 1 ∧ (1 : Int) ≠ -1 ∧
    (record_B1.src1_reg = 1 ∨ record_B1.src2_reg = 1) ∧
    (trace_mem raw_chain 0).dest_reg = 1 ∧
    (∀ q2 : Nat, q2 < 1 → 0 < q2 → (trace_mem raw_chain q2).dest_reg ≠ 1) ∧
    ∃ P ∈ (cycles 1 4 8 (Processor.init raw_chain)).output,
      P.tag = ((0 : Nat) : Int) ∧
      P.execute_timing.start + P.execute_timing.duration = P.writeback_timing.start ∧
      record_B1.execute_timing.start ≥ P.execute_timing.start + P.execute_timing.duration :=
  ⟨by decide, by decide, by decide, by decide, by decide, by decide, by decide,
    consumer_starts_after_producer raw_chain 1 4 8 record_B1 (by decide) 1 0 1 (by decide)
      (by decide) (by decide) (by decide) (by decide) (by decide)⟩

end Tomasulo
